import Mathlib

/-!
# Shallow embedding of `src/lib/flag.c`

A command-line option parser: options are registered with `flag_bool`, `flag_int`,
`flag_double`, `flag_string`, and `flag_parse` scans `argv` in place, writes the
destinations of the options it meets and compacts `argv` to the positional arguments.

Conventions of the embedding.

* A C string is the list of its bytes before the terminating NUL (`Token`); a `char *`
  that may be `NULL` is an `Option Token`.  Reading the byte at index `length` gives NUL
  (`cAt`).
* `argv` is the list of its slots (`Option Token`, `none` being `NULL`), `*pargc` an `Int`.
* The destinations registered by the caller live in caller memory; `Mem` has one area of
  cells for each of the four C types and a descriptor holds the address of its cell (two
  descriptors may hold the same address).
* The process-wide variables `g_usage`, `g_argv0`, `g_flags`, `g_num`, `g_cap` are the
  fields of `Sys`; `g_num` is the length of `g_flags`.
* The exit handler `flag_exit` is a function of its two arguments that either returns an
  `int` or does not return (`none`, as `exit` in `normal_exit`); every call is logged in
  `Sys.calls`, and every call of `process_flag` in `Sys.flagged`.
* The string builder of `str.h` and the conversions of libc are not part of the sources;
  `str_addch`, `str_add`, `str_addf`, `strtol` and the printf conversions are modelled,
  the floating point conversions are parameters (`Env`).
* A step that C leaves undefined (reading a slot outside `argv`, dereferencing `NULL`, a
  negative `memmove` length) is `Except.error Fault.ub`.
-/

namespace FlagC

/-- Bytes of a C string, terminator excluded. -/
abbrev Token := List Char

/-- The terminating byte of a C string. -/
def NUL : Char := Char.ofNat 0

/-- `s[i]` for a C string: the terminator is read at index `s.length`. -/
def cAt (s : Token) (i : Nat) : Char := s.getD i NUL

/-- `o.c_str` seen as a C string: the bytes of the buffer before its first NUL. -/
def c_str (o : Token) : Token := o.takeWhile (fun c => c != NUL)

/-- A double is kept as its 64-bit pattern; conversions to and from text are
parameters of the embedding (`Env.strtod`, `Env.fmt_g`). -/
abbrev Dbl := Nat

inductive flag_type where
  | FLAG_BOOL
  | FLAG_INT
  | FLAG_DOUBLE
  | FLAG_STRING
  deriving DecidableEq, Repr

open flag_type

/-- Descriptor `struct flag`; `pval` is the address of the destination cell in the
area of `Mem` that belongs to `type`. -/
structure flag where
  type : flag_type
  pval : Nat
  shopt : Char
  longopt : Option Token
  longlen : Nat
  arg : Option Token
  usage : Token
  deriving DecidableEq, Repr

/-- Caller memory holding the destinations: one area of cells for each member of
`union all_types`. -/
structure Mem where
  b : Nat → Bool
  s : Nat → Option Token
  i : Nat → Int
  d : Nat → Dbl

/-- Pointwise update of an area of cells. -/
def upd {α : Type} (m : Nat → α) (a : Nat) (v : α) : Nat → α :=
  fun x => if x = a then v else m x

/-- Record of one call of `process_flag`: its four arguments. -/
structure Event where
  f : flag
  arg : Token
  str_value : Option Token
  bool_value : Bool
  deriving DecidableEq, Repr

/-- Process-wide state of the library and the caller memory, with two logs kept for
the statements: the calls made to the exit handler (status, message) and the calls of
`process_flag`, oldest first. -/
structure Sys where
  mem : Mem
  g_usage : Option Token
  g_argv0 : Option Token
  g_flags : List flag
  g_cap : Nat
  calls : List (Int × Token)
  flagged : List Event

/-- Number of registered descriptors. -/
def Sys.g_num (s : Sys) : Nat := s.g_flags.length

/-- What the library is linked against: the installed exit handler and the two
floating point conversions of libc. -/
structure Env where
  flag_exit : Int → Token → Option Int
  strtod : Token → Dbl
  fmt_g : Dbl → Token

inductive Fault where
  | ub
  | fuel
  deriving DecidableEq, Repr

/-! ## libc: numerals -/

/-- Digits of `n` in base `b`, least significant first (`fuel` bounds the number of
digits; `n` itself is always enough when `2 ≤ b`). -/
def digitsLE (b : Nat) : Nat → Nat → List Nat
  | 0, _ => []
  | fuel + 1, n => if n = 0 then [] else (n % b) :: digitsLE b fuel (n / b)

/-- Numeral of a natural number in base `b` without leading zeros (`0` for zero). -/
def natNumeral (b n : Nat) : Token :=
  if n = 0 then ['0'] else ((digitsLE b n n).reverse).map Nat.digitChar

/-- Conversion `%d` of printf. -/
def fmt_d (n : Int) : Token :=
  if n < 0 then '-' :: natNumeral 10 n.natAbs else natNumeral 10 n.natAbs

/-- Conversion `%s` of printf; glibc prints a `NULL` argument as `(null)`. -/
def fmt_s : Option Token → Token
  | some t => t
  | none => ['(', 'n', 'u', 'l', 'l', ')']

/-- Value of a character as a digit, letters counting from ten in either case. -/
def digitVal (c : Char) : Option Nat :=
  if '0' ≤ c ∧ c ≤ '9' then some (c.toNat - '0'.toNat)
  else if 'a' ≤ c ∧ c ≤ 'z' then some (c.toNat - 'a'.toNat + 10)
  else if 'A' ≤ c ∧ c ≤ 'Z' then some (c.toNat - 'A'.toNat + 10)
  else none

/-- Value of the longest prefix of `s` made of digits of base `b`, from accumulator
`acc`. -/
def parseDigits (b : Nat) : Nat → Token → Nat
  | acc, [] => acc
  | acc, c :: cs =>
    match digitVal c with
    | some v => if v < b then parseDigits b (acc * b + v) cs else acc
    | none => acc

/-- Whether `c` is a digit of base `b`. -/
def isDigitOf (b : Nat) (c : Char) : Bool :=
  match digitVal c with
  | some v => decide (v < b)
  | none => false

/-- C `isspace` in the C locale. -/
def isspace (c : Char) : Bool :=
  c = ' ' ∨ c = '\t' ∨ c = '\n' ∨ c = Char.ofNat 11 ∨ c = Char.ofNat 12 ∨ c = '\r'

/-- Magnitude read by `strtol(s, NULL, 0)` once white space and sign are gone: a
`0x`/`0X` prefix followed by a hexadecimal digit selects base 16, another leading `0`
base 8, anything else base 10. -/
def strtolMagnitude : Token → Nat
  | '0' :: x :: c :: cs =>
    if (x = 'x' ∨ x = 'X') ∧ isDigitOf 16 c then parseDigits 16 0 (c :: cs)
    else parseDigits 8 0 (x :: c :: cs)
  | '0' :: cs => parseDigits 8 0 cs
  | cs => parseDigits 10 0 cs

/-- Sign and magnitude of `strtol(s, NULL, 0)` after white space. -/
def strtolSigned : Token → Int
  | '-' :: cs => - (strtolMagnitude cs : Int)
  | '+' :: cs => (strtolMagnitude cs : Int)
  | cs => (strtolMagnitude cs : Int)

/-- `strtol(s, NULL, 0)` for a 64-bit `long`: out of range values are clamped to
`LONG_MIN` and `LONG_MAX`. -/
def strtol (s : Token) : Int :=
  let v := strtolSigned (s.dropWhile isspace)
  if v < -(2 ^ 63 : Int) then -(2 ^ 63 : Int)
  else if (2 ^ 63 : Int) - 1 < v then (2 ^ 63 : Int) - 1
  else v

/-- Conversion of a `long` to a 32-bit `int` (wrap around). -/
def toInt32 (x : Int) : Int := (x + 2 ^ 31) % 2 ^ 32 - 2 ^ 31

/-- Hexadecimal numeral of an integer: sign, `0x`, digits without leading zeros. -/
def hex_numeral (n : Int) : Token :=
  if n < 0 then '-' :: '0' :: 'x' :: natNumeral 16 n.natAbs
  else '0' :: 'x' :: natNumeral 16 n.natAbs

/-! ## Usage text -/

/-- Modelled from the spec: `str_addch` of the string builder `str.h`, which is not
part of the sources; it appends one byte to the buffer. -/
def str_addch (o : Token) (c : Char) : Token := o ++ [c]

/-- Modelled from the spec: `str_add` of the string builder `str.h`, which is not part
of the sources; it appends a C string to the buffer. -/
def str_add (o : Token) (t : Token) : Token := o ++ t

/-- Modelled from the spec: `str_addf` of the string builder `str.h`, which is not part
of the sources; it appends the expansion `text` of its format to the buffer and returns
the number of bytes appended. -/
def str_addf (o : Token) (text : Token) : Token × Int := (o ++ text, (text.length : Int))

/-- The `while` loop of `print_spaces` when it runs `k` times. -/
def print_spaces_loop : Nat → Token → Token
  | 0, o => o
  | k + 1, o => print_spaces_loop k (str_addch o ' ')

/-- The function `print_spaces`: the loop `while (num > 0)` runs `num` times when
`num` is positive and not at all otherwise. -/
def print_spaces (o : Token) (num : Int) : Token := print_spaces_loop num.toNat o

/-- Text of the option forms of one descriptor (the `str_addf` calls of lines 59-75). -/
def flag_forms (f : flag) : Token :=
  if f.type = FLAG_BOOL then
    if f.shopt ≠ NUL ∧ f.longopt.isSome then
      [' ', ' ', '-', f.shopt, ',', ' ', '-', '-'] ++ fmt_s f.longopt
        ++ [',', ' ', '-', '-', 'n', 'o', '-'] ++ fmt_s f.longopt ++ [' ', ' ']
    else if f.longopt.isSome then
      [' ', ' ', '-', '-'] ++ fmt_s f.longopt
        ++ [',', ' ', '-', '-', 'n', 'o', '-'] ++ fmt_s f.longopt ++ [' ', ' ']
    else
      [' ', ' ', '-', f.shopt, ' ', ' ']
  else
    if f.shopt ≠ NUL ∧ f.longopt.isSome then
      [' ', ' ', '-', f.shopt, ' '] ++ fmt_s f.arg ++ [',', ' ', '-', '-']
        ++ fmt_s f.longopt ++ ['='] ++ fmt_s f.arg ++ [' ', ' ']
    else if f.longopt.isSome then
      [' ', ' ', '-', '-'] ++ fmt_s f.longopt ++ ['='] ++ fmt_s f.arg ++ [' ', ' ']
    else
      [' ', ' ', '-', f.shopt, ' '] ++ fmt_s f.arg ++ [' ', ' ']

/-- Default-value annotation of one descriptor (the `switch` of lines 80-97). -/
def flag_default (env : Env) (m : Mem) (f : flag) : Token :=
  match f.type with
  | FLAG_INT => " [default=".toList ++ fmt_d (m.i f.pval) ++ [']']
  | FLAG_DOUBLE => " [default=".toList ++ env.fmt_g (m.d f.pval) ++ [']']
  | FLAG_STRING =>
    match m.s f.pval with
    | some t => " [default=".toList ++ t ++ [']']
    | none => []
  | FLAG_BOOL => if m.b f.pval then " [default=enabled]".toList else []

/-- One iteration of the loop of `print_usage`: the line of descriptor `f`. -/
def flag_line (env : Env) (m : Mem) (o : Token) (f : flag) : Token :=
  let r := str_addf o (flag_forms f)
  let pad : Int := 32 - r.2
  let o1 := print_spaces r.1 pad
  let o2 := str_add o1 f.usage
  let o3 := (str_addf o2 (flag_default env m f)).1
  str_addch o3 '\n'

/-- The function `print_usage`: appends the usage text to `o`. -/
def print_usage (env : Env) (s : Sys) (o : Token) : Token :=
  let o1 := (str_addf o
    ("usage: ".toList ++ fmt_s s.g_argv0 ++ [' '] ++ fmt_s s.g_usage ++ ['\n'])).1
  if s.g_num ≠ 0 then
    s.g_flags.foldl (flag_line env s.mem) (str_add o1 "\noptions:\n".toList)
  else o1

/-- The function `flag_error`, `text` being the expansion of the format: a non-empty
text gets a line break, the usage text follows and the exit handler receives the
buffer as a C string.  Returns what the handler returned, `none` when it does not
return. -/
def flag_error (env : Env) (s : Sys) (code : Int) (text : Token) : Option Int × Sys :=
  let o := (str_addf [] text).1
  let o0 := if o.length ≠ 0 then str_addch o '\n' else o
  let o1 := print_usage env s o0
  let msg := c_str o1
  (env.flag_exit code msg, { s with calls := s.calls ++ [(code, msg)] })

/-! ## Registration -/

/-- The function `append`. -/
def append (s : Sys) (type : flag_type) (p : Nat) (shopt : Char) (longopt : Option Token)
    (arg : Option Token) (usage : Token) : Sys :=
  let cap := if s.g_num = s.g_cap then (s.g_cap + 16) * 3 / 2 else s.g_cap
  let f : flag :=
    { type := type
      shopt := shopt
      longopt := longopt
      longlen := match longopt with
        | some l => l.length
        | none => 0
      arg := arg
      usage := usage
      pval := p }
  { s with g_cap := cap, g_flags := s.g_flags ++ [f] }

def flag_bool (s : Sys) (p : Nat) (shopt : Char) (longopt : Option Token)
    (usage : Token) : Sys :=
  append s FLAG_BOOL p shopt longopt none usage

def flag_int (s : Sys) (p : Nat) (shopt : Char) (longopt : Option Token)
    (arg : Option Token) (usage : Token) : Sys :=
  append s FLAG_INT p shopt longopt arg usage

def flag_double (s : Sys) (p : Nat) (shopt : Char) (longopt : Option Token)
    (arg : Option Token) (usage : Token) : Sys :=
  append s FLAG_DOUBLE p shopt longopt arg usage

def flag_string (s : Sys) (p : Nat) (shopt : Char) (longopt : Option Token)
    (arg : Option Token) (usage : Token) : Sys :=
  append s FLAG_STRING p shopt longopt arg usage

/-! ## Lookup -/

/-- The function `find_long` over the registered descriptors: the first one with a
long name of cached length `len` whose first `len` bytes are those at `name`. -/
def find_long (flags : List flag) (name : Token) (len : Nat) : Option flag :=
  match flags with
  | [] => none
  | f :: rest =>
    match f.longopt with
    | some l =>
      if len = f.longlen ∧ name.take len = l.take len then some f
      else find_long rest name len
    | none => find_long rest name len

/-- The function `find_short`. -/
def find_short (flags : List flag) (name : Char) : Option flag :=
  match flags with
  | [] => none
  | f :: rest => if f.shopt = name then some f else find_short rest name

/-! ## Parsing -/

/-- The `switch` of `process_flag` (lines 174-187): the write into the cell of the
descriptor.  The guard of line 170 keeps a `NULL` value away from the conversions. -/
def store (env : Env) (m : Mem) (f : flag) (str_value : Option Token) (bool_value : Bool) :
    Mem :=
  match f.type, str_value with
  | FLAG_BOOL, _ => { m with b := upd m.b f.pval bool_value }
  | FLAG_INT, some v => { m with i := upd m.i f.pval (toInt32 (strtol v)) }
  | FLAG_DOUBLE, some v => { m with d := upd m.d f.pval (env.strtod v) }
  | FLAG_STRING, some v => { m with s := upd m.s f.pval (some v) }
  | _, none => m

/-- The function `process_flag`: the error of a missing value, or the write into the
cell of the descriptor.  Returns the `int` result (`none` when the exit handler did
not return). -/
def process_flag (env : Env) (s : Sys) (f : flag) (arg : Token) (str_value : Option Token)
    (bool_value : Bool) : Option Int × Sys :=
  let s0 := { s with flagged := s.flagged ++ [⟨f, arg, str_value, bool_value⟩] }
  if str_value = none ∧ f.type ≠ FLAG_BOOL then
    flag_error env s0 2 ("expected value for ".toList ++ arg)
  else
    (some 0, { s0 with mem := store env s0.mem f str_value bool_value })

/-- The `memmove` of `remove_argument`: `n` slots starting at `i + 1` are copied to
the slots starting at `i`; the other slots keep their content. -/
def shift_left (argv : List (Option Token)) (i n : Nat) : List (Option Token) :=
  argv.take i ++ (argv.drop (i + 1)).take n ++ argv.drop (i + n)

/-- The function `remove_argument`: returns `argv[i]`, the new `*pargc` and the slots.
Undefined when slot `i` is outside `argv`, when the length `*pargc - (i + 1)` is negative
or when the slots moved do not all lie in `argv`. -/
def remove_argument (i : Nat) (pargc : Int) (argv : List (Option Token)) :
    Except Fault (Option Token × Int × List (Option Token)) :=
  if i < argv.length ∧ 0 ≤ pargc - ((i : Int) + 1) ∧ pargc ≤ (argv.length : Int) then
    .ok (argv.getD i none, pargc - 1, shift_left argv i (pargc - ((i : Int) + 1)).toNat)
  else .error Fault.ub

/-- The function `unknown_flag`. -/
def unknown_flag (env : Env) (s : Sys) (arg : Token) : Option Int × Sys :=
  flag_error env s 2 ("unknown flag ".toList ++ arg)

/-- How the scanning loop of `flag_parse` is left: by a `return` of the given value
(`none` when the exit handler did not return), or to the code after the loop. -/
inductive LoopEnd where
  | ret (r : Option Int)
  | done
  deriving DecidableEq, Repr

/-- Position of the first `=` of a token (`memchr(arg, '=', len)`). -/
def find_eq : Token → Option Nat
  | [] => none
  | c :: cs => if c = '=' then some 0 else (find_eq cs).map (fun k => k + 1)

/-- State of the loop of `flag_parse`: `*pargc`, the slots of `argv` and the rest. -/
structure Scan where
  pargc : Int
  argv : List (Option Token)
  sys : Sys

/-- What the `if` chain of lines 214-263 finds in a removed dash token. -/
inductive Kind where
  | help
  | stop
  | unknown
  | negated (f : flag)
  | long (f : flag) (value : Option Token)
  | short (f : flag)
  deriving DecidableEq, Repr

/-- The `if` chain of the body of the loop of `flag_parse` (lines 214-263) on the
removed token `arg`, with the lookups it makes. -/
def kind_of (flags : List flag) (arg : Token) : Kind :=
  if arg = ['-', '-', 'h', 'e', 'l', 'p'] ∨ arg = ['-', 'h'] then .help
  else if arg = ['-', '-'] then .stop
  else if arg.take 5 = ['-', '-', 'n', 'o', '-'] then
    let len := arg.length
    match find_long flags (arg.drop 5) (len - 5) with
    | none => .unknown
    | some f => .negated f
  else if cAt arg 1 = '-' then
    let eq := find_eq arg
    let len := match eq with
      | some k => k
      | none => arg.length
    let value := eq.map (fun k => arg.drop (k + 1))
    match find_long flags (arg.drop 2) (len - 2) with
    | none => .unknown
    | some f => .long f value
  else if cAt arg 1 ≠ NUL ∧ cAt arg 2 = NUL then
    match find_short flags (cAt arg 1) with
    | none => .unknown
    | some f => .short f
  else .unknown

/-- What the body of the loop does with the removed token `arg`, the loop index being
`i`: it leaves the loop (`Sum.inl`) or goes on with the value of `err` (`Sum.inr`). -/
def classify (env : Env) (i : Nat) (arg : Token) (st : Scan) :
    Except Fault ((LoopEnd ⊕ Option Int) × Scan) :=
  match kind_of st.sys.g_flags arg with
  | .help =>
    let r := flag_error env st.sys 1 []
    .ok (.inl (.ret r.1), { st with sys := r.2 })
  | .stop => .ok (.inl .done, st)
  | .unknown =>
    let r := unknown_flag env st.sys arg
    .ok (.inl (.ret r.1), { st with sys := r.2 })
  | .negated f =>
    let r := process_flag env st.sys f arg none false
    .ok (.inr r.1, { st with sys := r.2 })
  | .long f value =>
    let r := process_flag env st.sys f arg value true
    .ok (.inr r.1, { st with sys := r.2 })
  | .short f =>
    if f.type ≠ FLAG_BOOL ∧ (i : Int) < st.pargc then
      match remove_argument i st.pargc st.argv with
      | .error e => .error e
      | .ok (value, pargc1, argv1) =>
        let r := process_flag env st.sys f arg value true
        .ok (.inr r.1, { pargc := pargc1, argv := argv1, sys := r.2 })
    else
      let r := process_flag env st.sys f arg none true
      .ok (.inr r.1, { st with sys := r.2 })

/-- One iteration of the loop of `flag_parse` at index `i < *pargc`: the loop is left
(`Sum.inl`) or goes on at the index given (`Sum.inr`). -/
def body (env : Env) (i : Nat) (st : Scan) : Except Fault ((LoopEnd ⊕ Nat) × Scan) :=
  match st.argv.getD i none, decide (i < st.argv.length) with
  | _, false => .error Fault.ub
  | none, true => .error Fault.ub
  | some tok, true =>
    if cAt tok 0 ≠ '-' then .ok (.inr (i + 1), st)
    else
      match remove_argument i st.pargc st.argv with
      | .error e => .error e
      | .ok (none, _, _) => .error Fault.ub
      | .ok (some arg, pargc1, argv1) =>
        match classify env i arg { st with pargc := pargc1, argv := argv1 } with
        | .error e => .error e
        | .ok (.inl e, st2) => .ok (.inl e, st2)
        | .ok (.inr none, st2) => .ok (.inl (.ret none), st2)
        | .ok (.inr (some err), st2) =>
          if err ≠ 0 then .ok (.inl (.ret (some err)), st2) else .ok (.inr i, st2)

/-- The loop `for (int i = 0; i < *pargc;)` of `flag_parse`, from index `i`; every
iteration uses one unit of `fuel`. -/
def scan (env : Env) : Nat → Nat → Scan → Except Fault (LoopEnd × Scan)
  | fuel, i, st =>
    if (i : Int) < st.pargc then
      match fuel with
      | 0 => .error Fault.fuel
      | fuel + 1 =>
        match body env i st with
        | .error e => .error e
        | .ok (.inl e, st1) => .ok (e, st1)
        | .ok (.inr j, st1) => scan env fuel j st1
    else .ok (.done, st)

/-- The first `n` iterations of the loop of `flag_parse` from index `i`: the way the
loop was left within them, or the index at which the next iteration starts. -/
def run (env : Env) : Nat → Nat → Scan → Except Fault ((LoopEnd ⊕ Nat) × Scan)
  | 0, i, st => .ok (.inr i, st)
  | n + 1, i, st =>
    if (i : Int) < st.pargc then
      match body env i st with
      | .error e => .error e
      | .ok (.inl e, st1) => .ok (.inl e, st1)
      | .ok (.inr j, st1) => run env n j st1
    else .ok (.inl .done, st)

/-- What a call of `flag_parse` leaves: the value returned (`none` when the exit
handler did not return), `*pargc`, the slots of `argv` and the rest of the state. -/
structure Result where
  ret : Option Int
  pargc : Int
  argv : List (Option Token)
  sys : Sys

/-- The end of `flag_parse` (lines 270-281), reached when the loop is left otherwise
than by `return`: the check of `minargs`, then the `NULL` written to `argv[*pargc]` and
the registry released. -/
def after_loop (env : Env) (minargs : Int) (st : Scan) : Except Fault Result :=
  if st.pargc < minargs then
    let r := flag_error env st.sys 3
      ("expected ".toList ++ fmt_d minargs ++ " arguments".toList)
    .ok { ret := r.1, pargc := st.pargc, argv := st.argv, sys := r.2 }
  else if 0 ≤ st.pargc ∧ st.pargc < (st.argv.length : Int) then
    .ok { ret := some 0
          pargc := st.pargc
          argv := st.argv.set st.pargc.toNat none
          sys := { st.sys with g_flags := [], g_cap := 0 } }
  else .error Fault.ub

/-- The function `flag_parse`.  The loop gets `*pargc` units of fuel, one for each
slot left after the program name. -/
def flag_parse (env : Env) (s : Sys) (pargc : Int) (argv : List (Option Token))
    (usage : Token) (minargs : Int) : Except Fault Result :=
  let s1 := { s with g_usage := some usage }
  match remove_argument 0 pargc argv with
  | .error e => .error e
  | .ok (argv0, pargc1, argv1) =>
    let s2 := { s1 with g_argv0 := argv0 }
    match scan env pargc1.toNat 0 { pargc := pargc1, argv := argv1, sys := s2 } with
    | .error e => .error e
    | .ok (.ret r, st) => .ok { ret := r, pargc := st.pargc, argv := st.argv, sys := st.sys }
    | .ok (.done, st) => after_loop env minargs st

/-! ## The loop seen on lists

The slots `argv[0 .. *pargc)` are split into the tokens already kept (`pre`, indices
below the loop index) and the tokens not yet scanned (`rest`).  The definitions below
describe the loop on this pair; `scan_slots` shows that the loop on the slots of `argv`
computes exactly this. -/

/-- Slots of an `argv` whose first entries are the tokens `toks`, followed by the
slots `tail` (the `NULL` sentinel and what earlier shifts left behind). -/
def slots (toks : List Token) (tail : List (Option Token)) : List (Option Token) :=
  toks.map some ++ tail

/-- The `argv` of a caller: the tokens and the `NULL` sentinel. -/
def mkArgv (toks : List Token) : List (Option Token) := slots toks [none]

/-- List view of `classify`: `rest` are the tokens after the removed token `arg`; the
tokens left to scan are returned. -/
def classifyL (env : Env) (arg : Token) (rest : List Token) (s : Sys) :
    (LoopEnd ⊕ Option Int) × List Token × Sys :=
  match kind_of s.g_flags arg with
  | .help => (.inl (.ret (flag_error env s 1 []).1), rest, (flag_error env s 1 []).2)
  | .stop => (.inl .done, rest, s)
  | .unknown => (.inl (.ret (unknown_flag env s arg).1), rest, (unknown_flag env s arg).2)
  | .negated f =>
    (.inr (process_flag env s f arg none false).1, rest,
      (process_flag env s f arg none false).2)
  | .long f value =>
    (.inr (process_flag env s f arg value true).1, rest,
      (process_flag env s f arg value true).2)
  | .short f =>
    if f.type ≠ FLAG_BOOL then
      match rest with
      | v :: rest1 =>
        (.inr (process_flag env s f arg (some v) true).1, rest1,
          (process_flag env s f arg (some v) true).2)
      | [] =>
        (.inr (process_flag env s f arg none true).1, [],
          (process_flag env s f arg none true).2)
    else
      (.inr (process_flag env s f arg none true).1, rest,
        (process_flag env s f arg none true).2)

/-- List view of `body`: one iteration on the kept tokens `pre` and the tokens
`tok :: rest` not yet scanned.  Returns the way the loop goes on (`Sum.inr ()` for the
next iteration), the kept tokens, the tokens left to scan and the state. -/
def bodyL (env : Env) (pre : List Token) (tok : Token) (rest : List Token) (s : Sys) :
    (LoopEnd ⊕ Unit) × List Token × List Token × Sys :=
  if cAt tok 0 ≠ '-' then (.inr (), pre ++ [tok], rest, s)
  else
    match classifyL env tok rest s with
    | (.inl e, rest1, s1) => (.inl e, pre, rest1, s1)
    | (.inr none, rest1, s1) => (.inl (.ret none), pre, rest1, s1)
    | (.inr (some err), rest1, s1) =>
      if err ≠ 0 then (.inl (.ret (some err)), pre, rest1, s1) else (.inr (), pre, rest1, s1)

/-- List view of `scan`: returns the way the loop was left, the tokens
`argv[0 .. *pargc)` at that point and the state. -/
def scanL (env : Env) : Nat → List Token → List Token → Sys →
    Except Fault (LoopEnd × List Token × Sys)
  | _, pre, [], s => .ok (.done, pre, s)
  | 0, _, _ :: _, _ => .error Fault.fuel
  | fuel + 1, pre, tok :: rest, s =>
    match bodyL env pre tok rest s with
    | (.inl e, pre1, rest1, s1) => .ok (e, pre1 ++ rest1, s1)
    | (.inr (), pre1, rest1, s1) => scanL env fuel pre1 rest1 s1

/-- List view of `run`: the first `n` iterations. -/
def runL (env : Env) : Nat → List Token → List Token → Sys →
    (LoopEnd ⊕ Unit) × List Token × List Token × Sys
  | 0, pre, rest, s => (.inr (), pre, rest, s)
  | _ + 1, pre, [], s => (.inl .done, pre, [], s)
  | n + 1, pre, tok :: rest, s =>
    match bodyL env pre tok rest s with
    | (.inl e, pre1, rest1, s1) => (.inl e, pre1, rest1, s1)
    | (.inr (), pre1, rest1, s1) => runL env n pre1 rest1 s1

/-- The state in which the loop of `flag_parse` starts for the caller's tokens
`prog :: args`. -/
def start (s : Sys) (prog : Token) (usage : Token) : Sys :=
  { s with g_usage := some usage, g_argv0 := some prog }

/-- A registry as `append` builds it: every cached length is the length of the long
name (`0` without one). -/
def Registered (flags : List flag) : Prop :=
  ∀ f ∈ flags, f.longlen = match f.longopt with
    | some l => l.length
    | none => 0

/-- The loop state whose slots `argv[0 .. *pargc)` are the tokens `toks`. -/
def toScan (toks : List Token) (tail : List (Option Token)) (s : Sys) : Scan :=
  { pargc := ((toks.length : Nat) : Int), argv := slots toks tail, sys := s }

/-- The state of the loop of `flag_parse` after `remove_argument(0, ...)` on the
caller's `prog :: args`: the slots have moved down by one and the last one is
duplicated. -/
def init_scan (s : Sys) (prog : Token) (args : List Token) (usage : Token) : Scan :=
  { pargc := ((args.length : Nat) : Int)
    argv := shift_left (mkArgv (prog :: args)) 0 args.length
    sys := start s prog usage }

/-- The usage text as the exit handler receives it when no error line precedes it. -/
def usage_text (env : Env) (s : Sys) : Token := c_str (print_usage env s [])

/-- Scanning reaches the token `tok`: the loop of `flag_parse`, called on the tokens
`prog :: args`, has made `n` iterations without being left, and the next one starts at
index `i` in the state `st`, where `argv[i]` is `tok`. -/
def Reaches (env : Env) (s : Sys) (prog : Token) (args : List Token) (usage : Token)
    (n i : Nat) (st : Scan) (tok : Token) : Prop :=
  run env n 0 (init_scan s prog args usage) = .ok (.inr i, st) ∧
    (i : Int) < st.pargc ∧ st.argv.getD i none = some tok

/-- The tokens `argv[0 .. *pargc)` of a loop state. -/
def Scan.remaining (st : Scan) : List (Option Token) := st.argv.take st.pargc.toNat

/-- The tokens `argv[0 .. *pargc)` that a call of `flag_parse` leaves. -/
def Result.remaining (r : Result) : List (Option Token) := r.argv.take r.pargc.toNat

/-- What a run of library code leaves alone: the registry and the two texts of the
usage line are kept, the two logs only grow. -/
def Frame (s s1 : Sys) : Prop :=
  s1.g_flags = s.g_flags ∧ s1.g_usage = s.g_usage ∧ s1.g_argv0 = s.g_argv0 ∧
    s1.g_cap = s.g_cap ∧ s.calls <+: s1.calls ∧ s.flagged <+: s1.flagged

/-- The loop of `flag_parse` only adds calls of the exit handler with status 1 or 2. -/
def LoopCalls (s s1 : Sys) : Prop :=
  ∃ extra, s1.calls = s.calls ++ extra ∧ ∀ c ∈ extra, c.1 = 1 ∨ c.1 = 2

/-- The name `N` is the long name of a registered option. -/
def LongName (flags : List flag) (N : Token) : Prop := ∃ f ∈ flags, f.longopt = some N

/-- The character `c` is the short name of a registered option. -/
def ShortName (flags : List flag) (c : Char) : Prop := ∃ f ∈ flags, f.shopt = c

/-- A long form token of the grammar: it starts with `--` and is neither `--help`, nor
`--`, nor the negative form. -/
def LongForm (tok : Token) : Prop :=
  cAt tok 0 = '-' ∧ cAt tok 1 = '-' ∧ tok ≠ ['-', '-', 'h', 'e', 'l', 'p'] ∧
    tok ≠ ['-', '-'] ∧ tok.take 5 ≠ ['-', '-', 'n', 'o', '-']

/-- A short form token of the grammar for the character `c`: a dash and `c`, the tokens
`-h` and `--` being the help request and the end of the flags. -/
def ShortForm (tok : Token) (c : Char) : Prop :=
  tok = ['-', c] ∧ c ≠ NUL ∧ c ≠ '-' ∧ c ≠ 'h'

/-- The test `if (err) return err;` of lines 265-267 on the result of `process_flag`
(`none` when the exit handler did not return): the loop is left, or goes on. -/
def err_ctl (err : Option Int) : LoopEnd ⊕ Unit :=
  match err with
  | none => .inl (.ret none)
  | some e => if e ≠ 0 then .inl (.ret (some e)) else .inr ()

/-- Content of a destination cell of any of the four areas. -/
inductive Val where
  | b (x : Bool)
  | s (x : Option Token)
  | i (x : Int)
  | d (x : Dbl)
  deriving DecidableEq, Repr

/-- The cell at address `a` of the area of the type `t`. -/
def Mem.read (m : Mem) (t : flag_type) (a : Nat) : Val :=
  match t with
  | FLAG_BOOL => .b (m.b a)
  | FLAG_STRING => .s (m.s a)
  | FLAG_INT => .i (m.i a)
  | FLAG_DOUBLE => .d (m.d a)

/-- The writes of a list of calls of `process_flag`, in order. -/
def apply_events (env : Env) (m : Mem) (evs : List Event) : Mem :=
  evs.foldl (fun m e => store env m e.f e.str_value e.bool_value) m

/-- The token of a call of `process_flag` names the descriptor of the call: the `if`
chain of the loop finds this descriptor in it, as a negation, as a long form with the
value of the call, or as a short form. -/
def Names (flags : List flag) (ev : Event) : Prop :=
  (kind_of flags ev.arg = .negated ev.f ∧ ev.str_value = none ∧ ev.bool_value = false) ∨
    (kind_of flags ev.arg = .long ev.f ev.str_value ∧ ev.bool_value = true) ∨
    (kind_of flags ev.arg = .short ev.f ∧ ev.bool_value = true ∧
      (ev.f.type = FLAG_BOOL → ev.str_value = none))

/-! ## The positional arguments, in the words of the specification -/

/-- Whether `tok` is a short form token `-C` whose `C` is the short name of a
registered option that is not a bool: such a token consumes the token after it. -/
def takes_value (flags : List flag) (tok : Token) : Bool :=
  match tok with
  | [a, c] =>
    decide (a = '-') &&
      (match find_short flags c with
        | some f => decide (f.type ≠ FLAG_BOOL)
        | none => false)
  | _ => false

/-- The positional arguments of the tokens after the program name: every token before
the first `--` scanned as a flag that does not begin with `-` and is not consumed as
the value of the short form token before it, then every token after that `--`. -/
def positionals (flags : List flag) : List Token → List Token
  | [] => []
  | tok :: rest =>
    if tok = ['-', '-'] then rest
    else if cAt tok 0 ≠ '-' then tok :: positionals flags rest
    else if takes_value flags tok then
      match rest with
      | [] => []
      | _ :: rest1 => positionals flags rest1
    else positionals flags rest

/-- Whether some token `--` is scanned as a flag: one that is not consumed as the value
of the short form token before it. -/
def has_stop (flags : List flag) : List Token → Bool
  | [] => false
  | tok :: rest =>
    if tok = ['-', '-'] then true
    else if cAt tok 0 ≠ '-' then has_stop flags rest
    else if takes_value flags tok then
      match rest with
      | [] => false
      | _ :: rest1 => has_stop flags rest1
    else has_stop flags rest

/-! ## A sample registry

The registry of the scenario of the specification: a bool `verbose`/`-v`, an int
`count`/`-c` with default 1 and a string `name`. -/

/-- An exit handler that returns the status it is given. -/
def demo_env : Env :=
  { flag_exit := fun code _ => some code
    strtod := fun _ => 0
    fmt_g := fun _ => [] }

/-- Caller memory before any registration: `verbose` false, `count` 1, `name` `NULL`. -/
def demo_mem : Mem :=
  { b := fun _ => false
    s := fun _ => none
    i := fun _ => 1
    d := fun _ => 0 }

/-- The library before any registration. -/
def sys_empty (m : Mem) : Sys :=
  { mem := m, g_usage := none, g_argv0 := none, g_flags := [], g_cap := 0, calls := [],
    flagged := [] }

/-- The state after the three registrations of the scenario. -/
def demo_sys : Sys :=
  flag_string
    (flag_int
      (flag_bool (sys_empty demo_mem) 0 'v' (some ['v', 'e', 'r', 'b', 'o', 's', 'e'])
        ['l', 'o', 'u', 'd'])
      0 'c' (some ['c', 'o', 'u', 'n', 't']) (some ['N']) ['h', 'o', 'w'])
    0 NUL (some ['n', 'a', 'm', 'e']) (some ['S']) ['w', 'h', 'o']

/-- The descriptor of `count` in the sample registry. -/
def demo_count : flag :=
  { type := FLAG_INT, pval := 0, shopt := 'c', longopt := some ['c', 'o', 'u', 'n', 't'],
    longlen := 5, arg := some ['N'], usage := ['h', 'o', 'w'] }

/-- The descriptor of `verbose` in the sample registry. -/
def demo_verbose : flag :=
  { type := FLAG_BOOL, pval := 0, shopt := 'v',
    longopt := some ['v', 'e', 'r', 'b', 'o', 's', 'e'], longlen := 7, arg := none,
    usage := ['l', 'o', 'u', 'd'] }

/-- The descriptor of `name` in the sample registry. -/
def demo_name : flag :=
  { type := FLAG_STRING, pval := 0, shopt := NUL, longopt := some ['n', 'a', 'm', 'e'],
    longlen := 4, arg := some ['S'], usage := ['w', 'h', 'o'] }

/-- The state of the loop after its first `n` iterations on the sample registry. -/
def demo_state (n : Nat) (args : List Token) : Scan :=
  match run demo_env n 0 (init_scan demo_sys ['p'] args ['u']) with
  | .ok (_, st) => st
  | .error _ => init_scan demo_sys ['p'] args ['u']

/-- A registry with one bool option, of long name `help`. -/
def help_sys : Sys :=
  flag_bool (sys_empty demo_mem) 0 NUL (some ['h', 'e', 'l', 'p']) ['x']

/-- The descriptor of the option of `help_sys`. -/
def help_flag : flag :=
  { type := FLAG_BOOL, pval := 0, shopt := NUL, longopt := some ['h', 'e', 'l', 'p'],
    longlen := 4, arg := none, usage := ['x'] }

/-- A registry with an int option of short name `h` and an int option of short name
`-` and long name `x`. -/
def odd_sys : Sys :=
  flag_int (flag_int (sys_empty demo_mem) 0 'h' none (some ['N']) ['x'])
    1 '-' (some ['x']) (some ['N']) ['y']

/-- A registry with two string options of short names `a` and `b` that share one
destination. -/
def alias_sys : Sys :=
  flag_string (flag_string (sys_empty demo_mem) 0 'a' none (some ['S']) ['x'])
    0 'b' none (some ['S']) ['y']

/-- The token `--count=7`. -/
def tok_count_7 : Token := ['-', '-', 'c', 'o', 'u', 'n', 't', '=', '7']

/-- The token `--verbose`. -/
def tok_verbose : Token := ['-', '-', 'v', 'e', 'r', 'b', 'o', 's', 'e']

/-- The token `--no-count`. -/
def tok_no_count : Token := ['-', '-', 'n', 'o', '-', 'c', 'o', 'u', 'n', 't']

/-- The token `--no-verbose`. -/
def tok_no_verbose : Token :=
  ['-', '-', 'n', 'o', '-', 'v', 'e', 'r', 'b', 'o', 's', 'e']

/-- The token `--count`. -/
def tok_count : Token := ['-', '-', 'c', 'o', 'u', 'n', 't']

/-- An exit handler that returns 0 whatever it is given. -/
def zero_env : Env :=
  { flag_exit := fun _ _ => some 0
    strtod := fun _ => 0
    fmt_g := fun _ => [] }

/-- The token `--bogus`. -/
def tok_bogus : Token := ['-', '-', 'b', 'o', 'g', 'u', 's']

/-- Every call of the exit handler made between the states `s` and `s1` returned 0. -/
def ZeroCalls (env : Env) (s s1 : Sys) : Prop :=
  ∃ extra, s1.calls = s.calls ++ extra ∧ ∀ c ∈ extra, env.flag_exit c.1 c.2 = some 0

/-! ## The usage text, in the words of the specification -/

/-- The arguments of one call of a registration function: `flag_bool`, `flag_int`,
`flag_double` or `flag_string` by `type`, the destination `p`, the two names, the
placeholder (`flag_bool` takes none) and the help text. -/
structure Reg where
  type : flag_type
  p : Nat
  shopt : Char
  longopt : Option Token
  arg : Option Token
  usage : Token
  deriving DecidableEq, Repr

/-- The registration call described by `r`. -/
def register (s : Sys) (r : Reg) : Sys :=
  match r.type with
  | FLAG_BOOL => flag_bool s r.p r.shopt r.longopt r.usage
  | FLAG_INT => flag_int s r.p r.shopt r.longopt r.arg r.usage
  | FLAG_DOUBLE => flag_double s r.p r.shopt r.longopt r.arg r.usage
  | FLAG_STRING => flag_string s r.p r.shopt r.longopt r.arg r.usage

/-- A sequence of registration calls, in order. -/
def register_all (s : Sys) (rs : List Reg) : Sys := rs.foldl register s

/-- The descriptor that the registration `r` appends. -/
def Reg.descriptor (r : Reg) : flag :=
  { type := r.type
    pval := r.p
    shopt := r.shopt
    longopt := r.longopt
    longlen := match r.longopt with
      | some l => l.length
      | none => 0
    arg := if r.type = FLAG_BOOL then none else r.arg
    usage := r.usage }

/-- The option forms of a descriptor line as the specification lists them, by kind and
by the names that are present (a long name that is not null, a short name that is not
NUL): `-X, --long, --no-long`, `--long, --no-long` or `-X` for a bool;
`-X VALUE, --long=VALUE`, `--long=VALUE` or `-X VALUE` otherwise. -/
def layout_form (r : Reg) : Token :=
  match r.type, r.longopt with
  | FLAG_BOOL, some long =>
    if r.shopt ≠ NUL then
      ['-', r.shopt] ++ ", --".toList ++ long ++ ", --no-".toList ++ long
    else "--".toList ++ long ++ ", --no-".toList ++ long
  | FLAG_BOOL, none => ['-', r.shopt]
  | _, some long =>
    if r.shopt ≠ NUL then
      ['-', r.shopt, ' '] ++ fmt_s r.arg ++ ", --".toList ++ long ++ ['='] ++ fmt_s r.arg
    else "--".toList ++ long ++ ['='] ++ fmt_s r.arg
  | _, none => ['-', r.shopt, ' '] ++ fmt_s r.arg

/-- The default-value annotation of a descriptor line for the memory `m`. -/
def layout_default (env : Env) (m : Mem) (r : Reg) : Token :=
  match r.type with
  | FLAG_INT => " [default=".toList ++ fmt_d (m.i r.p) ++ [']']
  | FLAG_DOUBLE => " [default=".toList ++ env.fmt_g (m.d r.p) ++ [']']
  | FLAG_STRING =>
    match m.s r.p with
    | some t => " [default=".toList ++ t ++ [']']
    | none => []
  | FLAG_BOOL => if m.b r.p then " [default=enabled]".toList else []

/-- One descriptor line of the reference layout: two spaces, the option forms, two
spaces, the padding to column 32, the help text, the annotation and one line break. -/
def layout_line (env : Env) (m : Mem) (r : Reg) : Token :=
  [' ', ' '] ++ layout_form r ++ [' ', ' ']
    ++ List.replicate (32 - ((layout_form r).length + 4)) ' '
    ++ r.usage ++ layout_default env m r ++ ['\n']

/-- The reference layout of the usage text: the header line; when there are
registrations, a blank line, `options:` and one line for each of them, in order. -/
def usage_layout (env : Env) (m : Mem) (prog usageLine : Token) (rs : List Reg) : Token :=
  "usage: ".toList ++ prog ++ [' '] ++ usageLine ++ ['\n']
    ++ (if rs = [] then []
        else ['\n'] ++ "options:".toList ++ ['\n'] ++ (rs.map (layout_line env m)).flatten)

/-- The three registrations of the scenario. -/
def demo_regs : List Reg :=
  [{ type := FLAG_BOOL, p := 0, shopt := 'v',
     longopt := some ['v', 'e', 'r', 'b', 'o', 's', 'e'], arg := none,
     usage := ['l', 'o', 'u', 'd'] },
   { type := FLAG_INT, p := 0, shopt := 'c', longopt := some ['c', 'o', 'u', 'n', 't'],
     arg := some ['N'], usage := ['h', 'o', 'w'] },
   { type := FLAG_STRING, p := 0, shopt := NUL, longopt := some ['n', 'a', 'm', 'e'],
     arg := some ['S'], usage := ['w', 'h', 'o'] }]

/-- A bool descriptor whose long name has 14 bytes: its prefix has 45 bytes. -/
def wide_flag : flag :=
  { type := FLAG_BOOL, pval := 0, shopt := 'w',
    longopt := some "a-long-name-xx".toList, longlen := 14, arg := none,
    usage := ['h', 'e', 'l', 'p'] }

/-- Caller memory in which every string destination holds the empty string. -/
def empty_string_mem : Mem :=
  { b := fun _ => false
    s := fun _ => some []
    i := fun _ => 1
    d := fun _ => 0 }

/-- A registry with one string option without short name whose long name is the empty
string. -/
def empty_name_sys : Sys :=
  flag_string (sys_empty demo_mem) 0 NUL (some []) (some ['S']) ['x']

/-- The descriptor of the option of `empty_name_sys`. -/
def empty_name_flag : flag :=
  { type := FLAG_STRING, pval := 0, shopt := NUL, longopt := some [], longlen := 0,
    arg := some ['S'], usage := ['x'] }

/-- A registry with a string option that has neither name and a string option `-a` on
the same destination. -/
def shadow_sys : Sys :=
  flag_string (flag_string (sys_empty demo_mem) 0 NUL none (some ['S']) ['x'])
    0 'a' none (some ['S']) ['y']

/-- The descriptor without names, with a `NULL` long name. -/
def nameless_flag : flag :=
  { type := FLAG_STRING, pval := 0, shopt := NUL, longopt := none, longlen := 0,
    arg := some ['S'], usage := ['x'] }

/-- A registry with a string option that has neither name and, on another destination,
the string option `-a`. -/
def lonely_sys : Sys :=
  flag_string (flag_string (sys_empty demo_mem) 0 NUL none (some ['S']) ['x'])
    1 'a' none (some ['S']) ['y']

/-- A registry with one bool option, of long name `no-color`. -/
def nocolor_sys : Sys :=
  flag_bool (sys_empty demo_mem) 0 NUL (some ['n', 'o', '-', 'c', 'o', 'l', 'o', 'r']) ['x']

/-- The token `--no-color`. -/
def tok_no_color : Token := ['-', '-', 'n', 'o', '-', 'c', 'o', 'l', 'o', 'r']

/-- A registry with one bool option, of long name `a=b`. -/
def eq_name_sys : Sys :=
  flag_bool (sys_empty demo_mem) 0 NUL (some ['a', '=', 'b']) ['x']

/-- The token `--verbose=false`. -/
def tok_verbose_false : Token :=
  ['-', '-', 'v', 'e', 'r', 'b', 'o', 's', 'e', '=', 'f', 'a', 'l', 's', 'e']

/-! ## The tokens scanned as flags, in the words of the specification -/

/-- The tokens scanned as flags, each with the token consumed as its value: every
token before the first `--` scanned as a flag that begins with `-` and is not consumed
as the value of the short form token before it; the token after a short form token
`-C` of an option that is not a bool is consumed as its value (`none` when `-C` is the
last token).  The token `--` and the tokens after it are not scanned. -/
def flag_tokens (flags : List flag) : List Token → List (Token × Option Token)
  | [] => []
  | tok :: rest =>
    if tok = ['-', '-'] then []
    else if cAt tok 0 ≠ '-' then flag_tokens flags rest
    else if takes_value flags tok then
      match rest with
      | [] => [(tok, none)]
      | v :: rest1 => (tok, some v) :: flag_tokens flags rest1
    else (tok, none) :: flag_tokens flags rest

/-- The descriptor that the `if` chain of the loop finds in a token, if any. -/
def option_of (flags : List flag) (tok : Token) : Option flag :=
  match kind_of flags tok with
  | .negated f => some f
  | .long f _ => some f
  | .short f => some f
  | _ => none

/-- The call `ev` of `process_flag` is the call made for the scanned token `p.1`: the
token names the descriptor of the call, and when it is the short form of an option that
is not a bool, the value of the call is the token consumed after it, `p.2`. -/
def Scanned (flags : List flag) (ev : Event) (p : Token × Option Token) : Prop :=
  ev.arg = p.1 ∧ Names flags ev ∧
    ∀ f, kind_of flags p.1 = .short f → f.type ≠ FLAG_BOOL → ev.str_value = p.2

/-! ## Lemmas: slots -/

theorem slots_length (toks : List Token) (tail : List (Option Token)) :
    (slots toks tail).length = toks.length + tail.length := by
  simp [slots]

theorem slots_getD (pre : List Token) (x : Token) (rest : List Token)
    (tail : List (Option Token)) :
    (slots (pre ++ x :: rest) tail).getD pre.length none = some x := by
  have h : (List.map some pre ++ some x :: (List.map some rest ++ tail))[pre.length]?
      = some (some x) := by
    rw [List.getElem?_append_right (by simp)]
    simp
  simp [slots, List.getD_eq_getElem?_getD, h]

theorem shift_left_slots (pre : List Token) (x : Token) (rest : List Token)
    (tail : List (Option Token)) :
    ∃ tail1, tail1.length = tail.length + 1 ∧
      shift_left (slots (pre ++ x :: rest) tail) pre.length rest.length
        = slots (pre ++ rest) tail1 := by
  refine ⟨((x :: rest).drop rest.length).map some ++ tail, ?_, ?_⟩
  · simp
    omega
  · have h1 : (List.map some pre ++ some x :: (List.map some rest ++ tail)).take pre.length
        = List.map some pre := by
      rw [List.take_append_eq_append_take]
      simp
    have h2 : (List.map some pre ++ some x :: (List.map some rest ++ tail)).drop
        (pre.length + 1) = List.map some rest ++ tail := by
      rw [List.drop_append_eq_append_drop]
      simp
    have h3 : (List.map some pre ++ some x :: (List.map some rest ++ tail)).drop
        (pre.length + rest.length)
        = List.map some ((x :: rest).drop rest.length) ++ tail := by
      rw [List.drop_append_eq_append_drop]
      simp
      have h4 : some x :: (List.map some rest ++ tail)
          = List.map some (x :: rest) ++ tail := by simp
      rw [h4, List.drop_append_eq_append_drop]
      have : rest.length - (List.map some (x :: rest)).length = 0 := by simp
      rw [this]
      simp [List.map_drop]
    simp only [shift_left, slots, List.map_append, List.map_cons, List.append_assoc,
      List.cons_append]
    rw [h1, h2, h3]
    simp

theorem remove_argument_slots (pre : List Token) (x : Token) (rest : List Token)
    (tail : List (Option Token)) :
    ∃ tail1, tail1.length = tail.length + 1 ∧
      remove_argument pre.length ((pre ++ x :: rest).length : Nat)
          (slots (pre ++ x :: rest) tail)
        = .ok (some x, ((pre ++ rest).length : Nat), slots (pre ++ rest) tail1) := by
  obtain ⟨tail1, hl, hs⟩ := shift_left_slots pre x rest tail
  refine ⟨tail1, hl, ?_⟩
  have hc : pre.length < (slots (pre ++ x :: rest) tail).length ∧
      0 ≤ (((pre ++ x :: rest).length : Nat) : Int) - ((pre.length : Int) + 1) ∧
      (((pre ++ x :: rest).length : Nat) : Int)
        ≤ ((slots (pre ++ x :: rest) tail).length : Int) := by
    rw [slots_length]
    simp
    omega
  have hn : ((((pre ++ x :: rest).length : Nat) : Int) - ((pre.length : Int) + 1)).toNat
      = rest.length := by
    simp
  have hp : (((pre ++ x :: rest).length : Nat) : Int) - 1 = ((pre ++ rest).length : Nat) := by
    simp
    omega
  unfold remove_argument
  rw [if_pos hc, hn, hs, slots_getD, hp]

theorem classify_slots (env : Env) (pre : List Token) (arg : Token) (rest : List Token)
    (tail : List (Option Token)) (s : Sys) :
    ∃ tail1, (pre ++ (classifyL env arg rest s).2.1).length + tail1.length
        = (pre ++ rest).length + tail.length ∧
      classify env pre.length arg (toScan (pre ++ rest) tail s)
        = .ok ((classifyL env arg rest s).1,
            toScan (pre ++ (classifyL env arg rest s).2.1) tail1
              (classifyL env arg rest s).2.2) := by
  unfold classify classifyL
  simp only [toScan]
  cases hk : kind_of s.g_flags arg with
  | help => exact ⟨tail, rfl, rfl⟩
  | stop => exact ⟨tail, rfl, rfl⟩
  | unknown => exact ⟨tail, rfl, rfl⟩
  | negated f => exact ⟨tail, rfl, rfl⟩
  | long f value => exact ⟨tail, rfl, rfl⟩
  | short f =>
    by_cases hb : f.type = FLAG_BOOL
    · refine ⟨tail, ?_, ?_⟩
      · simp [hb]
      · simp [hb]
    · cases rest with
      | nil =>
        refine ⟨tail, ?_, ?_⟩
        · simp [hb]
        · simp [hb]
      | cons v rest1 =>
        obtain ⟨tail1, hl, hr⟩ := remove_argument_slots pre v rest1 tail
        refine ⟨tail1, ?_, ?_⟩
        · simp [hb]
          omega
        · have hlt : (pre.length : Int) < ((pre ++ v :: rest1).length : Nat) := by
            simp
          simp only [hlt, hr]
          simp [hb]

/-- Index at which the loop goes on, from the list view of an iteration. -/
theorem body_slots (env : Env) (pre : List Token) (tok : Token) (rest : List Token)
    (tail : List (Option Token)) (s : Sys) :
    ∃ tail1, ((bodyL env pre tok rest s).2.1 ++ (bodyL env pre tok rest s).2.2.1).length
          + tail1.length = (pre ++ tok :: rest).length + tail.length ∧
      body env pre.length (toScan (pre ++ tok :: rest) tail s)
        = .ok ((bodyL env pre tok rest s).1.map id
              (fun _ => (bodyL env pre tok rest s).2.1.length),
            toScan ((bodyL env pre tok rest s).2.1 ++ (bodyL env pre tok rest s).2.2.1) tail1
              (bodyL env pre tok rest s).2.2.2) := by
  have hlen : decide (pre.length < (slots (pre ++ tok :: rest) tail).length) = true := by
    rw [slots_length]
    simp
    omega
  unfold body bodyL
  simp only [toScan, slots_getD, hlen]
  by_cases hd : cAt tok 0 ≠ '-'
  · refine ⟨tail, ?_, ?_⟩
    · simp [hd]
    · simp [hd]
  · obtain ⟨tail1, hl1, hr⟩ := remove_argument_slots pre tok rest tail
    obtain ⟨tail2, hl2, hc⟩ := classify_slots env pre tok rest tail1 s
    simp only [toScan] at hc
    simp only [hd, if_false, hr, hc]
    refine ⟨tail2, ?_, ?_⟩
    · revert hl2
      rcases classifyL env tok rest s with ⟨r, rest1, s1⟩
      intro hl2
      rcases r with e | (_ | err)
      · simp at hl2 ⊢
        omega
      · simp at hl2 ⊢
        omega
      · by_cases he : err = 0
        · simp [he] at hl2 ⊢
          omega
        · simp [he] at hl2 ⊢
          omega
    · rcases classifyL env tok rest s with ⟨r, rest1, s1⟩
      rcases r with e | (_ | err)
      · rfl
      · rfl
      · by_cases he : err = 0
        · simp [he]
        · simp [he]

theorem classifyL_rest (env : Env) (arg : Token) (rest : List Token) (s : Sys) :
    (classifyL env arg rest s).2.1 = rest ∨ ∃ v, rest = v :: (classifyL env arg rest s).2.1 := by
  unfold classifyL
  cases kind_of s.g_flags arg with
  | help => exact Or.inl rfl
  | stop => exact Or.inl rfl
  | unknown => exact Or.inl rfl
  | negated f => exact Or.inl rfl
  | long f value => exact Or.inl rfl
  | short f =>
    by_cases hb : f.type = FLAG_BOOL
    · simp [hb]
    · cases rest with
      | nil => simp [hb]
      | cons v rest1 => simp [hb]

theorem classifyL_rest_le (env : Env) (arg : Token) (rest : List Token) (s : Sys) :
    (classifyL env arg rest s).2.1.length ≤ rest.length := by
  rcases classifyL_rest env arg rest s with h | ⟨v, h⟩
  · rw [h]
  · rw [congrArg List.length h]
    simp

theorem bodyL_rest_le (env : Env) (pre : List Token) (tok : Token) (rest : List Token)
    (s : Sys) : (bodyL env pre tok rest s).2.2.1.length ≤ rest.length := by
  have h := classifyL_rest_le env tok rest s
  revert h
  unfold bodyL
  by_cases hd : cAt tok 0 ≠ '-'
  · simp [hd]
  · simp only [hd, if_false]
    rcases classifyL env tok rest s with ⟨r, rest1, s1⟩
    rcases r with e | (_ | err)
    · exact id
    · exact id
    · by_cases he : err = 0 <;> simp [he]

/-- With one unit of fuel for each token left, the loop ends. -/
theorem scanL_ok (env : Env) (fuel : Nat) :
    ∀ (pre rest : List Token) (s : Sys), rest.length ≤ fuel →
      ∃ x, scanL env fuel pre rest s = .ok x := by
  induction fuel with
  | zero =>
    intro pre rest s h
    cases rest with
    | nil => exact ⟨(LoopEnd.done, pre, s), by simp [scanL]⟩
    | cons t r => simp at h
  | succ n ih =>
    intro pre rest s h
    cases rest with
    | nil => exact ⟨(LoopEnd.done, pre, s), by simp [scanL]⟩
    | cons tok rest =>
      have hb := bodyL_rest_le env pre tok rest s
      simp only [scanL]
      rcases hbl : bodyL env pre tok rest s with ⟨r, pre1, rest1, s1⟩
      rw [hbl] at hb
      rcases r with e | u
      · exact ⟨_, rfl⟩
      · simp at h hb
        exact ih pre1 rest1 s1 (by omega)

/-- The loop on the slots of `argv` computes what the loop on lists computes. -/
theorem scan_slots (env : Env) (fuel : Nat) :
    ∀ (pre rest : List Token) (tail : List (Option Token)) (s : Sys) (e : LoopEnd)
      (out : List Token) (s1 : Sys),
      scanL env fuel pre rest s = .ok (e, out, s1) →
      ∃ tail1, out.length + tail1.length = (pre ++ rest).length + tail.length ∧
        scan env fuel pre.length (toScan (pre ++ rest) tail s) = .ok (e, toScan out tail1 s1) := by
  induction fuel with
  | zero =>
    intro pre rest tail s e out s1 h
    cases rest with
    | nil =>
      simp [scanL] at h
      obtain ⟨rfl, rfl, rfl⟩ := h
      refine ⟨tail, by simp, ?_⟩
      unfold scan
      simp [toScan]
    | cons t r => simp [scanL] at h
  | succ n ih =>
    intro pre rest tail s e out s1 h
    cases rest with
    | nil =>
      simp [scanL] at h
      obtain ⟨rfl, rfl, rfl⟩ := h
      refine ⟨tail, by simp, ?_⟩
      unfold scan
      simp [toScan]
    | cons tok rest =>
      obtain ⟨tail1, hl, hb⟩ := body_slots env pre tok rest tail s
      have hlt : ((pre.length : Nat) : Int) < (toScan (pre ++ tok :: rest) tail s).pargc := by
        simp [toScan]
      unfold scan
      simp only [hlt, if_true, hb]
      simp only [scanL] at h
      revert h
      revert hl
      rcases bodyL env pre tok rest s with ⟨r, pre1, rest1, s2⟩
      intro hl h
      rcases r with e1 | u
      · simp at h
        obtain ⟨rfl, rfl, rfl⟩ := h
        exact ⟨tail1, hl, rfl⟩
      · simp at h
        obtain ⟨tail2, hl2, hs⟩ := ih pre1 rest1 tail1 s2 e out s1 h
        refine ⟨tail2, ?_, ?_⟩
        · simp at hl hl2 ⊢
          omega
        · simpa using hs

theorem scanL_fuel (env : Env) (fuel1 : Nat) :
    ∀ (fuel2 : Nat) (pre rest : List Token) (s : Sys), rest.length ≤ fuel1 →
      rest.length ≤ fuel2 → scanL env fuel1 pre rest s = scanL env fuel2 pre rest s := by
  induction fuel1 with
  | zero =>
    intro fuel2 pre rest s h1 h2
    cases rest with
    | nil => cases fuel2 <;> simp [scanL]
    | cons t r => simp at h1
  | succ n ih =>
    intro fuel2 pre rest s h1 h2
    cases rest with
    | nil => cases fuel2 <;> simp [scanL]
    | cons tok rest =>
      cases fuel2 with
      | zero => simp at h2
      | succ m =>
        have hb := bodyL_rest_le env pre tok rest s
        simp only [scanL]
        revert hb
        rcases bodyL env pre tok rest s with ⟨r, pre1, rest1, s1⟩
        intro hb
        rcases r with e | u
        · rfl
        · simp at h1 h2 hb
          exact ih m pre1 rest1 s1 (by omega) (by omega)

/-- The first iterations on the slots of `argv` are those on lists. -/
theorem run_slots (env : Env) (n : Nat) :
    ∀ (pre rest : List Token) (tail : List (Option Token)) (s : Sys),
      ∃ tail1, ((runL env n pre rest s).2.1 ++ (runL env n pre rest s).2.2.1).length
          + tail1.length = (pre ++ rest).length + tail.length ∧
        run env n pre.length (toScan (pre ++ rest) tail s)
          = .ok ((runL env n pre rest s).1.map id (fun _ => (runL env n pre rest s).2.1.length),
              toScan ((runL env n pre rest s).2.1 ++ (runL env n pre rest s).2.2.1) tail1
                (runL env n pre rest s).2.2.2) := by
  induction n with
  | zero =>
    intro pre rest tail s
    exact ⟨tail, by simp [runL], by simp [runL, run]⟩
  | succ n ih =>
    intro pre rest tail s
    cases rest with
    | nil =>
      refine ⟨tail, by simp [runL], ?_⟩
      simp [runL, run, toScan]
    | cons tok rest =>
      obtain ⟨tail1, hl, hb⟩ := body_slots env pre tok rest tail s
      have hlt : ((pre.length : Nat) : Int) < (toScan (pre ++ tok :: rest) tail s).pargc := by
        simp [toScan]
      simp only [run, hlt, if_true, hb, runL]
      revert hl
      rcases bodyL env pre tok rest s with ⟨r, pre1, rest1, s2⟩
      intro hl
      rcases r with e1 | u
      · exact ⟨tail1, hl, rfl⟩
      · obtain ⟨tail2, hl2, hs⟩ := ih pre1 rest1 tail1 s2
        refine ⟨tail2, ?_, ?_⟩
        · simp at hl hl2 ⊢
          omega
        · simpa using hs

/-- What the loop does after its first `n` iterations, when they do not leave it. -/
theorem runL_scanL (env : Env) (n : Nat) :
    ∀ (fuel : Nat) (pre rest : List Token) (s : Sys) (pre1 rest1 : List Token) (s1 : Sys),
      rest.length ≤ fuel → runL env n pre rest s = (.inr (), pre1, rest1, s1) →
      scanL env fuel pre rest s = scanL env rest1.length pre1 rest1 s1 := by
  induction n with
  | zero =>
    intro fuel pre rest s pre1 rest1 s1 hf h
    simp [runL] at h
    obtain ⟨rfl, rfl, rfl⟩ := h
    exact scanL_fuel env fuel rest.length pre rest s hf (le_refl _)
  | succ n ih =>
    intro fuel pre rest s pre1 rest1 s1 hf h
    cases rest with
    | nil => simp [runL] at h
    | cons tok rest =>
      cases fuel with
      | zero => simp at hf
      | succ m =>
        have hb := bodyL_rest_le env pre tok rest s
        simp only [runL] at h
        simp only [scanL]
        revert h
        revert hb
        rcases bodyL env pre tok rest s with ⟨r, pre2, rest2, s2⟩
        intro hb h
        rcases r with e | u
        · simp at h
        · simp at hf hb
          exact ih m pre2 rest2 s2 pre1 rest1 s1 (by omega) h

theorem init_scan_eq (s : Sys) (prog : Token) (args : List Token) (usage : Token) :
    ∃ tail, tail.length = 2 ∧
      init_scan s prog args usage = toScan ([] ++ args) tail (start s prog usage) := by
  obtain ⟨tail, hl, hs⟩ := shift_left_slots [] prog args [none]
  refine ⟨tail, by simpa using hl, ?_⟩
  simp only [init_scan, mkArgv, toScan]
  simp at hs
  simp [hs]

theorem flag_parse_init (env : Env) (s : Sys) (prog : Token) (args : List Token)
    (usage : Token) (minargs : Int) :
    flag_parse env s (((prog :: args).length : Nat) : Int) (mkArgv (prog :: args)) usage minargs
      = match scan env args.length 0 (init_scan s prog args usage) with
        | .error e => .error e
        | .ok (.ret r, st) =>
          .ok { ret := r, pargc := st.pargc, argv := st.argv, sys := st.sys }
        | .ok (.done, st) => after_loop env minargs st := by
  have hr2 : remove_argument 0 (((prog :: args).length : Nat) : Int) (mkArgv (prog :: args))
      = .ok (some prog, ((args.length : Nat) : Int),
          shift_left (mkArgv (prog :: args)) 0 args.length) := by
    unfold remove_argument
    have hc : 0 < (mkArgv (prog :: args)).length ∧
        0 ≤ (((prog :: args).length : Nat) : Int) - (((0 : Nat) : Int) + 1) ∧
        (((prog :: args).length : Nat) : Int) ≤ ((mkArgv (prog :: args)).length : Int) := by
      simp [mkArgv, slots]
    rw [if_pos hc]
    simp [mkArgv, slots]
  unfold flag_parse
  simp only [hr2]
  simp [init_scan, start]

theorem bodyL_len_le (env : Env) (pre : List Token) (tok : Token) (rest : List Token)
    (s : Sys) :
    (bodyL env pre tok rest s).2.1.length + (bodyL env pre tok rest s).2.2.1.length
      ≤ pre.length + rest.length + 1 := by
  have h := classifyL_rest_le env tok rest s
  revert h
  unfold bodyL
  by_cases hd : cAt tok 0 ≠ '-'
  · simp [hd]
    omega
  · simp only [hd, if_false]
    rcases classifyL env tok rest s with ⟨r, rest1, s1⟩
    rcases r with e | (_ | err)
    · simp
      omega
    · simp
      omega
    · by_cases he : err = 0 <;> simp [he] <;> omega

theorem scanL_out_le (env : Env) (fuel : Nat) :
    ∀ (pre rest : List Token) (s : Sys) (e : LoopEnd) (out : List Token) (s1 : Sys),
      scanL env fuel pre rest s = .ok (e, out, s1) → out.length ≤ pre.length + rest.length := by
  induction fuel with
  | zero =>
    intro pre rest s e out s1 h
    cases rest with
    | nil =>
      simp [scanL] at h
      simp [h.2.1]
    | cons t r => simp [scanL] at h
  | succ n ih =>
    intro pre rest s e out s1 h
    cases rest with
    | nil =>
      simp [scanL] at h
      simp [h.2.1]
    | cons tok rest =>
      have hb := bodyL_len_le env pre tok rest s
      simp only [scanL] at h
      revert h
      revert hb
      rcases bodyL env pre tok rest s with ⟨r, pre1, rest1, s2⟩
      intro hb h
      rcases r with e1 | u
      · simp at h
        obtain ⟨_, rfl, _⟩ := h
        simp at hb ⊢
        omega
      · simp at h
        have := ih pre1 rest1 s2 e out s1 h
        simp at hb ⊢
        omega

theorem slots_take (toks : List Token) (tail : List (Option Token)) :
    (slots toks tail).take toks.length = toks.map some := by
  simp [slots, List.take_append_eq_append_take]

theorem slots_set (toks : List Token) (tail : List (Option Token)) (h : tail ≠ []) :
    (slots toks tail).set toks.length none = slots toks (none :: tail.tail) := by
  cases tail with
  | nil => exact absurd rfl h
  | cons t tl =>
    simp only [slots, List.tail_cons]
    rw [List.set_append_right _ _ (by simp)]
    simp

/-- The code after the loop, on a loop state given by its tokens. -/
theorem after_loop_toScan (env : Env) (minargs : Int) (out : List Token)
    (tail : List (Option Token)) (s1 : Sys) (h : tail ≠ []) :
    after_loop env minargs (toScan out tail s1)
      = if ((out.length : Nat) : Int) < minargs then
          .ok { ret := (flag_error env s1 3
                  ("expected ".toList ++ fmt_d minargs ++ " arguments".toList)).1
                pargc := ((out.length : Nat) : Int)
                argv := slots out tail
                sys := (flag_error env s1 3
                  ("expected ".toList ++ fmt_d minargs ++ " arguments".toList)).2 }
        else
          .ok { ret := some 0
                pargc := ((out.length : Nat) : Int)
                argv := slots out (none :: tail.tail)
                sys := { s1 with g_flags := [], g_cap := 0 } } := by
  unfold after_loop
  simp only [toScan]
  by_cases hm : ((out.length : Nat) : Int) < minargs
  · simp [hm]
  · have hb : 0 ≤ ((out.length : Nat) : Int) ∧
        ((out.length : Nat) : Int) < ((slots out tail).length : Int) := by
      rw [slots_length]
      have : 0 < tail.length := List.length_pos.mpr h
      constructor
      · omega
      · push_cast
        omega
    simp only [hm, if_false, hb, and_self, if_true, Int.toNat_ofNat, slots_set out tail h]

/-- The result of `flag_parse` from the result of the loop on lists. -/
theorem flag_parse_scanL (env : Env) (s : Sys) (prog : Token) (args : List Token)
    (usage : Token) (minargs : Int) (e : LoopEnd) (out : List Token) (s1 : Sys)
    (h : scanL env args.length [] args (start s prog usage) = .ok (e, out, s1)) :
    ∃ tail, tail ≠ [] ∧ out.length + tail.length = args.length + 2 ∧
      flag_parse env s (((prog :: args).length : Nat) : Int) (mkArgv (prog :: args)) usage
          minargs
        = match e with
          | .ret r => .ok { ret := r, pargc := ((out.length : Nat) : Int)
                            argv := slots out tail, sys := s1 }
          | .done => after_loop env minargs (toScan out tail s1) := by
  obtain ⟨tail0, hl0, hi⟩ := init_scan_eq s prog args usage
  obtain ⟨tail, hl, hs⟩ := scan_slots env args.length [] args tail0 (start s prog usage) e out s1 h
  have hne : tail ≠ [] := by
    intro h0
    rw [h0] at hl
    have hle := scanL_out_le env args.length [] args (start s prog usage) e out s1 h
    simp only [List.length_nil, List.nil_append, Nat.add_zero, Nat.zero_add] at hl hle
    omega
  refine ⟨tail, hne, by simpa [hl0] using hl, ?_⟩
  rw [flag_parse_init, hi]
  simp only [List.length_nil] at hs
  rw [hs]
  cases e <;> rfl

/-- A reached token, on lists: the kept tokens `pre` and the tokens `tok :: rest` left
to scan. -/
theorem reaches_list (env : Env) (s : Sys) (prog : Token) (args : List Token)
    (usage : Token) (n i : Nat) (st : Scan) (tok : Token)
    (h : Reaches env s prog args usage n i st tok) :
    ∃ pre rest tail, i = pre.length ∧
      st = toScan (pre ++ tok :: rest) tail st.sys ∧
      runL env n [] args (start s prog usage) = (.inr (), pre, tok :: rest, st.sys) := by
  obtain ⟨hrun, hlt, hget⟩ := h
  obtain ⟨tail0, hl0, hi⟩ := init_scan_eq s prog args usage
  obtain ⟨tail, hl, hr⟩ := run_slots env n [] args tail0 (start s prog usage)
  rw [hi] at hrun
  simp only [List.length_nil] at hr
  rw [hr] at hrun
  clear hl
  revert hrun
  rcases runL env n [] args (start s prog usage) with ⟨r, pre, rest, s1⟩
  intro hrun
  simp only [Except.ok.injEq, Prod.mk.injEq] at hrun
  obtain ⟨h1, h2⟩ := hrun
  subst h2
  rcases r with e | u
  · simp at h1
  · simp at h1
    subst h1
    cases rest with
    | nil =>
      simp [toScan] at hlt
    | cons t rest =>
      have : t = tok := by
        simp only [toScan] at hget
        rw [slots_getD] at hget
        exact Option.some.inj hget
      subst this
      exact ⟨pre, rest, tail, rfl, rfl, rfl⟩

/-- A reached token on which the iteration leaves `flag_parse` by `return`. -/
theorem reaches_leave (env : Env) (s : Sys) (prog : Token) (args : List Token)
    (usage : Token) (minargs : Int) (n i : Nat) (st : Scan) (tok : Token)
    (h : Reaches env s prog args usage n i st tok) (r : Option Int) (s1 : Sys)
    (hb : ∀ pre rest, bodyL env pre tok rest st.sys = (.inl (.ret r), pre, rest, s1)) :
    ∃ res, flag_parse env s (((prog :: args).length : Nat) : Int) (mkArgv (prog :: args))
        usage minargs = .ok res ∧ res.ret = r ∧ res.sys = s1 := by
  obtain ⟨pre, rest, tail, _, _, hrun⟩ := reaches_list env s prog args usage n i st tok h
  have h1 := runL_scanL env n args.length [] args (start s prog usage) pre (tok :: rest)
    st.sys (le_refl _) hrun
  have h2 : scanL env (tok :: rest).length pre (tok :: rest) st.sys
      = .ok (.ret r, pre ++ rest, s1) := by
    simp only [List.length_cons, scanL, hb]
  rw [h2] at h1
  obtain ⟨tail1, _, _, hp⟩ := flag_parse_scanL env s prog args usage minargs _ _ _ h1
  exact ⟨_, hp, rfl, rfl⟩

theorem print_spaces_loop_eq (k : Nat) :
    ∀ o : Token, print_spaces_loop k o = o ++ List.replicate k ' ' := by
  induction k with
  | zero => intro o; simp [print_spaces_loop]
  | succ k ih =>
    intro o
    rw [print_spaces_loop, ih, str_addch, List.append_assoc]
    congr 1

/-- The spaces that `print_spaces` appends. -/
theorem print_spaces_eq (o : Token) (num : Int) :
    print_spaces o num = o ++ List.replicate num.toNat ' ' :=
  print_spaces_loop_eq _ o

theorem flag_line_append (env : Env) (m : Mem) (o : Token) (f : flag) :
    flag_line env m o f = o ++ flag_line env m [] f := by
  simp [flag_line, print_spaces_eq, str_addf, str_add, str_addch, List.append_assoc]

theorem foldl_flag_line_append (env : Env) (m : Mem) (fl : List flag) :
    ∀ o x : Token, fl.foldl (flag_line env m) (o ++ x) = o ++ fl.foldl (flag_line env m) x := by
  induction fl with
  | nil => intro o x; rfl
  | cons f fl ih =>
    intro o x
    simp only [List.foldl_cons]
    rw [flag_line_append env m (o ++ x), flag_line_append env m x, List.append_assoc, ih]

/-- The usage text does not depend on what the buffer already holds. -/
theorem print_usage_append (env : Env) (s : Sys) (o : Token) :
    print_usage env s o = o ++ print_usage env s [] := by
  unfold print_usage
  by_cases h : s.g_num ≠ 0
  · rw [if_pos h, if_pos h]
    simp only [str_addf, str_add, List.nil_append]
    rw [List.append_assoc o, foldl_flag_line_append]
  · rw [if_neg h, if_neg h]
    simp only [str_addf, List.nil_append]

theorem c_str_append (a b : Token) (h : NUL ∉ a) : c_str (a ++ b) = a ++ c_str b := by
  unfold c_str
  apply List.takeWhile_append_of_pos
  intro c hc
  simp only [bne_iff_ne, ne_eq]
  intro h0
  exact h (h0 ▸ hc)

/-- The message of `flag_error` for an error line without NUL: the line, a line break
and the usage text. -/
theorem flag_error_msg (env : Env) (s : Sys) (code : Int) (text : Token) (h0 : text ≠ [])
    (hn : NUL ∉ text) :
    flag_error env s code text
      = (env.flag_exit code (text ++ ['\n'] ++ usage_text env s),
          { s with calls := s.calls ++ [(code, text ++ ['\n'] ++ usage_text env s)] }) := by
  have hl : text.length ≠ 0 := by
    intro h
    exact h0 (List.length_eq_zero.mp h)
  have hn2 : NUL ∉ text ++ ['\n'] := by
    simp only [List.mem_append, List.mem_singleton, not_or]
    exact ⟨hn, by decide⟩
  unfold flag_error usage_text
  simp only [str_addf, str_addch, List.nil_append, hl, if_true, ne_eq, not_false_eq_true]
  rw [print_usage_append, c_str_append _ _ hn2]

theorem flag_error_help (env : Env) (s : Sys) :
    flag_error env s 1 []
      = (env.flag_exit 1 (usage_text env s),
          { s with calls := s.calls ++ [(1, usage_text env s)] }) := by
  simp [flag_error, usage_text, str_addf]

/-! ## Lemmas: one iteration -/

theorem bodyL_help (env : Env) (pre : List Token) (tok : Token) (rest : List Token) (s : Sys)
    (hk : kind_of s.g_flags tok = .help) (hd : cAt tok 0 = '-') :
    bodyL env pre tok rest s
      = (.inl (.ret (flag_error env s 1 []).1), pre, rest, (flag_error env s 1 []).2) := by
  simp [bodyL, classifyL, hk, hd]

theorem bodyL_unknown (env : Env) (pre : List Token) (tok : Token) (rest : List Token)
    (s : Sys) (hk : kind_of s.g_flags tok = .unknown) (hd : cAt tok 0 = '-') :
    bodyL env pre tok rest s
      = (.inl (.ret (unknown_flag env s tok).1), pre, rest, (unknown_flag env s tok).2) := by
  simp [bodyL, classifyL, hk, hd]

theorem kind_of_help (flags : List flag) (tok : Token)
    (h : tok = ['-', '-', 'h', 'e', 'l', 'p'] ∨ tok = ['-', 'h']) :
    kind_of flags tok = .help := by
  simp [kind_of, h]

/-! ## Lemmas: lookups and token shapes -/

theorem find_long_some (flags : List flag) (name : Token) (len : Nat) (f : flag)
    (h : find_long flags name len = some f) :
    f ∈ flags ∧ ∃ l, f.longopt = some l ∧ len = f.longlen ∧ name.take len = l.take len := by
  induction flags with
  | nil => simp [find_long] at h
  | cons g rest ih =>
    unfold find_long at h
    cases hl : g.longopt with
    | none =>
      simp only [hl] at h
      obtain ⟨hm, hx⟩ := ih h
      exact ⟨List.mem_cons_of_mem _ hm, hx⟩
    | some l =>
      simp only [hl] at h
      by_cases hc : len = g.longlen ∧ List.take len name = List.take len l
      · rw [if_pos hc] at h
        cases h
        exact ⟨List.mem_cons_self _ _, l, hl, hc.1, hc.2⟩
      · rw [if_neg hc] at h
        obtain ⟨hm, hx⟩ := ih h
        exact ⟨List.mem_cons_of_mem _ hm, hx⟩

theorem find_long_none (flags : List flag) (name : Token) (len : Nat)
    (h : find_long flags name len = none) :
    ∀ f ∈ flags, ∀ l, f.longopt = some l → ¬ (len = f.longlen ∧ name.take len = l.take len) := by
  induction flags with
  | nil => intro f hf; simp at hf
  | cons g rest ih =>
    unfold find_long at h
    intro f hf l hl
    cases hg : g.longopt with
    | none =>
      simp only [hg] at h
      rcases List.mem_cons.mp hf with rfl | hm
      · rw [hg] at hl
        cases hl
      · exact ih h f hm l hl
    | some l2 =>
      simp only [hg] at h
      by_cases hc : len = g.longlen ∧ List.take len name = List.take len l2
      · rw [if_pos hc] at h
        cases h
      · rw [if_neg hc] at h
        rcases List.mem_cons.mp hf with rfl | hm
        · rw [hg] at hl
          cases hl
          exact hc
        · exact ih h f hm l hl

/-- In a registry built by `append`, a successful lookup of the whole of `name` returns
a descriptor whose long name is `name`. -/
theorem find_long_registered (flags : List flag) (hreg : Registered flags) (name : Token)
    (len : Nat) (f : flag) (h : find_long flags name len = some f) :
    f ∈ flags ∧ f.longopt = some (name.take len) := by
  obtain ⟨hm, l, hl, h1, h2⟩ := find_long_some flags name len f h
  refine ⟨hm, ?_⟩
  have hr := hreg f hm
  rw [hl] at hr
  simp only at hr
  have : l.take len = l := by
    rw [h1, hr]
    exact List.take_length l
  rw [hl, h2, this]

/-- In a registry built by `append`, a name that some descriptor carries is found. -/
theorem find_long_isSome (flags : List flag) (hreg : Registered flags) (name : Token)
    (g : flag) (hg : g ∈ flags) (hl : g.longopt = some name) (tl : Token) :
    ∃ f, find_long flags (name ++ tl) name.length = some f := by
  cases h : find_long flags (name ++ tl) name.length with
  | some f => exact ⟨f, rfl⟩
  | none =>
    exfalso
    refine find_long_none flags _ _ h g hg name hl ⟨?_, ?_⟩
    · have hr := hreg g hg
      rw [hl] at hr
      exact hr.symm
    · simp

theorem find_short_some (flags : List flag) (c : Char) (f : flag)
    (h : find_short flags c = some f) : f ∈ flags ∧ f.shopt = c := by
  induction flags with
  | nil => simp [find_short] at h
  | cons g rest ih =>
    unfold find_short at h
    by_cases hc : g.shopt = c
    · rw [if_pos hc] at h
      cases h
      exact ⟨List.mem_cons_self _ _, hc⟩
    · rw [if_neg hc] at h
      obtain ⟨hm, hx⟩ := ih h
      exact ⟨List.mem_cons_of_mem _ hm, hx⟩

theorem find_short_none (flags : List flag) (c : Char) (h : find_short flags c = none) :
    ∀ f ∈ flags, f.shopt ≠ c := by
  induction flags with
  | nil => intro f hf; simp at hf
  | cons g rest ih =>
    unfold find_short at h
    intro f hf
    by_cases hc : g.shopt = c
    · rw [if_pos hc] at h
      cases h
    · rw [if_neg hc] at h
      rcases List.mem_cons.mp hf with rfl | hm
      · exact hc
      · exact ih h f hm

theorem find_eq_some (t : Token) : ∀ k, find_eq t = some k →
    t = t.take k ++ '=' :: t.drop (k + 1) ∧ '=' ∉ t.take k := by
  induction t with
  | nil => intro k h; simp [find_eq] at h
  | cons c cs ih =>
    intro k h
    unfold find_eq at h
    by_cases hc : c = '='
    · rw [if_pos hc] at h
      cases h
      simp [hc]
    · rw [if_neg hc] at h
      cases hf : find_eq cs with
      | none => simp [hf] at h
      | some j =>
        simp [hf] at h
        subst h
        obtain ⟨h1, h2⟩ := ih j hf
        constructor
        · simp only [List.take_succ_cons, List.drop_succ_cons, List.cons_append]
          rw [← h1]
        · simp only [List.take_succ_cons, List.mem_cons, not_or]
          exact ⟨fun h => hc h.symm, h2⟩

theorem find_eq_none (t : Token) (h : find_eq t = none) : '=' ∉ t := by
  induction t with
  | nil => simp
  | cons c cs ih =>
    unfold find_eq at h
    by_cases hc : c = '='
    · rw [if_pos hc] at h
      cases h
    · rw [if_neg hc] at h
      cases hf : find_eq cs with
      | none =>
        simp only [List.mem_cons, not_or]
        exact ⟨fun h => hc h.symm, ih hf⟩
      | some j => simp [hf] at h

/-- The position of the first `=` of `name ++ '=' :: v` when `name` has none. -/
theorem find_eq_append (name v : Token) (h : '=' ∉ name) :
    find_eq (name ++ '=' :: v) = some name.length := by
  induction name with
  | nil => simp [find_eq]
  | cons c cs ih =>
    simp only [List.mem_cons, not_or] at h
    have hc : ¬ c = '=' := fun e => h.1 e.symm
    simp [find_eq, hc, ih h.2]

theorem find_eq_of_not_mem (t : Token) (h : '=' ∉ t) : find_eq t = none := by
  induction t with
  | nil => rfl
  | cons c cs ih =>
    simp only [List.mem_cons, not_or] at h
    have hc : ¬ c = '=' := fun e => h.1 e.symm
    simp [find_eq, hc, ih h.2]

theorem cAt_mem (t : Token) (k : Nat) (h : k < t.length) : cAt t k ∈ t := by
  unfold cAt
  rw [List.getD_eq_getElem _ _ h]
  exact List.getElem_mem h

theorem cAt_len (t : Token) (k : Nat) (h : t.length ≤ k) : cAt t k = NUL := by
  unfold cAt
  rw [List.getD_eq_default _ _ h]

/-- In a C string, the byte at index `k` is the terminator only at the end. -/
theorem cAt_nul (t : Token) (hn : NUL ∉ t) (k : Nat) : cAt t k = NUL ↔ t.length ≤ k := by
  constructor
  · intro h
    by_contra hlt
    exact hn (h ▸ cAt_mem t k (by omega))
  · exact cAt_len t k

theorem NUL_ne_dash : NUL ≠ '-' := by decide

/-- A token that begins with two dashes. -/
theorem two_dashes (tok : Token) (h0 : cAt tok 0 = '-') (h1 : cAt tok 1 = '-') :
    tok = '-' :: '-' :: tok.drop 2 := by
  rcases tok with _ | ⟨a, _ | ⟨b, N⟩⟩
  · exact absurd h0 NUL_ne_dash
  · exact absurd h1 NUL_ne_dash
  · simp only [cAt, List.getD_cons_zero] at h0
    simp only [cAt, List.getD_cons_succ, List.getD_cons_zero] at h1
    simp [h0, h1]

/-- A C string of two bytes, from the test `arg[1] && !arg[2]`. -/
theorem two_bytes (tok : Token) (hn : NUL ∉ tok) (h0 : cAt tok 0 = '-')
    (h1 : cAt tok 1 ≠ NUL) (h2 : cAt tok 2 = NUL) : tok = ['-', cAt tok 1] := by
  have hle := (cAt_nul tok hn 2).mp h2
  have hge : ¬ tok.length ≤ 1 := fun h => h1 (cAt_len tok 1 h)
  rcases tok with _ | ⟨a, _ | ⟨b, _ | ⟨c, N⟩⟩⟩
  · simp at hge
  · simp at hge
  · simp only [cAt, List.getD_cons_zero] at h0
    simp [cAt, h0]
  · simp at hle

/-- The `if` chain finds nothing in a dash token that is none of the forms of the
grammar with a registered name. -/
theorem kind_of_unknown (flags : List flag) (hreg : Registered flags) (tok : Token)
    (hnul : NUL ∉ tok) (hdash : cAt tok 0 = '-')
    (h1 : tok ≠ ['-', '-', 'h', 'e', 'l', 'p']) (h2 : tok ≠ ['-', 'h'])
    (h3 : tok ≠ ['-', '-'])
    (h4 : ∀ N, tok = ['-', '-', 'n', 'o', '-'] ++ N → ¬ LongName flags N)
    (h5 : ∀ N, tok = ['-', '-'] ++ N → ¬ LongName flags N)
    (h6 : ∀ N V, tok = ['-', '-'] ++ N ++ ['='] ++ V → ¬ LongName flags N)
    (h7 : ∀ c, tok = ['-', c] → ¬ ShortName flags c) :
    kind_of flags tok = .unknown := by
  unfold kind_of
  rw [if_neg (not_or.mpr ⟨h1, h2⟩), if_neg h3]
  by_cases hno : tok.take 5 = ['-', '-', 'n', 'o', '-']
  · rw [if_pos hno]
    have htok : tok = ['-', '-', 'n', 'o', '-'] ++ tok.drop 5 := by
      rw [← hno]
      exact (List.take_append_drop 5 tok).symm
    simp only
    cases hf : find_long flags (tok.drop 5) (tok.length - 5) with
    | none => rfl
    | some f =>
      exfalso
      obtain ⟨hm, hl⟩ := find_long_registered flags hreg _ _ f hf
      have : (tok.drop 5).take (tok.length - 5) = tok.drop 5 :=
        List.take_of_length_le (by simp)
      rw [this] at hl
      exact h4 _ htok ⟨f, hm, hl⟩
  · rw [if_neg hno]
    by_cases hl : cAt tok 1 = '-'
    · rw [if_pos hl]
      have htok := two_dashes tok hdash hl
      simp only
      cases he : find_eq tok with
      | none =>
        simp only [Option.map_none']
        cases hf : find_long flags (tok.drop 2) (tok.length - 2) with
        | none => rfl
        | some f =>
          exfalso
          obtain ⟨hm, hlo⟩ := find_long_registered flags hreg _ _ f hf
          have : (tok.drop 2).take (tok.length - 2) = tok.drop 2 :=
            List.take_of_length_le (by simp)
          rw [this] at hlo
          exact h5 _ htok ⟨f, hm, hlo⟩
      | some k =>
        simp only [Option.map_some']
        cases hf : find_long flags (tok.drop 2) (k - 2) with
        | none => rfl
        | some f =>
          exfalso
          obtain ⟨hm, hlo⟩ := find_long_registered flags hreg _ _ f hf
          obtain ⟨hsplit, hnot⟩ := find_eq_some tok k he
          have hk : 2 ≤ k := by
            by_contra hk
            have hk2 : k = 0 ∨ k = 1 := by omega
            rw [htok] at hsplit
            rcases hk2 with rfl | rfl
            · simp at hsplit
            · simp at hsplit
          obtain ⟨j, rfl⟩ : ∃ j, k = j + 2 := ⟨k - 2, by omega⟩
          refine h6 ((tok.drop 2).take j) (tok.drop (j + 2 + 1)) ?_ ⟨f, hm, by simpa using hlo⟩
          have ht : tok.take (j + 2) = ['-', '-'] ++ (tok.drop 2).take j := by
            conv_lhs => rw [htok]
            simp
          rw [← ht]
          simpa using hsplit
    · rw [if_neg hl]
      by_cases hs : cAt tok 1 ≠ NUL ∧ cAt tok 2 = NUL
      · rw [if_pos hs]
        have htok := two_bytes tok hnul hdash hs.1 hs.2
        cases hf : find_short flags (cAt tok 1) with
        | none => rfl
        | some f =>
          exfalso
          obtain ⟨hm, hc⟩ := find_short_some flags _ f hf
          exact h7 _ htok ⟨f, hm, hc⟩
      · rw [if_neg hs]

theorem kind_of_long (flags : List flag) (tok : Token) (h : LongForm tok) :
    kind_of flags tok
      = match find_long flags (tok.drop 2)
          ((match find_eq tok with
            | some k => k
            | none => tok.length) - 2) with
        | none => .unknown
        | some f => .long f ((find_eq tok).map (fun k => tok.drop (k + 1))) := by
  obtain ⟨h0, h1, h2, h3, h4⟩ := h
  have hh : tok ≠ ['-', 'h'] := by
    intro e
    rw [e] at h1
    exact absurd h1 (by decide)
  unfold kind_of
  rw [if_neg (not_or.mpr ⟨h2, hh⟩), if_neg h3, if_neg h4, if_pos h1]

theorem kind_of_short (flags : List flag) (tok : Token) (c : Char) (h : ShortForm tok c) :
    kind_of flags tok
      = match find_short flags c with
        | none => .unknown
        | some f => .short f := by
  obtain ⟨rfl, h1, h2, h3⟩ := h
  have e1 : cAt ['-', c] 1 = c := rfl
  have e2 : cAt ['-', c] 2 = NUL := rfl
  unfold kind_of
  have n1 : ¬ (['-', c] = ['-', '-', 'h', 'e', 'l', 'p'] ∨ ['-', c] = ['-', 'h']) := by
    simp [h3]
  have n2 : ¬ (['-', c] = ['-', '-']) := by simp [h2]
  have n3 : ¬ (List.take 5 ['-', c] = ['-', '-', 'n', 'o', '-']) := by simp
  rw [if_neg n1, if_neg n2, if_neg n3, e1, e2, if_neg h2, if_pos ⟨h1, rfl⟩]

theorem kind_of_negated (flags : List flag) (N : Token) :
    kind_of flags (['-', '-', 'n', 'o', '-'] ++ N)
      = match find_long flags N N.length with
        | none => .unknown
        | some f => .negated f := by
  unfold kind_of
  have n1 : ¬ (['-', '-', 'n', 'o', '-'] ++ N = ['-', '-', 'h', 'e', 'l', 'p'] ∨
      ['-', '-', 'n', 'o', '-'] ++ N = ['-', 'h']) := by simp
  have n2 : ¬ (['-', '-', 'n', 'o', '-'] ++ N = ['-', '-']) := by simp
  have p3 : List.take 5 (['-', '-', 'n', 'o', '-'] ++ N) = ['-', '-', 'n', 'o', '-'] := by simp
  rw [if_neg n1, if_neg n2, if_pos p3]
  simp

theorem bodyL_negated (env : Env) (pre : List Token) (tok : Token) (rest : List Token)
    (s : Sys) (f : flag) (hk : kind_of s.g_flags tok = .negated f) (hd : cAt tok 0 = '-') :
    bodyL env pre tok rest s
      = (err_ctl (process_flag env s f tok none false).1, pre, rest,
          (process_flag env s f tok none false).2) := by
  unfold bodyL classifyL err_ctl
  rw [if_neg (by simp [hd]), hk]
  dsimp only
  rcases (process_flag env s f tok none false) with ⟨_ | e, s1⟩
  · rfl
  · by_cases he : e = 0 <;> simp [he]

theorem bodyL_long (env : Env) (pre : List Token) (tok : Token) (rest : List Token)
    (s : Sys) (f : flag) (v : Option Token) (hk : kind_of s.g_flags tok = .long f v)
    (hd : cAt tok 0 = '-') :
    bodyL env pre tok rest s
      = (err_ctl (process_flag env s f tok v true).1, pre, rest,
          (process_flag env s f tok v true).2) := by
  unfold bodyL classifyL err_ctl
  rw [if_neg (by simp [hd]), hk]
  dsimp only
  rcases (process_flag env s f tok v true) with ⟨_ | e, s1⟩
  · rfl
  · by_cases he : e = 0 <;> simp [he]

theorem bodyL_short_bool (env : Env) (pre : List Token) (tok : Token) (rest : List Token)
    (s : Sys) (f : flag) (hk : kind_of s.g_flags tok = .short f) (hd : cAt tok 0 = '-')
    (hb : f.type = FLAG_BOOL) :
    bodyL env pre tok rest s
      = (err_ctl (process_flag env s f tok none true).1, pre, rest,
          (process_flag env s f tok none true).2) := by
  unfold bodyL classifyL err_ctl
  rw [if_neg (by simp [hd]), hk]
  simp only [hb, ne_eq, not_true_eq_false, if_false]
  rcases (process_flag env s f tok none true) with ⟨_ | e, s1⟩
  · rfl
  · by_cases he : e = 0 <;> simp [he]

theorem bodyL_short_last (env : Env) (pre : List Token) (tok : Token)
    (s : Sys) (f : flag) (hk : kind_of s.g_flags tok = .short f) (hd : cAt tok 0 = '-')
    (hb : f.type ≠ FLAG_BOOL) :
    bodyL env pre tok [] s
      = (err_ctl (process_flag env s f tok none true).1, pre, [],
          (process_flag env s f tok none true).2) := by
  unfold bodyL classifyL err_ctl
  rw [if_neg (by simp [hd]), hk]
  simp only [hb, ne_eq, not_false_eq_true, if_true]
  rcases (process_flag env s f tok none true) with ⟨_ | e, s1⟩
  · rfl
  · by_cases he : e = 0 <;> simp [he]

theorem bodyL_short_value (env : Env) (pre : List Token) (tok : Token) (v : Token)
    (rest : List Token) (s : Sys) (f : flag) (hk : kind_of s.g_flags tok = .short f)
    (hd : cAt tok 0 = '-') (hb : f.type ≠ FLAG_BOOL) :
    bodyL env pre tok (v :: rest) s
      = (err_ctl (process_flag env s f tok (some v) true).1, pre, rest,
          (process_flag env s f tok (some v) true).2) := by
  unfold bodyL classifyL err_ctl
  rw [if_neg (by simp [hd]), hk]
  simp only [hb, ne_eq, not_false_eq_true, if_true]
  rcases (process_flag env s f tok (some v) true) with ⟨_ | e, s1⟩
  · rfl
  · by_cases he : e = 0 <;> simp [he]

/-! ## Lemmas: what the library leaves alone -/

theorem frame_refl (s : Sys) : Frame s s :=
  ⟨rfl, rfl, rfl, rfl, List.prefix_refl _, List.prefix_refl _⟩

theorem frame_trans {s s1 s2 : Sys} (h1 : Frame s s1) (h2 : Frame s1 s2) : Frame s s2 :=
  ⟨h2.1.trans h1.1, h2.2.1.trans h1.2.1, h2.2.2.1.trans h1.2.2.1,
    h2.2.2.2.1.trans h1.2.2.2.1, h1.2.2.2.2.1.trans h2.2.2.2.2.1,
    h1.2.2.2.2.2.trans h2.2.2.2.2.2⟩

theorem flag_error_frame (env : Env) (s : Sys) (code : Int) (text : Token) :
    Frame s (flag_error env s code text).2 :=
  ⟨rfl, rfl, rfl, rfl, List.prefix_append _ _, List.prefix_refl _⟩

theorem process_flag_write (env : Env) (s : Sys) (f : flag) (arg : Token)
    (v : Option Token) (b : Bool) (h : ¬ (v = none ∧ f.type ≠ FLAG_BOOL)) :
    process_flag env s f arg v b
      = (some 0, { s with flagged := s.flagged ++ [⟨f, arg, v, b⟩]
                          mem := store env s.mem f v b }) := by
  unfold process_flag
  simp only [h, if_false]

theorem process_flag_missing (env : Env) (s : Sys) (f : flag) (arg : Token) (b : Bool)
    (h : f.type ≠ FLAG_BOOL) :
    process_flag env s f arg none b
      = flag_error env { s with flagged := s.flagged ++ [⟨f, arg, none, b⟩] } 2
          ("expected value for ".toList ++ arg) := by
  unfold process_flag
  simp only [h, true_and, ne_eq, not_false_eq_true, if_true]

theorem process_flag_frame (env : Env) (s : Sys) (f : flag) (arg : Token)
    (v : Option Token) (b : Bool) : Frame s (process_flag env s f arg v b).2 := by
  by_cases h : v = none ∧ f.type ≠ FLAG_BOOL
  · obtain ⟨rfl, hb⟩ := h
    rw [process_flag_missing env s f arg b hb]
    exact ⟨rfl, rfl, rfl, rfl, List.prefix_append _ _, List.prefix_append _ _⟩
  · rw [process_flag_write env s f arg v b h]
    exact ⟨rfl, rfl, rfl, rfl, List.prefix_refl _, List.prefix_append _ _⟩

theorem classifyL_frame (env : Env) (arg : Token) (rest : List Token) (s : Sys) :
    Frame s (classifyL env arg rest s).2.2 := by
  unfold classifyL
  cases kind_of s.g_flags arg with
  | help => exact flag_error_frame env s 1 []
  | stop => exact frame_refl s
  | unknown => exact flag_error_frame env s 2 _
  | negated f => exact process_flag_frame env s f arg none false
  | long f value => exact process_flag_frame env s f arg value true
  | short f =>
    by_cases hb : f.type = FLAG_BOOL
    · simp only [hb, ne_eq, not_true_eq_false, if_false]
      exact process_flag_frame env s f arg none true
    · cases rest with
      | nil =>
        simp only [hb, ne_eq, not_false_eq_true, if_true]
        exact process_flag_frame env s f arg none true
      | cons v rest1 =>
        simp only [hb, ne_eq, not_false_eq_true, if_true]
        exact process_flag_frame env s f arg (some v) true

theorem bodyL_frame (env : Env) (pre : List Token) (tok : Token) (rest : List Token)
    (s : Sys) : Frame s (bodyL env pre tok rest s).2.2.2 := by
  have h := classifyL_frame env tok rest s
  revert h
  unfold bodyL
  by_cases hd : cAt tok 0 ≠ '-'
  · rw [if_pos hd]
    intro _
    exact frame_refl s
  · rw [if_neg hd]
    rcases classifyL env tok rest s with ⟨r, rest1, s1⟩
    rcases r with e | (_ | err)
    · exact id
    · exact id
    · by_cases he : err = 0 <;> simp [he]

theorem runL_frame (env : Env) (n : Nat) :
    ∀ (pre rest : List Token) (s : Sys), Frame s (runL env n pre rest s).2.2.2 := by
  induction n with
  | zero => intro pre rest s; exact frame_refl s
  | succ n ih =>
    intro pre rest s
    cases rest with
    | nil => exact frame_refl s
    | cons tok rest =>
      have hb := bodyL_frame env pre tok rest s
      simp only [runL]
      revert hb
      rcases bodyL env pre tok rest s with ⟨r, pre1, rest1, s1⟩
      intro hb
      rcases r with e | u
      · exact hb
      · exact frame_trans hb (ih pre1 rest1 s1)

theorem scanL_frame (env : Env) (fuel : Nat) :
    ∀ (pre rest : List Token) (s : Sys) (e : LoopEnd) (out : List Token) (s1 : Sys),
      scanL env fuel pre rest s = .ok (e, out, s1) → Frame s s1 := by
  induction fuel with
  | zero =>
    intro pre rest s e out s1 h
    cases rest with
    | nil =>
      simp [scanL] at h
      rw [← h.2.2]
      exact frame_refl s
    | cons t r => simp [scanL] at h
  | succ n ih =>
    intro pre rest s e out s1 h
    cases rest with
    | nil =>
      simp [scanL] at h
      rw [← h.2.2]
      exact frame_refl s
    | cons tok rest =>
      have hb := bodyL_frame env pre tok rest s
      simp only [scanL] at h
      revert h
      revert hb
      rcases bodyL env pre tok rest s with ⟨r, pre1, rest1, s2⟩
      intro hb h
      rcases r with e1 | u
      · simp at h
        rw [← h.2.2]
        exact hb
      · exact frame_trans hb (ih pre1 rest1 s2 e out s1 h)

/-- At a reached token the registry is the one `flag_parse` was called with. -/
theorem reaches_frame (env : Env) (s : Sys) (prog : Token) (args : List Token)
    (usage : Token) (n i : Nat) (st : Scan) (tok : Token)
    (h : Reaches env s prog args usage n i st tok) : Frame (start s prog usage) st.sys := by
  obtain ⟨pre, rest, tail, _, _, hrun⟩ := reaches_list env s prog args usage n i st tok h
  have := runL_frame env n [] args (start s prog usage)
  rw [hrun] at this
  exact this

theorem after_loop_calls (env : Env) (minargs : Int) (out : List Token)
    (tail : List (Option Token)) (s1 : Sys) (h : tail ≠ []) :
    ∃ res, after_loop env minargs (toScan out tail s1) = .ok res ∧
      s1.calls <+: res.sys.calls := by
  rw [after_loop_toScan env minargs out tail s1 h]
  by_cases hm : ((out.length : Nat) : Int) < minargs
  · rw [if_pos hm]
    exact ⟨_, rfl, (flag_error_frame env s1 3 _).2.2.2.2.1⟩
  · rw [if_neg hm]
    exact ⟨_, rfl, List.prefix_refl _⟩

/-- From a reached token `flag_parse` returns: its result holds the calls of the exit
handler made up to the end of the iteration on that token, and when that iteration
leaves by `return`, the result is the state at that point. -/
theorem reaches_total (env : Env) (s : Sys) (prog : Token) (args : List Token)
    (usage : Token) (minargs : Int) (n i : Nat) (st : Scan) (tok : Token)
    (h : Reaches env s prog args usage n i st tok) :
    ∃ pre rest tail, i = pre.length ∧ st = toScan (pre ++ tok :: rest) tail st.sys ∧
      ∃ res, flag_parse env s (((prog :: args).length : Nat) : Int) (mkArgv (prog :: args))
          usage minargs = .ok res ∧
        (bodyL env pre tok rest st.sys).2.2.2.calls <+: res.sys.calls ∧
        ∀ r, (bodyL env pre tok rest st.sys).1 = .inl (.ret r) →
          res.ret = r ∧ res.sys = (bodyL env pre tok rest st.sys).2.2.2 := by
  obtain ⟨pre, rest, tail, hi, hst, hrun⟩ := reaches_list env s prog args usage n i st tok h
  refine ⟨pre, rest, tail, hi, hst, ?_⟩
  have h1 := runL_scanL env n args.length [] args (start s prog usage) pre (tok :: rest)
    st.sys (le_refl _) hrun
  have hb := bodyL_rest_le env pre tok rest st.sys
  simp only [List.length_cons, scanL] at h1
  revert h1
  revert hb
  rcases bodyL env pre tok rest st.sys with ⟨r, pre1, rest1, s1⟩
  intro hb h1
  rcases r with e | u
  · simp only at h1
    obtain ⟨tail1, hne, _, hp⟩ := flag_parse_scanL env s prog args usage minargs _ _ _ h1
    cases e with
    | ret r0 =>
      refine ⟨_, hp, List.prefix_refl _, ?_⟩
      intro r hr
      simp only [Sum.inl.injEq, LoopEnd.ret.injEq] at hr
      exact ⟨hr, rfl⟩
    | done =>
      simp only at hp
      obtain ⟨res, hres, hc⟩ := after_loop_calls env minargs (pre1 ++ rest1) tail1 s1 hne
      rw [hres] at hp
      refine ⟨res, hp, hc, ?_⟩
      intro r hr
      simp at hr
  · simp only at h1 hb
    obtain ⟨⟨e, out, s2⟩, hs⟩ := scanL_ok env rest.length pre1 rest1 s1 hb
    have hfr := scanL_frame env rest.length pre1 rest1 s1 e out s2 hs
    rw [hs] at h1
    obtain ⟨tail1, hne, _, hp⟩ := flag_parse_scanL env s prog args usage minargs _ _ _ h1
    cases e with
    | ret r0 =>
      refine ⟨_, hp, hfr.2.2.2.2.1, ?_⟩
      intro r hr
      simp at hr
    | done =>
      simp only at hp
      obtain ⟨res, hres, hc⟩ := after_loop_calls env minargs out tail1 s2 hne
      rw [hres] at hp
      refine ⟨res, hp, hfr.2.2.2.2.1.trans hc, ?_⟩
      intro r hr
      simp at hr

/-- The call of `process_flag` without a value on an option that is not a bool. -/
theorem process_flag_missing_msg (env : Env) (s : Sys) (f : flag) (arg : Token) (b : Bool)
    (h : f.type ≠ FLAG_BOOL) (hn : NUL ∉ arg) :
    process_flag env s f arg none b
      = (env.flag_exit 2 ("expected value for ".toList ++ arg ++ ['\n'] ++ usage_text env s),
          { s with
            flagged := s.flagged ++ [⟨f, arg, none, b⟩]
            calls := s.calls
              ++ [(2, "expected value for ".toList ++ arg ++ ['\n'] ++ usage_text env s)] }) := by
  rw [process_flag_missing env s f arg b h, flag_error_msg]
  · rfl
  · simp
  · simp only [List.mem_append, not_or]
    exact ⟨by decide, hn⟩

/-- The iteration of the loop on the slots of `argv`, at a reached token, from the
iteration on lists. -/
theorem reaches_body (env : Env) (i : Nat) (st : Scan) (pre : List Token) (tok : Token)
    (rest : List Token) (tail : List (Option Token)) (hi : i = pre.length)
    (hst : st = toScan (pre ++ tok :: rest) tail st.sys) :
    ∃ st1, body env i st
        = .ok ((bodyL env pre tok rest st.sys).1.map id
            (fun _ => (bodyL env pre tok rest st.sys).2.1.length), st1) ∧
      st1.sys = (bodyL env pre tok rest st.sys).2.2.2 ∧
      st1.pargc = (((bodyL env pre tok rest st.sys).2.1
        ++ (bodyL env pre tok rest st.sys).2.2.1).length : Nat) ∧
      st1.argv.take ((bodyL env pre tok rest st.sys).2.1
          ++ (bodyL env pre tok rest st.sys).2.2.1).length
        = ((bodyL env pre tok rest st.sys).2.1
          ++ (bodyL env pre tok rest st.sys).2.2.1).map some := by
  obtain ⟨tail1, _, hb⟩ := body_slots env pre tok rest tail st.sys
  rw [← hst, ← hi] at hb
  exact ⟨_, hb, rfl, rfl, slots_take _ _⟩

/-! ## Lemmas: the calls of the exit handler made by the loop -/

theorem loopCalls_refl (s : Sys) : LoopCalls s s :=
  ⟨[], by simp, by simp⟩

theorem loopCalls_trans {s s1 s2 : Sys} (h1 : LoopCalls s s1) (h2 : LoopCalls s1 s2) :
    LoopCalls s s2 := by
  obtain ⟨e1, he1, hc1⟩ := h1
  obtain ⟨e2, he2, hc2⟩ := h2
  refine ⟨e1 ++ e2, by rw [he2, he1, List.append_assoc], ?_⟩
  intro c hc
  rcases List.mem_append.mp hc with h | h
  · exact hc1 c h
  · exact hc2 c h

theorem process_flag_loopCalls (env : Env) (s : Sys) (f : flag) (arg : Token)
    (v : Option Token) (b : Bool) : LoopCalls s (process_flag env s f arg v b).2 := by
  by_cases h : v = none ∧ f.type ≠ FLAG_BOOL
  · obtain ⟨rfl, hb⟩ := h
    rw [process_flag_missing env s f arg b hb]
    exact ⟨[_], rfl, by simp [flag_error]⟩
  · rw [process_flag_write env s f arg v b h]
    exact ⟨[], by simp, by simp⟩

theorem classifyL_loopCalls (env : Env) (arg : Token) (rest : List Token) (s : Sys) :
    LoopCalls s (classifyL env arg rest s).2.2 := by
  unfold classifyL
  cases kind_of s.g_flags arg with
  | help => exact ⟨[_], rfl, by simp [flag_error]⟩
  | stop => exact loopCalls_refl s
  | unknown => exact ⟨[_], rfl, by simp [unknown_flag, flag_error]⟩
  | negated f => exact process_flag_loopCalls env s f arg none false
  | long f value => exact process_flag_loopCalls env s f arg value true
  | short f =>
    by_cases hb : f.type = FLAG_BOOL
    · simp only [hb, ne_eq, not_true_eq_false, if_false]
      exact process_flag_loopCalls env s f arg none true
    · cases rest with
      | nil =>
        simp only [hb, ne_eq, not_false_eq_true, if_true]
        exact process_flag_loopCalls env s f arg none true
      | cons v rest1 =>
        simp only [hb, ne_eq, not_false_eq_true, if_true]
        exact process_flag_loopCalls env s f arg (some v) true

theorem bodyL_loopCalls (env : Env) (pre : List Token) (tok : Token) (rest : List Token)
    (s : Sys) : LoopCalls s (bodyL env pre tok rest s).2.2.2 := by
  have h := classifyL_loopCalls env tok rest s
  revert h
  unfold bodyL
  by_cases hd : cAt tok 0 ≠ '-'
  · rw [if_pos hd]
    intro _
    exact loopCalls_refl s
  · rw [if_neg hd]
    rcases classifyL env tok rest s with ⟨r, rest1, s1⟩
    rcases r with e | (_ | err)
    · exact id
    · exact id
    · by_cases he : err = 0 <;> simp [he]

theorem scanL_loopCalls (env : Env) (fuel : Nat) :
    ∀ (pre rest : List Token) (s : Sys) (e : LoopEnd) (out : List Token) (s1 : Sys),
      scanL env fuel pre rest s = .ok (e, out, s1) → LoopCalls s s1 := by
  induction fuel with
  | zero =>
    intro pre rest s e out s1 h
    cases rest with
    | nil =>
      simp [scanL] at h
      rw [← h.2.2]
      exact loopCalls_refl s
    | cons t r => simp [scanL] at h
  | succ n ih =>
    intro pre rest s e out s1 h
    cases rest with
    | nil =>
      simp [scanL] at h
      rw [← h.2.2]
      exact loopCalls_refl s
    | cons tok rest =>
      have hb := bodyL_loopCalls env pre tok rest s
      simp only [scanL] at h
      revert h
      revert hb
      rcases bodyL env pre tok rest s with ⟨r, pre1, rest1, s2⟩
      intro hb h
      rcases r with e1 | u
      · simp at h
        rw [← h.2.2]
        exact hb
      · exact loopCalls_trans hb (ih pre1 rest1 s2 e out s1 h)

/-- The loop of `flag_parse` on the caller's tokens ends, in a state given by the loop
on lists. -/
theorem scan_init (env : Env) (s : Sys) (prog : Token) (args : List Token) (usage : Token) :
    ∃ e out s1 tail, tail ≠ [] ∧
      scanL env args.length [] args (start s prog usage) = .ok (e, out, s1) ∧
      scan env args.length 0 (init_scan s prog args usage) = .ok (e, toScan out tail s1) := by
  obtain ⟨⟨e, out, s1⟩, h⟩ := scanL_ok env args.length [] args (start s prog usage) (le_refl _)
  obtain ⟨tail0, hl0, hi⟩ := init_scan_eq s prog args usage
  obtain ⟨tail, hl, hs⟩ := scan_slots env args.length [] args tail0 (start s prog usage) e out s1 h
  have hle := scanL_out_le env args.length [] args (start s prog usage) e out s1 h
  refine ⟨e, out, s1, tail, ?_, h, ?_⟩
  · intro h0
    rw [h0] at hl
    simp only [List.length_nil, List.nil_append, Nat.add_zero, Nat.zero_add] at hl hle
    omega
  · rw [hi]
    simpa using hs

theorem digitChar_ne_NUL (n : Nat) (h : n < 16) : Nat.digitChar n ≠ NUL := by
  interval_cases n <;> decide

theorem digitsLE_lt (b : Nat) (hb : 0 < b) (fuel : Nat) :
    ∀ n, ∀ d ∈ digitsLE b fuel n, d < b := by
  induction fuel with
  | zero => intro n d hd; simp [digitsLE] at hd
  | succ k ih =>
    intro n d hd
    unfold digitsLE at hd
    by_cases h0 : n = 0
    · rw [if_pos h0] at hd
      simp at hd
    · rw [if_neg h0] at hd
      rcases List.mem_cons.mp hd with rfl | hm
      · exact Nat.mod_lt _ hb
      · exact ih _ d hm

theorem natNumeral_nul (b n : Nat) (hb : 0 < b) (hb16 : b ≤ 16) : NUL ∉ natNumeral b n := by
  unfold natNumeral
  by_cases h : n = 0
  · rw [if_pos h]
    decide
  · rw [if_neg h]
    intro hm
    obtain ⟨d, hd, hx⟩ := List.mem_map.mp hm
    have := digitsLE_lt b hb n n d (List.mem_reverse.mp hd)
    exact digitChar_ne_NUL d (by omega) hx

theorem fmt_d_nul (n : Int) : NUL ∉ fmt_d n := by
  unfold fmt_d
  by_cases h : n < 0
  · rw [if_pos h]
    simp only [List.mem_cons, not_or]
    exact ⟨by decide, natNumeral_nul _ _ (by decide) (by decide)⟩
  · rw [if_neg h]
    exact natNumeral_nul _ _ (by decide) (by decide)

/-- The result of `flag_parse` on the caller's tokens, by the way the loop ends. -/
theorem flag_parse_cases (env : Env) (s : Sys) (prog : Token) (args : List Token)
    (usage : Token) (minargs : Int) :
    ∃ e out s1 tail, tail ≠ [] ∧
      scanL env args.length [] args (start s prog usage) = .ok (e, out, s1) ∧
      scan env args.length 0 (init_scan s prog args usage) = .ok (e, toScan out tail s1) ∧
      flag_parse env s (((prog :: args).length : Nat) : Int) (mkArgv (prog :: args)) usage
          minargs
        = match e with
          | .ret r => .ok { ret := r, pargc := ((out.length : Nat) : Int)
                            argv := slots out tail, sys := s1 }
          | .done => after_loop env minargs (toScan out tail s1) := by
  obtain ⟨e, out, s1, tail, hne, hL, hS⟩ := scan_init env s prog args usage
  refine ⟨e, out, s1, tail, hne, hL, hS, ?_⟩
  rw [flag_parse_init, hS]
  cases e <;> rfl

/-- A reached token on which `process_flag` is called without a value for an option
that is not a bool. -/
theorem reaches_missing (env : Env) (s : Sys) (prog : Token) (args : List Token)
    (usage : Token) (minargs : Int) (n i : Nat) (st : Scan) (tok : Token) (f : flag)
    (b : Bool) (hreach : Reaches env s prog args usage n i st tok)
    (hnb : f.type ≠ FLAG_BOOL) (hnul : NUL ∉ tok)
    (hbody : ∀ pre rest tail, i = pre.length → st = toScan (pre ++ tok :: rest) tail st.sys →
      bodyL env pre tok rest st.sys
        = (err_ctl (process_flag env st.sys f tok none b).1, pre, rest,
            (process_flag env st.sys f tok none b).2)) :
    (∃ st1, body env i st
        = .ok ((err_ctl (env.flag_exit 2
            ("expected value for ".toList ++ tok ++ ['\n'] ++ usage_text env st.sys))).map
              id (fun _ => i), st1) ∧
      st1.sys.calls = st.sys.calls
        ++ [(2, "expected value for ".toList ++ tok ++ ['\n'] ++ usage_text env st.sys)] ∧
      st1.sys.mem = st.sys.mem) ∧
    ∃ res, flag_parse env s (((prog :: args).length : Nat) : Int) (mkArgv (prog :: args))
        usage minargs = .ok res ∧
      (st.sys.calls
        ++ [(2, "expected value for ".toList ++ tok ++ ['\n'] ++ usage_text env st.sys)])
        <+: res.sys.calls ∧
      (env.flag_exit 2
          ("expected value for ".toList ++ tok ++ ['\n'] ++ usage_text env st.sys) ≠ some 0 →
        res.ret = env.flag_exit 2
          ("expected value for ".toList ++ tok ++ ['\n'] ++ usage_text env st.sys) ∧
        res.sys.calls = st.sys.calls
          ++ [(2, "expected value for ".toList ++ tok ++ ['\n'] ++ usage_text env st.sys)] ∧
        res.sys.mem = st.sys.mem) := by
  obtain ⟨pre, rest, tail, hi, hst, res, hp, hcalls, hret⟩ :=
    reaches_total env s prog args usage minargs n i st tok hreach
  have hbody := hbody pre rest tail hi hst
  rw [process_flag_missing_msg env st.sys f tok b hnb hnul] at hbody
  obtain ⟨st1, hb1, hs1, _, _⟩ := reaches_body env i st pre tok rest tail hi hst
  rw [hbody] at hb1 hs1 hcalls hret
  simp only at hb1 hs1 hcalls hret
  refine ⟨⟨st1, ?_, ?_, ?_⟩, res, hp, hcalls, ?_⟩
  · rw [hb1, hi]
  · rw [hs1]
  · rw [hs1]
  · intro hne
    cases hx : env.flag_exit 2
        ("expected value for ".toList ++ tok ++ ['\n'] ++ usage_text env st.sys) with
    | none =>
      obtain ⟨h1, h2⟩ := hret none (by rw [hx]; rfl)
      exact ⟨h1, by rw [h2], by rw [h2]⟩
    | some e =>
      have he : e ≠ 0 := by
        intro h0
        rw [hx, h0] at hne
        exact hne rfl
      obtain ⟨h1, h2⟩ := hret (some e) (by rw [hx]; simp [err_ctl, he])
      exact ⟨h1, by rw [h2], by rw [h2]⟩

/-- A reached token on which `process_flag` writes: the iteration makes no call of the
exit handler, writes the cell of the descriptor and the loop goes on at the same
index. -/
theorem reaches_write (env : Env) (i : Nat) (st : Scan) (tok : Token) (f : flag)
    (v : Option Token) (b : Bool) (pre rest rest1 : List Token) (tail : List (Option Token))
    (hi : i = pre.length) (hst : st = toScan (pre ++ tok :: rest) tail st.sys)
    (hw : ¬ (v = none ∧ f.type ≠ FLAG_BOOL))
    (hbody : bodyL env pre tok rest st.sys
        = (err_ctl (process_flag env st.sys f tok v b).1, pre, rest1,
            (process_flag env st.sys f tok v b).2)) :
    ∃ st1, body env i st = .ok (.inr i, st1) ∧
      st1.sys.mem = store env st.sys.mem f v b ∧ st1.sys.calls = st.sys.calls ∧
      st1.sys.flagged = st.sys.flagged ++ [⟨f, tok, v, b⟩] ∧
      st1.pargc = (((pre ++ rest1).length : Nat) : Int) ∧
      st1.argv.take (pre ++ rest1).length = (pre ++ rest1).map some := by
  rw [process_flag_write env st.sys f tok v b hw] at hbody
  obtain ⟨st1, hb1, hs1, hp1, ha1⟩ := reaches_body env i st pre tok rest tail hi hst
  rw [hbody] at hb1 hs1 hp1 ha1
  simp only at hb1 hs1 hp1 ha1
  refine ⟨st1, ?_, ?_, ?_, ?_, hp1, ha1⟩
  · rw [hb1, hi]
    rfl
  · rw [hs1]
  · rw [hs1]
  · rw [hs1]

theorem store_bool (env : Env) (m : Mem) (f : flag) (v : Option Token) (b : Bool)
    (h : f.type = FLAG_BOOL) : store env m f v b = { m with b := upd m.b f.pval b } := by
  unfold store
  rw [h]
  cases v <;> rfl

theorem store_int (env : Env) (m : Mem) (f : flag) (v : Token) (b : Bool)
    (h : f.type = FLAG_INT) :
    store env m f (some v) b = { m with i := upd m.i f.pval (toInt32 (strtol v)) } := by
  unfold store
  rw [h]

theorem store_string (env : Env) (m : Mem) (f : flag) (v : Token) (b : Bool)
    (h : f.type = FLAG_STRING) :
    store env m f (some v) b = { m with s := upd m.s f.pval (some v) } := by
  unfold store
  rw [h]

theorem store_double (env : Env) (m : Mem) (f : flag) (v : Token) (b : Bool)
    (h : f.type = FLAG_DOUBLE) :
    store env m f (some v) b = { m with d := upd m.d f.pval (env.strtod v) } := by
  unfold store
  rw [h]

/-- In a registry built by `append`, a name that no descriptor carries is not found. -/
theorem find_long_none_of_not_longName (flags : List flag) (hreg : Registered flags)
    (Y : Token) (h : ¬ LongName flags Y) : find_long flags Y Y.length = none := by
  cases hf : find_long flags Y Y.length with
  | none => rfl
  | some f =>
    exfalso
    obtain ⟨hm, hl⟩ := find_long_registered flags hreg Y Y.length f hf
    rw [List.take_length] at hl
    exact h ⟨f, hm, hl⟩

/-- The `if` chain finds nothing in a dash token of three bytes or more whose second
byte is not a dash. -/
theorem kind_of_cluster (flags : List flag) (c : Char) (V : Token) (hV : V ≠ [])
    (hc : c ≠ '-') (hn : NUL ∉ '-' :: c :: V) : kind_of flags ('-' :: c :: V) = .unknown := by
  obtain ⟨d, W, rfl⟩ := List.exists_cons_of_ne_nil hV
  have e1 : cAt ('-' :: c :: d :: W) 1 = c := rfl
  have e2 : cAt ('-' :: c :: d :: W) 2 = d := rfl
  have hd : d ≠ NUL := by
    intro h
    apply hn
    rw [← h]
    simp
  unfold kind_of
  have n1 : ¬ ('-' :: c :: d :: W = ['-', '-', 'h', 'e', 'l', 'p'] ∨
      '-' :: c :: d :: W = ['-', 'h']) := by
    simp
    intro h
    exact absurd h hc
  have n2 : ¬ ('-' :: c :: d :: W = ['-', '-']) := by simp
  have n3 : ¬ (List.take 5 ('-' :: c :: d :: W) = ['-', '-', 'n', 'o', '-']) := by
    simp
    intro h
    exact absurd h hc
  rw [if_neg n1, if_neg n2, if_neg n3, e1, e2, if_neg hc, if_neg (by simp [hd])]

theorem map_eraseIdx_mid (pre : List Token) (x : Token) (rest : List Token) :
    (List.map some (pre ++ x :: rest)).eraseIdx pre.length = List.map some (pre ++ rest) := by
  rw [List.map_append, List.eraseIdx_append_of_length_le (by simp)]
  simp

theorem toScan_remaining (toks : List Token) (tail : List (Option Token)) (s : Sys) :
    (toScan toks tail s).remaining = toks.map some := by
  simp [Scan.remaining, toScan, slots_take]

/-- The token after a reached token, on lists. -/
theorem next_token (st : Scan) (pre : List Token) (tok : Token) (rest : List Token)
    (tail : List (Option Token)) (v : Token)
    (hst : st = toScan (pre ++ tok :: rest) tail st.sys)
    (hlt : ((pre.length : Nat) : Int) + 1 < st.pargc)
    (hget : st.argv.getD (pre.length + 1) none = some v) : ∃ rest1, rest = v :: rest1 := by
  have hpc := congrArg Scan.pargc hst
  have harg := congrArg Scan.argv hst
  simp only [toScan] at hpc harg
  cases rest with
  | nil =>
    rw [hpc] at hlt
    simp at hlt
  | cons w rest1 =>
    refine ⟨rest1, ?_⟩
    have h2 := slots_getD (pre ++ [tok]) w rest1 tail
    rw [List.append_assoc, List.length_append] at h2
    simp only [List.singleton_append, List.length_singleton] at h2
    rw [harg, h2] at hget
    rw [Option.some.inj hget]

/-! ## Lemmas: what a kind tells about the token -/

theorem kind_of_stop (flags : List flag) : kind_of flags ['-', '-'] = .stop := by
  simp [kind_of]

theorem kind_of_stop_inv (flags : List flag) (tok : Token) (h : kind_of flags tok = .stop) :
    tok = ['-', '-'] := by
  unfold kind_of at h
  split_ifs at h with h1 h2 h3 h4 h5
  · exact h2
  · simp only at h
    split at h <;> cases h
  · simp only at h
    split at h <;> cases h
  · split at h <;> cases h

theorem kind_of_short_inv (flags : List flag) (tok : Token) (f : flag)
    (h : kind_of flags tok = .short f) :
    tok ≠ ['-', '-'] ∧ cAt tok 1 ≠ NUL ∧ cAt tok 2 = NUL ∧
      find_short flags (cAt tok 1) = some f := by
  unfold kind_of at h
  split_ifs at h with h1 h2 h3 h4 h5
  · simp only at h
    split at h <;> cases h
  · simp only at h
    split at h <;> cases h
  · refine ⟨h2, h5.1, h5.2, ?_⟩
    split at h
    · cases h
    · rename_i g hg
      cases h
      exact hg

theorem kind_of_long_inv (flags : List flag) (tok : Token) (f : flag) (v : Option Token)
    (h : kind_of flags tok = .long f v) : tok ≠ ['-', '-'] ∧ cAt tok 1 = '-' := by
  unfold kind_of at h
  split_ifs at h with h1 h2 h3 h4 h5
  · simp only at h
    split at h <;> cases h
  · exact ⟨h2, h4⟩
  · split at h <;> cases h

theorem kind_of_negated_inv (flags : List flag) (tok : Token) (f : flag)
    (h : kind_of flags tok = .negated f) :
    tok ≠ ['-', '-'] ∧ tok.take 5 = ['-', '-', 'n', 'o', '-'] := by
  unfold kind_of at h
  split_ifs at h with h1 h2 h3 h4 h5
  · exact ⟨h2, h3⟩
  · simp only at h
    split at h <;> cases h
  · split at h <;> cases h

theorem takes_value_short (flags : List flag) (tok : Token) (f : flag)
    (h : kind_of flags tok = .short f) (hn : NUL ∉ tok) (hd : cAt tok 0 = '-') :
    takes_value flags tok = decide (f.type ≠ FLAG_BOOL) := by
  obtain ⟨_, h1, h2, hf⟩ := kind_of_short_inv flags tok f h
  have ht := two_bytes tok hn hd h1 h2
  rw [ht]
  simp [takes_value, hf]

theorem takes_value_long (flags : List flag) (tok : Token) (f : flag) (v : Option Token)
    (h : kind_of flags tok = .long f v) : takes_value flags tok = false := by
  obtain ⟨h1, h2⟩ := kind_of_long_inv flags tok f v h
  rcases tok with _ | ⟨a, _ | ⟨c, _ | ⟨d, W⟩⟩⟩
  · rfl
  · rfl
  · have hc : c = '-' := h2
    subst hc
    by_cases ha : a = '-'
    · subst ha
      exact absurd rfl h1
    · simp [takes_value, ha]
  · rfl

theorem takes_value_negated (flags : List flag) (tok : Token) (f : flag)
    (h : kind_of flags tok = .negated f) : takes_value flags tok = false := by
  obtain ⟨_, h2⟩ := kind_of_negated_inv flags tok f h
  rcases tok with _ | ⟨a, _ | ⟨c, _ | ⟨d, W⟩⟩⟩
  · rfl
  · rfl
  · simp at h2
  · rfl

/-! ## Lemmas: iterations without a call of the exit handler -/

theorem calls_append_ne (l : List (Int × Token)) (x : Int × Token) : l ++ [x] ≠ l := by
  intro h
  have := congrArg List.length h
  simp at this

theorem process_flag_quiet (env : Env) (s : Sys) (f : flag) (arg : Token)
    (v : Option Token) (b : Bool) (hq : (process_flag env s f arg v b).2.calls = s.calls) :
    ¬ (v = none ∧ f.type ≠ FLAG_BOOL) ∧
      process_flag env s f arg v b
        = (some 0, { s with flagged := s.flagged ++ [⟨f, arg, v, b⟩]
                            mem := store env s.mem f v b }) := by
  by_cases h : v = none ∧ f.type ≠ FLAG_BOOL
  · exfalso
    obtain ⟨rfl, hb⟩ := h
    rw [process_flag_missing env s f arg b hb] at hq
    exact calls_append_ne _ _ hq
  · exact ⟨h, process_flag_write env s f arg v b h⟩

/-- An iteration on a dash token that makes no call of the exit handler: the token is
`--`, or `process_flag` is called once and writes. -/
theorem classifyL_quiet (env : Env) (arg : Token) (rest : List Token) (s : Sys)
    (hq : (classifyL env arg rest s).2.2.calls = s.calls) :
    (kind_of s.g_flags arg = .stop ∧ classifyL env arg rest s = (.inl .done, rest, s)) ∨
    ∃ f v b rest1, ¬ (v = none ∧ f.type ≠ FLAG_BOOL) ∧
      classifyL env arg rest s
        = (.inr (some 0), rest1,
            { s with flagged := s.flagged ++ [⟨f, arg, v, b⟩]
                     mem := store env s.mem f v b }) ∧
      ((kind_of s.g_flags arg = .negated f ∧ v = none ∧ b = false ∧ rest1 = rest) ∨
        (kind_of s.g_flags arg = .long f v ∧ b = true ∧ rest1 = rest) ∨
        (kind_of s.g_flags arg = .short f ∧ b = true ∧
          ((f.type = FLAG_BOOL ∧ v = none ∧ rest1 = rest) ∨
            (f.type ≠ FLAG_BOOL ∧ ∃ w, v = some w ∧ rest = w :: rest1)))) := by
  unfold classifyL at hq ⊢
  cases hk : kind_of s.g_flags arg with
  | help =>
    exfalso
    rw [hk] at hq
    exact calls_append_ne _ _ hq
  | stop => exact Or.inl ⟨rfl, rfl⟩
  | unknown =>
    exfalso
    rw [hk] at hq
    exact calls_append_ne _ _ hq
  | negated f =>
    rw [hk] at hq
    obtain ⟨hw, he⟩ := process_flag_quiet env s f arg none false hq
    refine Or.inr ⟨f, none, false, rest, hw, ?_, Or.inl ⟨rfl, rfl, rfl, rfl⟩⟩
    simp only [he]
  | long f value =>
    rw [hk] at hq
    obtain ⟨hw, he⟩ := process_flag_quiet env s f arg value true hq
    refine Or.inr ⟨f, value, true, rest, hw, ?_, Or.inr (Or.inl ⟨rfl, rfl, rfl⟩)⟩
    simp only [he]
  | short f =>
    rw [hk] at hq
    by_cases hb : f.type = FLAG_BOOL
    · simp only [hb, ne_eq, not_true_eq_false, if_false] at hq ⊢
      obtain ⟨hw, he⟩ := process_flag_quiet env s f arg none true hq
      refine Or.inr ⟨f, none, true, rest, hw, ?_,
        Or.inr (Or.inr ⟨rfl, rfl, Or.inl ⟨hb, rfl, rfl⟩⟩)⟩
      simp only [he]
    · cases rest with
      | nil =>
        exfalso
        simp only [hb, ne_eq, not_false_eq_true, if_true] at hq
        exact (process_flag_quiet env s f arg none true hq).1 ⟨rfl, hb⟩
      | cons w rest1 =>
        simp only [hb, ne_eq, not_false_eq_true, if_true] at hq ⊢
        obtain ⟨hw, he⟩ := process_flag_quiet env s f arg (some w) true hq
        refine Or.inr ⟨f, some w, true, rest1, hw, ?_,
          Or.inr (Or.inr ⟨rfl, rfl, Or.inr ⟨hb, w, rfl, rfl⟩⟩)⟩
        simp only [he]

/-- The same for a whole iteration: a token that does not begin with a dash is kept,
`--` ends the loop, any other token is removed with one writing call of
`process_flag`. -/
theorem bodyL_quiet (env : Env) (pre : List Token) (tok : Token) (rest : List Token)
    (s : Sys) (hq : (bodyL env pre tok rest s).2.2.2.calls = s.calls) :
    (cAt tok 0 ≠ '-' ∧ bodyL env pre tok rest s = (.inr (), pre ++ [tok], rest, s)) ∨
    (cAt tok 0 = '-' ∧ kind_of s.g_flags tok = .stop ∧
      bodyL env pre tok rest s = (.inl .done, pre, rest, s)) ∨
    (cAt tok 0 = '-' ∧ ∃ f v b rest1, ¬ (v = none ∧ f.type ≠ FLAG_BOOL) ∧
      bodyL env pre tok rest s
        = (.inr (), pre, rest1,
            { s with flagged := s.flagged ++ [⟨f, tok, v, b⟩]
                     mem := store env s.mem f v b }) ∧
      ((kind_of s.g_flags tok = .negated f ∧ v = none ∧ b = false ∧ rest1 = rest) ∨
        (kind_of s.g_flags tok = .long f v ∧ b = true ∧ rest1 = rest) ∨
        (kind_of s.g_flags tok = .short f ∧ b = true ∧
          ((f.type = FLAG_BOOL ∧ v = none ∧ rest1 = rest) ∨
            (f.type ≠ FLAG_BOOL ∧ ∃ w, v = some w ∧ rest = w :: rest1))))) := by
  by_cases hd : cAt tok 0 ≠ '-'
  · left
    refine ⟨hd, ?_⟩
    unfold bodyL
    rw [if_pos hd]
  · have hd2 : cAt tok 0 = '-' := not_not.mp hd
    have hb : bodyL env pre tok rest s
        = match classifyL env tok rest s with
          | (.inl e, rest1, s1) => (.inl e, pre, rest1, s1)
          | (.inr none, rest1, s1) => (.inl (.ret none), pre, rest1, s1)
          | (.inr (some err), rest1, s1) =>
            if err ≠ 0 then (.inl (.ret (some err)), pre, rest1, s1)
            else (.inr (), pre, rest1, s1) := by
      unfold bodyL
      rw [if_neg hd]
    have hq2 : (classifyL env tok rest s).2.2.calls = s.calls := by
      rw [hb] at hq
      revert hq
      rcases classifyL env tok rest s with ⟨r, rest1, s1⟩
      rcases r with e | (_ | err)
      · exact id
      · exact id
      · by_cases he : err = 0 <;> simp [he]
    rcases classifyL_quiet env tok rest s hq2 with ⟨hk, hc⟩ | ⟨f, v, b, rest1, hw, hc, hx⟩
    · right; left
      refine ⟨hd2, hk, ?_⟩
      rw [hb, hc]
    · right; right
      refine ⟨hd2, f, v, b, rest1, hw, ?_, hx⟩
      rw [hb, hc]
      simp

/-! ## Lemmas: the positional arguments -/

theorem dashdash_cAt : cAt ['-', '-'] 0 = '-' := rfl

theorem positionals_nondash (flags : List flag) (tok : Token) (rest : List Token)
    (h : cAt tok 0 ≠ '-') :
    positionals flags (tok :: rest) = tok :: positionals flags rest ∧
      has_stop flags (tok :: rest) = has_stop flags rest := by
  have h2 : tok ≠ ['-', '-'] := by
    intro e
    rw [e] at h
    exact h rfl
  cases rest <;> simp [positionals, has_stop, if_neg h2, h]

theorem positionals_stop (flags : List flag) (rest : List Token) :
    positionals flags (['-', '-'] :: rest) = rest ∧
      has_stop flags (['-', '-'] :: rest) = true := by
  cases rest <;> simp [positionals, has_stop]

theorem positionals_flag (flags : List flag) (tok : Token) (rest : List Token)
    (h2 : tok ≠ ['-', '-']) (hd : cAt tok 0 = '-') (ht : takes_value flags tok = false) :
    positionals flags (tok :: rest) = positionals flags rest ∧
      has_stop flags (tok :: rest) = has_stop flags rest := by
  cases rest <;> simp [positionals, has_stop, if_neg h2, hd, ht]

theorem positionals_value (flags : List flag) (tok w : Token) (rest : List Token)
    (h2 : tok ≠ ['-', '-']) (hd : cAt tok 0 = '-') (ht : takes_value flags tok = true) :
    positionals flags (tok :: w :: rest) = positionals flags rest ∧
      has_stop flags (tok :: w :: rest) = has_stop flags rest := by
  simp [positionals, has_stop, if_neg h2, hd, ht]

/-- One iteration without a call of the exit handler keeps the positional arguments of
the whole list. -/
theorem bodyL_quiet_pos (env : Env) (pre : List Token) (tok : Token) (rest : List Token)
    (s : Sys) (hq : (bodyL env pre tok rest s).2.2.2.calls = s.calls) (hn : NUL ∉ tok) :
    ∃ r pre1 rest1 s2, bodyL env pre tok rest s = (r, pre1, rest1, s2) ∧
      s2.g_flags = s.g_flags ∧ s2.calls = s.calls ∧ (∀ t ∈ rest1, t ∈ rest) ∧
      ((r = .inl .done ∧ pre1 ++ rest1 = pre ++ positionals s.g_flags (tok :: rest) ∧
          has_stop s.g_flags (tok :: rest) = true) ∨
        (r = .inr () ∧
          pre1 ++ positionals s.g_flags rest1 = pre ++ positionals s.g_flags (tok :: rest) ∧
          has_stop s.g_flags (tok :: rest) = has_stop s.g_flags rest1)) := by
  rcases bodyL_quiet env pre tok rest s hq with ⟨hd, hb⟩ | ⟨hd, hk, hb⟩ |
    ⟨hd, f, v, b, rest1, hw, hb, hx⟩
  · refine ⟨_, _, _, _, hb, rfl, rfl, fun t ht => ht, Or.inr ⟨rfl, ?_, ?_⟩⟩
    · rw [(positionals_nondash s.g_flags tok rest hd).1]
      simp
    · exact (positionals_nondash s.g_flags tok rest hd).2
  · have ht := kind_of_stop_inv s.g_flags tok hk
    subst ht
    refine ⟨_, _, _, _, hb, rfl, rfl, fun t ht => ht, Or.inl ⟨rfl, ?_, ?_⟩⟩
    · rw [(positionals_stop s.g_flags rest).1]
    · exact (positionals_stop s.g_flags rest).2
  · refine ⟨_, _, _, _, hb, rfl, rfl, ?_, Or.inr ⟨rfl, ?_⟩⟩
    · rcases hx with ⟨_, _, _, rfl⟩ | ⟨_, _, rfl⟩ | ⟨_, _, ⟨_, _, rfl⟩ | ⟨_, w, _, rfl⟩⟩
      · exact fun t ht => ht
      · exact fun t ht => ht
      · exact fun t ht => ht
      · exact fun t ht => List.mem_cons_of_mem _ ht
    · rcases hx with ⟨hk, _, _, rfl⟩ | ⟨hk, _, rfl⟩ | ⟨hk, _, ⟨hb2, _, rfl⟩ | ⟨hb2, w, _, rfl⟩⟩
      · have h := positionals_flag s.g_flags tok rest1
          (kind_of_negated_inv s.g_flags tok f hk).1 hd (takes_value_negated s.g_flags tok f hk)
        exact ⟨by rw [h.1], h.2⟩
      · have h := positionals_flag s.g_flags tok rest1
          (kind_of_long_inv s.g_flags tok f v hk).1 hd (takes_value_long s.g_flags tok f v hk)
        exact ⟨by rw [h.1], h.2⟩
      · have h := positionals_flag s.g_flags tok rest1
          (kind_of_short_inv s.g_flags tok f hk).1 hd
          (by rw [takes_value_short s.g_flags tok f hk hn hd]; simp [hb2])
        exact ⟨by rw [h.1], h.2⟩
      · have h := positionals_value s.g_flags tok w rest1
          (kind_of_short_inv s.g_flags tok f hk).1 hd
          (by rw [takes_value_short s.g_flags tok f hk hn hd]; simp [hb2])
        exact ⟨by rw [h.1], h.2⟩

theorem prefix_antisymm_calls {a b c : List (Int × Token)} (h1 : a <+: b) (h2 : b <+: c)
    (h : c = a) : b = a := by
  subst h
  have hl1 := h1.length_le
  have hl2 := h2.length_le
  exact (h1.eq_of_length (by omega)).symm

/-- A loop without a call of the exit handler ends normally and leaves the positional
arguments. -/
theorem scanL_quiet_pos (env : Env) (fuel : Nat) :
    ∀ (pre rest : List Token) (s : Sys) (e : LoopEnd) (out : List Token) (s1 : Sys),
      scanL env fuel pre rest s = .ok (e, out, s1) → s1.calls = s.calls →
      (∀ t ∈ rest, NUL ∉ t) →
      e = .done ∧ out = pre ++ positionals s.g_flags rest := by
  induction fuel with
  | zero =>
    intro pre rest s e out s1 h _ _
    cases rest with
    | nil =>
      simp [scanL] at h
      exact ⟨h.1.symm, by rw [← h.2.1]; simp [positionals]⟩
    | cons t r => simp [scanL] at h
  | succ n ih =>
    intro pre rest s e out s1 h hq hn
    cases rest with
    | nil =>
      simp [scanL] at h
      exact ⟨h.1.symm, by rw [← h.2.1]; simp [positionals]⟩
    | cons tok rest =>
      have hfr := bodyL_frame env pre tok rest s
      simp only [scanL] at h
      have hq2 : (bodyL env pre tok rest s).2.2.2.calls = s.calls := by
        revert h
        revert hfr
        rcases bodyL env pre tok rest s with ⟨r, pre1, rest1, s2⟩
        intro hfr h
        rcases r with e1 | u
        · simp at h
          rw [h.2.2]
          exact hq
        · have hfr2 := scanL_frame env n pre1 rest1 s2 e out s1 h
          exact prefix_antisymm_calls hfr.2.2.2.2.1 hfr2.2.2.2.2.1 hq
      obtain ⟨r, pre1, rest1, s2, hb, hg, hc, hsub, hx⟩ :=
        bodyL_quiet_pos env pre tok rest s hq2 (hn tok (List.mem_cons_self _ _))
      rw [hb] at h
      rcases hx with ⟨rfl, hp, _⟩ | ⟨rfl, hp, _⟩
      · simp at h
        exact ⟨h.1.symm, by rw [← h.2.1, hp]⟩
      · simp only at h
        have := ih pre1 rest1 s2 e out s1 h (by rw [hq, hc])
          (fun t ht => hn t (List.mem_cons_of_mem _ (hsub t ht)))
        rw [hg, hp] at this
        exact this

/-! ## Lemmas: tokens appended to a list that is scanned without a call -/

theorem classifyL_append (env : Env) (arg : Token) (rest T : List Token) (s : Sys)
    (hq : (classifyL env arg rest s).2.2.calls = s.calls) :
    classifyL env arg (rest ++ T) s
      = ((classifyL env arg rest s).1, (classifyL env arg rest s).2.1 ++ T,
          (classifyL env arg rest s).2.2) := by
  unfold classifyL at hq ⊢
  cases hk : kind_of s.g_flags arg with
  | help => rfl
  | stop => rfl
  | unknown => rfl
  | negated f => rfl
  | long f value => rfl
  | short f =>
    rw [hk] at hq
    by_cases hb : f.type = FLAG_BOOL
    · simp only [hb, ne_eq, not_true_eq_false, if_false]
    · cases rest with
      | nil =>
        exfalso
        simp only [hb, ne_eq, not_false_eq_true, if_true] at hq
        exact (process_flag_quiet env s f arg none true hq).1 ⟨rfl, hb⟩
      | cons w rest1 =>
        simp only [hb, ne_eq, not_false_eq_true, if_true, List.cons_append]

theorem bodyL_append (env : Env) (pre : List Token) (tok : Token) (rest T : List Token)
    (s : Sys) (hq : (bodyL env pre tok rest s).2.2.2.calls = s.calls) :
    bodyL env pre tok (rest ++ T) s
      = ((bodyL env pre tok rest s).1, (bodyL env pre tok rest s).2.1,
          (bodyL env pre tok rest s).2.2.1 ++ T, (bodyL env pre tok rest s).2.2.2) := by
  by_cases hd : cAt tok 0 ≠ '-'
  · unfold bodyL
    rw [if_pos hd, if_pos hd]
  · have hb : ∀ R, bodyL env pre tok R s
        = match classifyL env tok R s with
          | (.inl e, rest1, s1) => (.inl e, pre, rest1, s1)
          | (.inr none, rest1, s1) => (.inl (.ret none), pre, rest1, s1)
          | (.inr (some err), rest1, s1) =>
            if err ≠ 0 then (.inl (.ret (some err)), pre, rest1, s1)
            else (.inr (), pre, rest1, s1) := by
      intro R
      unfold bodyL
      rw [if_neg hd]
    have hq2 : (classifyL env tok rest s).2.2.calls = s.calls := by
      rw [hb] at hq
      revert hq
      rcases classifyL env tok rest s with ⟨r, rest1, s1⟩
      rcases r with e | (_ | err)
      · exact id
      · exact id
      · by_cases he : err = 0 <;> simp [he]
    rw [hb (rest ++ T), hb rest, classifyL_append env tok rest T s hq2]
    rcases classifyL env tok rest s with ⟨r, rest1, s1⟩
    rcases r with e | (_ | err)
    · rfl
    · rfl
    · by_cases he : err = 0 <;> simp [he]

/-- The loop on a list followed by more tokens, when the loop on the list alone makes
no call of the exit handler: it stops where the list stops, or goes on with the tokens
appended. -/
theorem scanL_append_quiet (env : Env) (fuel : Nat) :
    ∀ (pre rest : List Token) (s : Sys) (e : LoopEnd) (out : List Token) (s1 : Sys)
      (T : List Token) (fuel2 : Nat),
      scanL env fuel pre rest s = .ok (e, out, s1) → s1.calls = s.calls →
      (∀ t ∈ rest, NUL ∉ t) → (rest ++ T).length ≤ fuel2 →
      scanL env fuel2 pre (rest ++ T) s
        = if has_stop s.g_flags rest then .ok (.done, out ++ T, s1)
          else scanL env T.length out T s1 := by
  induction fuel with
  | zero =>
    intro pre rest s e out s1 T fuel2 h _ _ hf
    cases rest with
    | nil =>
      simp [scanL] at h
      obtain ⟨_, rfl, rfl⟩ := h
      simp only [List.nil_append, has_stop]
      exact scanL_fuel env fuel2 T.length pre T s (by simpa using hf) (le_refl _)
    | cons t r => simp [scanL] at h
  | succ n ih =>
    intro pre rest s e out s1 T fuel2 h hq hn hf
    cases rest with
    | nil =>
      simp [scanL] at h
      obtain ⟨_, rfl, rfl⟩ := h
      simp only [List.nil_append, has_stop]
      exact scanL_fuel env fuel2 T.length pre T s (by simpa using hf) (le_refl _)
    | cons tok rest =>
      cases fuel2 with
      | zero => simp at hf
      | succ m =>
        have hfr := bodyL_frame env pre tok rest s
        simp only [scanL] at h
        have hq2 : (bodyL env pre tok rest s).2.2.2.calls = s.calls := by
          revert h
          revert hfr
          rcases bodyL env pre tok rest s with ⟨r, pre1, rest1, s2⟩
          intro hfr h
          rcases r with e1 | u
          · simp at h
            rw [h.2.2]
            exact hq
          · have hfr2 := scanL_frame env n pre1 rest1 s2 e out s1 h
            exact prefix_antisymm_calls hfr.2.2.2.2.1 hfr2.2.2.2.2.1 hq
        have happ := bodyL_append env pre tok rest T s hq2
        have hle := bodyL_rest_le env pre tok rest s
        obtain ⟨r, pre1, rest1, s2, hb, hg, hc, hsub, hx⟩ :=
          bodyL_quiet_pos env pre tok rest s hq2 (hn tok (List.mem_cons_self _ _))
        rw [hb] at h happ hle
        simp only at happ hle
        simp only [List.cons_append, scanL]
        have happ2 : bodyL env pre tok (rest.append T) s
            = (r, pre1, rest1 ++ T, s2) := happ
        rw [happ2]
        rcases hx with ⟨rfl, _, hs⟩ | ⟨rfl, _, hs⟩
        · simp at h
          obtain ⟨_, rfl, rfl⟩ := h
          simp only [hs, if_true, List.append_assoc]
        · simp only at h
          simp only [List.cons_append, List.length_cons, List.length_append] at hf
          have := ih pre1 rest1 s2 e out s1 T m h (by rw [hq, hc])
            (fun t ht => hn t (List.mem_cons_of_mem _ (hsub t ht)))
            (by simp only [List.length_append]; omega)
          rw [hg] at this
          rw [hs]
          exact this

theorem scanL_stop (env : Env) (pre T : List Token) (s : Sys) :
    scanL env (['-', '-'] :: T).length pre (['-', '-'] :: T) s = .ok (.done, pre ++ T, s) := by
  have hb : bodyL env pre ['-', '-'] T s = (.inl .done, pre, T, s) := by
    unfold bodyL classifyL
    rw [if_neg (by simp [dashdash_cAt]), kind_of_stop]
  simp only [List.length_cons, scanL, hb]

theorem result_remaining (r : Result) (out : List Token) (tl : List (Option Token))
    (h1 : r.pargc = ((out.length : Nat) : Int)) (h2 : r.argv = slots out tl) :
    r.remaining = out.map some := by
  simp only [Result.remaining, h1, h2, Int.toNat_ofNat]
  exact slots_take _ _

/-! ## Lemmas: numerals -/

theorem digitVal_digitChar (d : Nat) (h : d < 16) : digitVal (Nat.digitChar d) = some d := by
  interval_cases d <;> decide

/-- Value of digits given least significant first. -/
theorem digitsLE_value (b : Nat) (hb : 2 ≤ b) (fuel : Nat) :
    ∀ n, n ≤ fuel → (digitsLE b fuel n).foldr (fun d acc => d + b * acc) 0 = n := by
  induction fuel with
  | zero =>
    intro n hn
    have : n = 0 := by omega
    subst this
    rfl
  | succ k ih =>
    intro n hn
    unfold digitsLE
    by_cases h0 : n = 0
    · rw [if_pos h0, h0]
      rfl
    · rw [if_neg h0]
      simp only [List.foldr_cons]
      have hlt : n / b < n := Nat.div_lt_self (by omega) (by omega)
      rw [ih (n / b) (by omega)]
      exact Nat.mod_add_div n b

theorem parseDigits_digits (b : Nat) (hb16 : b ≤ 16) (ds : List Nat) :
    ∀ acc, (∀ d ∈ ds, d < b) →
      parseDigits b acc (ds.map Nat.digitChar) = ds.foldl (fun a d => a * b + d) acc := by
  induction ds with
  | nil => intro acc _; rfl
  | cons d ds ih =>
    intro acc h
    have hd : d < b := h d (List.mem_cons_self _ _)
    simp only [List.map_cons, parseDigits, digitVal_digitChar d (by omega), hd, if_true,
      List.foldl_cons]
    exact ih _ (fun x hx => h x (List.mem_cons_of_mem _ hx))

theorem foldl_reverse_digits (b : Nat) (L : List Nat) :
    L.reverse.foldl (fun a d => a * b + d) 0 = L.foldr (fun d acc => d + b * acc) 0 := by
  rw [List.foldl_reverse]
  congr 1
  funext d acc
  ring

/-- Reading back the digits of a numeral. -/
theorem parseDigits_natNumeral (b : Nat) (hb : 2 ≤ b) (hb16 : b ≤ 16) (n : Nat) (h : n ≠ 0) :
    parseDigits b 0 (natNumeral b n) = n := by
  unfold natNumeral
  rw [if_neg h, parseDigits_digits b hb16 _ 0
    (fun d hd => digitsLE_lt b (by omega) n n d (List.mem_reverse.mp hd)),
    foldl_reverse_digits, digitsLE_value b hb n n (le_refl _)]

/-- The most significant digit of a positive number is not zero. -/
theorem digitsLE_getLast (b : Nat) (hb : 2 ≤ b) (fuel : Nat) :
    ∀ n, n ≤ fuel → n ≠ 0 → ∃ d ds, (digitsLE b fuel n).reverse = d :: ds ∧ d ≠ 0 ∧ d < b := by
  induction fuel with
  | zero =>
    intro n hn h0
    omega
  | succ k ih =>
    intro n hn h0
    unfold digitsLE
    rw [if_neg h0]
    have hlt : n / b < n := Nat.div_lt_self (by omega) (by omega)
    by_cases hq : n / b = 0
    · refine ⟨n % b, [], ?_, ?_, Nat.mod_lt _ (by omega)⟩
      · rw [hq]
        cases k <;> simp [digitsLE]
      · have := Nat.mod_add_div n b
        rw [hq] at this
        omega
    · obtain ⟨d, ds, he, hd, hdb⟩ := ih (n / b) (by omega) hq
      refine ⟨d, ds ++ [n % b], ?_, hd, hdb⟩
      rw [List.reverse_cons, he]
      rfl

theorem natNumeral_head (b : Nat) (hb : 2 ≤ b) (n : Nat) (h : n ≠ 0) :
    ∃ d ds, natNumeral b n = Nat.digitChar d :: ds ∧ d ≠ 0 ∧ d < b := by
  obtain ⟨d, ds, he, hd, hdb⟩ := digitsLE_getLast b hb n n (le_refl _) h
  refine ⟨d, ds.map Nat.digitChar, ?_, hd, hdb⟩
  unfold natNumeral
  rw [if_neg h, he]
  rfl

theorem toInt32_range (n : Int) (h1 : -(2 ^ 31 : Int) ≤ n) (h2 : n < 2 ^ 31) :
    toInt32 n = n := by
  unfold toInt32
  rw [Int.emod_eq_of_lt (by omega) (by omega)]
  omega

theorem digitChar_plain (d : Nat) (h : d < 16) :
    Nat.digitChar d ≠ '-' ∧ Nat.digitChar d ≠ '+' ∧ isspace (Nat.digitChar d) = false ∧
      (d ≠ 0 → Nat.digitChar d ≠ '0') := by
  interval_cases d <;> decide

theorem natNumeral_cons (b : Nat) (hb : 2 ≤ b) (n : Nat) :
    ∃ d ds, natNumeral b n = Nat.digitChar d :: ds ∧ d < b ∧ (n ≠ 0 → d ≠ 0) := by
  by_cases h : n = 0
  · subst h
    exact ⟨0, [], rfl, by omega, fun h => absurd rfl h⟩
  · obtain ⟨d, ds, he, hd, hdb⟩ := natNumeral_head b hb n h
    exact ⟨d, ds, he, hdb, fun _ => hd⟩

theorem parseDigits_natNumeral_all (b : Nat) (hb : 2 ≤ b) (hb16 : b ≤ 16) (n : Nat) :
    parseDigits b 0 (natNumeral b n) = n := by
  by_cases h : n = 0
  · subst h
    have h0 : digitVal '0' = some 0 := by decide
    have hlt : 0 < b := by omega
    simp [natNumeral, parseDigits, h0, hlt]
  · exact parseDigits_natNumeral b hb hb16 n h

theorem strtolMagnitude_decimal (m : Nat) : strtolMagnitude (natNumeral 10 m) = m := by
  by_cases h : m = 0
  · subst h
    rfl
  · obtain ⟨d, ds, he, hd, hdb⟩ := natNumeral_head 10 (by decide) m h
    have hc := (digitChar_plain d (by omega)).2.2.2 hd
    have hp := parseDigits_natNumeral 10 (by decide) (by decide) m h
    rw [he] at hp ⊢
    unfold strtolMagnitude
    split
    · rename_i x c cs heq
      simp only [List.cons.injEq] at heq
      exact absurd heq.1 hc
    · rename_i cs heq
      simp only [List.cons.injEq] at heq
      exact absurd heq.1 hc
    · exact hp

theorem strtolMagnitude_hex (m : Nat) :
    strtolMagnitude ('0' :: 'x' :: natNumeral 16 m) = m := by
  obtain ⟨d, ds, he, hdb, _⟩ := natNumeral_cons 16 (by decide) m
  have hp := parseDigits_natNumeral_all 16 (by decide) (by decide) m
  rw [he] at hp ⊢
  have hdig : isDigitOf 16 (Nat.digitChar d) = true := by
    simp [isDigitOf, digitVal_digitChar d hdb, hdb]
  simp only [strtolMagnitude, hdig, true_or, and_self, if_true]
  exact hp

theorem strtolSigned_digit (d : Nat) (hd : d < 16) (cs : Token) :
    strtolSigned (Nat.digitChar d :: cs) = (strtolMagnitude (Nat.digitChar d :: cs) : Int) := by
  have h := digitChar_plain d hd
  unfold strtolSigned
  split
  · rename_i cs2 heq
    simp only [List.cons.injEq] at heq
    exact absurd heq.1 h.1
  · rename_i cs2 heq
    simp only [List.cons.injEq] at heq
    exact absurd heq.1 h.2.1
  · rfl

theorem dropWhile_isspace (c : Char) (cs : Token) (h : isspace c = false) :
    (c :: cs).dropWhile isspace = c :: cs := by
  simp [List.dropWhile, h]

theorem strtolSigned_minus (cs : Token) :
    strtolSigned ('-' :: cs) = - (strtolMagnitude cs : Int) := by
  simp [strtolSigned]

theorem strtolSigned_fmt_d (n : Int) :
    strtolSigned ((fmt_d n).dropWhile isspace) = n := by
  unfold fmt_d
  by_cases h : n < 0
  · rw [if_pos h, dropWhile_isspace _ _ (by decide), strtolSigned_minus,
      strtolMagnitude_decimal]
    omega
  · rw [if_neg h]
    obtain ⟨d, ds, he, hdb, _⟩ := natNumeral_cons 10 (by decide) n.natAbs
    have hm := strtolMagnitude_decimal n.natAbs
    rw [he] at hm ⊢
    rw [dropWhile_isspace _ _ (digitChar_plain d (by omega)).2.2.1,
      strtolSigned_digit d (by omega), hm]
    omega

theorem strtolSigned_zero_x (cs : Token) :
    strtolSigned ('0' :: cs) = (strtolMagnitude ('0' :: cs) : Int) :=
  strtolSigned_digit 0 (by decide) cs

theorem strtolSigned_hex (n : Int) :
    strtolSigned ((hex_numeral n).dropWhile isspace) = n := by
  unfold hex_numeral
  by_cases h : n < 0
  · rw [if_pos h, dropWhile_isspace _ _ (by decide), strtolSigned_minus, strtolMagnitude_hex]
    omega
  · rw [if_neg h, dropWhile_isspace _ _ (by decide), strtolSigned_zero_x, strtolMagnitude_hex]
    omega

/-- The conversion of `--count=42`: `strtol` reads back the decimal numeral and the
hexadecimal numeral of every `int`. -/
theorem strtol_numeral (n : Int) (h1 : -(2 ^ 31 : Int) ≤ n) (h2 : n < 2 ^ 31) :
    toInt32 (strtol (fmt_d n)) = n ∧ toInt32 (strtol (hex_numeral n)) = n := by
  have e1 : strtol (fmt_d n) = n := by
    unfold strtol
    simp only [strtolSigned_fmt_d]
    rw [if_neg (by omega), if_neg (by omega)]
  have e2 : strtol (hex_numeral n) = n := by
    unfold strtol
    simp only [strtolSigned_hex]
    rw [if_neg (by omega), if_neg (by omega)]
  rw [e1, e2]
  exact ⟨toInt32_range n h1 h2, toInt32_range n h1 h2⟩

/-! ## Lemmas: the writes of a parse -/

theorem store_read_other (env : Env) (m : Mem) (f : flag) (v : Option Token) (b : Bool)
    (t : flag_type) (a : Nat) (h : ¬ (f.type = t ∧ f.pval = a)) :
    (store env m f v b).read t a = m.read t a := by
  unfold store
  cases hf : f.type <;> cases v <;> cases t <;> simp only [Mem.read] <;>
    first
    | rfl
    | (have ha : a ≠ f.pval := fun e => h ⟨by rw [hf], e.symm⟩
       simp [upd, ha])

theorem store_read_self (env : Env) (m : Mem) (f : flag) (v : Option Token) (b : Bool) :
    (f.type = FLAG_BOOL → (store env m f v b).b f.pval = b) ∧
    (f.type = FLAG_STRING → ∀ w, v = some w → (store env m f v b).s f.pval = some w) ∧
    (f.type = FLAG_INT → ∀ w, v = some w →
      (store env m f v b).i f.pval = toInt32 (strtol w)) ∧
    (f.type = FLAG_DOUBLE → ∀ w, v = some w → (store env m f v b).d f.pval = env.strtod w) := by
  refine ⟨?_, ?_, ?_, ?_⟩
  · intro h
    rw [store_bool env m f v b h]
    simp [upd]
  · intro h w hw
    rw [hw, store_string env m f w b h]
    simp [upd]
  · intro h w hw
    rw [hw, store_int env m f w b h]
    simp [upd]
  · intro h w hw
    rw [hw, store_double env m f w b h]
    simp [upd]

theorem apply_events_append (env : Env) (m : Mem) (A B : List Event) :
    apply_events env m (A ++ B) = apply_events env (apply_events env m A) B := by
  simp [apply_events, List.foldl_append]

theorem apply_events_other (env : Env) (t : flag_type) (a : Nat) (B : List Event) :
    ∀ m, (∀ e ∈ B, ¬ (e.f.type = t ∧ e.f.pval = a)) →
      (apply_events env m B).read t a = m.read t a := by
  induction B with
  | nil => intro m _; rfl
  | cons e B ih =>
    intro m h
    have h1 : apply_events env m (e :: B)
        = apply_events env (store env m e.f e.str_value e.bool_value) B := rfl
    rw [h1, ih _ (fun x hx => h x (List.mem_cons_of_mem _ hx)),
      store_read_other env m e.f e.str_value e.bool_value t a (h e (List.mem_cons_self _ _))]

theorem read_b (m m2 : Mem) (a : Nat) (h : m.read FLAG_BOOL a = m2.read FLAG_BOOL a) :
    m.b a = m2.b a := by
  simpa [Mem.read] using h

theorem read_s (m m2 : Mem) (a : Nat) (h : m.read FLAG_STRING a = m2.read FLAG_STRING a) :
    m.s a = m2.s a := by
  simpa [Mem.read] using h

theorem read_i (m m2 : Mem) (a : Nat) (h : m.read FLAG_INT a = m2.read FLAG_INT a) :
    m.i a = m2.i a := by
  simpa [Mem.read] using h

theorem read_d (m m2 : Mem) (a : Nat) (h : m.read FLAG_DOUBLE a = m2.read FLAG_DOUBLE a) :
    m.d a = m2.d a := by
  simpa [Mem.read] using h

/-- A loop without a call of the exit handler: the calls of `process_flag` it logs all
write, each for a token that names its descriptor, and the memory it leaves is the
memory it found with these writes made in order. -/
theorem scanL_quiet_log (env : Env) (fuel : Nat) :
    ∀ (pre rest : List Token) (s : Sys) (e : LoopEnd) (out : List Token) (s1 : Sys),
      scanL env fuel pre rest s = .ok (e, out, s1) → s1.calls = s.calls →
      ∃ evs, s1.flagged = s.flagged ++ evs ∧ s1.mem = apply_events env s.mem evs ∧
        ∀ ev ∈ evs, Names s.g_flags ev ∧ ¬ (ev.str_value = none ∧ ev.f.type ≠ FLAG_BOOL) := by
  induction fuel with
  | zero =>
    intro pre rest s e out s1 h _
    cases rest with
    | nil =>
      simp [scanL] at h
      obtain ⟨_, _, rfl⟩ := h
      exact ⟨[], by simp, rfl, by simp⟩
    | cons t r => simp [scanL] at h
  | succ n ih =>
    intro pre rest s e out s1 h hq
    cases rest with
    | nil =>
      simp [scanL] at h
      obtain ⟨_, _, rfl⟩ := h
      exact ⟨[], by simp, rfl, by simp⟩
    | cons tok rest =>
      have hfr := bodyL_frame env pre tok rest s
      simp only [scanL] at h
      have hq2 : (bodyL env pre tok rest s).2.2.2.calls = s.calls := by
        revert h
        revert hfr
        rcases bodyL env pre tok rest s with ⟨r, pre1, rest1, s2⟩
        intro hfr h
        rcases r with e1 | u
        · simp at h
          rw [h.2.2]
          exact hq
        · have hfr2 := scanL_frame env n pre1 rest1 s2 e out s1 h
          exact prefix_antisymm_calls hfr.2.2.2.2.1 hfr2.2.2.2.2.1 hq
      rcases bodyL_quiet env pre tok rest s hq2 with ⟨hd, hb⟩ | ⟨hd, hk, hb⟩ |
        ⟨hd, f, v, b, rest1, hw, hb, hx⟩
      · rw [hb] at h
        exact ih _ _ _ _ _ _ h hq
      · rw [hb] at h
        simp at h
        obtain ⟨_, _, rfl⟩ := h
        exact ⟨[], by simp, rfl, by simp⟩
      · rw [hb] at h
        simp only at h
        obtain ⟨evs, h1, h2, h3⟩ := ih _ _ _ _ _ _ h hq
        refine ⟨⟨f, tok, v, b⟩ :: evs, ?_, ?_, ?_⟩
        · rw [h1]
          simp
        · rw [h2]
          rfl
        · intro ev hev
          rcases List.mem_cons.mp hev with rfl | hm
          · refine ⟨?_, hw⟩
            rcases hx with ⟨hk, rfl, rfl, _⟩ | ⟨hk, rfl, _⟩ | ⟨hk, rfl, hy⟩
            · exact Or.inl ⟨hk, rfl, rfl⟩
            · exact Or.inr (Or.inl ⟨hk, rfl⟩)
            · refine Or.inr (Or.inr ⟨hk, rfl, ?_⟩)
              intro hbool
              rcases hy with ⟨_, rfl, _⟩ | ⟨hnb, _⟩
              · rfl
              · exact absurd hbool hnb
          · exact h3 ev hm

theorem scanL_quiet_done (env : Env) (fuel : Nat) :
    ∀ (pre rest : List Token) (s : Sys) (e : LoopEnd) (out : List Token) (s1 : Sys),
      scanL env fuel pre rest s = .ok (e, out, s1) → s1.calls = s.calls → e = .done := by
  induction fuel with
  | zero =>
    intro pre rest s e out s1 h _
    cases rest with
    | nil =>
      simp [scanL] at h
      exact h.1.symm
    | cons t r => simp [scanL] at h
  | succ n ih =>
    intro pre rest s e out s1 h hq
    cases rest with
    | nil =>
      simp [scanL] at h
      exact h.1.symm
    | cons tok rest =>
      have hfr := bodyL_frame env pre tok rest s
      simp only [scanL] at h
      have hq2 : (bodyL env pre tok rest s).2.2.2.calls = s.calls := by
        revert h
        revert hfr
        rcases bodyL env pre tok rest s with ⟨r, pre1, rest1, s2⟩
        intro hfr h
        rcases r with e1 | u
        · simp at h
          rw [h.2.2]
          exact hq
        · have hfr2 := scanL_frame env n pre1 rest1 s2 e out s1 h
          exact prefix_antisymm_calls hfr.2.2.2.2.1 hfr2.2.2.2.2.1 hq
      rcases bodyL_quiet env pre tok rest s hq2 with ⟨hd, hb⟩ | ⟨hd, hk, hb⟩ |
        ⟨hd, f, v, b, rest1, hw, hb, hx⟩
      · rw [hb] at h
        exact ih _ _ _ _ _ _ h hq
      · rw [hb] at h
        simp at h
        exact h.1.symm
      · rw [hb] at h
        exact ih _ _ _ _ _ _ h hq

/-- A call of `flag_parse` that returns without any call of the exit handler: the loop
ends normally, the minimum is met, and the result is the state the loop left with the
sentinel written and the registry released. -/
theorem flag_parse_quiet (env : Env) (s : Sys) (prog : Token) (args : List Token)
    (usage : Token) (minargs : Int) (res : Result)
    (h : flag_parse env s (((prog :: args).length : Nat) : Int) (mkArgv (prog :: args))
      usage minargs = .ok res)
    (hquiet : res.sys.calls = s.calls) :
    ∃ out s1 tail,
      scanL env args.length [] args (start s prog usage) = .ok (.done, out, s1) ∧
      s1.calls = s.calls ∧ res.ret = some 0 ∧ res.pargc = ((out.length : Nat) : Int) ∧
      res.argv = slots out (none :: tail) ∧ res.sys = { s1 with g_flags := [], g_cap := 0 } := by
  obtain ⟨e, out, s1, tail, hne, hL, hS, hP⟩ := flag_parse_cases env s prog args usage minargs
  rw [hP] at h
  have hfr := scanL_frame env _ _ _ _ _ _ _ hL
  cases e with
  | ret r =>
    simp only [Except.ok.injEq] at h
    subst h
    have := scanL_quiet_done env _ _ _ _ _ _ _ hL hquiet
    cases this
  | done =>
    simp only at h
    rw [after_loop_toScan env minargs out tail s1 hne] at h
    by_cases hm : ((out.length : Nat) : Int) < minargs
    · exfalso
      rw [if_pos hm] at h
      simp only [Except.ok.injEq] at h
      subst h
      have h3 := (flag_error_frame env s1 3
        ("expected ".toList ++ fmt_d minargs ++ " arguments".toList)).2.2.2.2.1
      have h4 : s1.calls = (start s prog usage).calls :=
        prefix_antisymm_calls hfr.2.2.2.2.1 h3 hquiet
      simp only [flag_error] at hquiet
      rw [h4] at hquiet
      exact calls_append_ne _ _ hquiet
    · rw [if_neg hm] at h
      simp only [Except.ok.injEq] at h
      subst h
      exact ⟨out, s1, tail.tail, hL, hquiet, rfl, rfl, rfl, rfl⟩

theorem take3_append (NAME V : Token) (h1 : '=' ∉ NAME)
    (h2 : List.take 3 NAME ≠ ['n', 'o', '-']) :
    List.take 3 (NAME ++ '=' :: V) ≠ ['n', 'o', '-'] := by
  rcases NAME with _ | ⟨a, _ | ⟨b, _ | ⟨c, W⟩⟩⟩
  · simp
  · simp
  · simp
  · simpa using h2

/-- The `if` chain on a token `--NAME=VALUE`. -/
theorem kind_of_long_eq (flags : List flag) (NAME VALUE : Token) (h1 : '=' ∉ NAME)
    (h2 : List.take 3 NAME ≠ ['n', 'o', '-']) :
    kind_of flags (['-', '-'] ++ NAME ++ '=' :: VALUE)
      = match find_long flags (NAME ++ '=' :: VALUE) NAME.length with
        | none => .unknown
        | some f => .long f (some VALUE) := by
  have hlf : LongForm (['-', '-'] ++ NAME ++ '=' :: VALUE) := by
    refine ⟨rfl, rfl, ?_, ?_, ?_⟩
    · intro e
      have : '=' ∈ ['-', '-', 'h', 'e', 'l', 'p'] := by
        rw [← e]
        simp
      exact absurd this (by decide)
    · intro e
      have := congrArg List.length e
      simp at this
    · have := take3_append NAME VALUE h1 h2
      intro e
      apply this
      simpa using e
  have he : find_eq (['-', '-'] ++ NAME ++ '=' :: VALUE) = some (NAME.length + 2) := by
    have := find_eq_append (['-', '-'] ++ NAME) VALUE (by
      simp only [List.mem_append, not_or]
      exact ⟨by decide, h1⟩)
    rw [this]
    simp only [List.length_append, List.length_cons, List.length_nil]
    congr 1
    omega
  rw [kind_of_long flags _ hlf, he]
  simp only [Option.map_some', Nat.add_sub_cancel]
  have hd : List.drop 2 (['-', '-'] ++ NAME ++ '=' :: VALUE) = NAME ++ '=' :: VALUE := by simp
  have hd2 : List.drop (NAME.length + 2 + 1) (['-', '-'] ++ NAME ++ '=' :: VALUE) = VALUE := by
    have : ['-', '-'] ++ NAME ++ '=' :: VALUE = (['-', '-'] ++ NAME ++ ['=']) ++ VALUE := by simp
    rw [this, List.drop_append_eq_append_drop]
    simp
  rw [hd, hd2]

/-! ## Properties of the parser -/

/-- C6: whatever the registry (one with an option named `h` or `help` included), when
scanning reaches a token that is exactly `--help` or `-h`, `flag_parse` calls the exit
handler once more, with status 1 and the usage text alone as message, makes no call of
`process_flag`, leaves the destinations as they were and returns what the handler
returned. -/
theorem help_request (env : Env) (s : Sys) (prog : Token) (args : List Token)
    (usage : Token) (minargs : Int) (n i : Nat) (st : Scan) (tok : Token)
    (hreach : Reaches env s prog args usage n i st tok)
    (htok : tok = ['-', '-', 'h', 'e', 'l', 'p'] ∨ tok = ['-', 'h']) :
    ∃ res, flag_parse env s (((prog :: args).length : Nat) : Int) (mkArgv (prog :: args))
        usage minargs = .ok res ∧
      res.sys.calls = st.sys.calls ++ [(1, usage_text env st.sys)] ∧
      res.ret = env.flag_exit 1 (usage_text env st.sys) ∧
      res.sys.mem = st.sys.mem ∧ res.sys.flagged = st.sys.flagged ∧
      res.sys.g_flags = st.sys.g_flags := by
  have hd : cAt tok 0 = '-' := by
    rcases htok with h | h <;> simp [h, cAt]
  have hk := kind_of_help st.sys.g_flags tok htok
  obtain ⟨res, hp, hr, hs⟩ := reaches_leave env s prog args usage minargs n i st tok hreach
    _ _ (fun pre rest => bodyL_help env pre tok rest st.sys hk hd)
  refine ⟨res, hp, ?_, ?_, ?_, ?_, ?_⟩
  · rw [hs, flag_error_help]
  · rw [hr, flag_error_help]
  · rw [hs, flag_error_help]
  · rw [hs, flag_error_help]
  · rw [hs, flag_error_help]

theorem help_request_witness :
    Reaches demo_env demo_sys ['p'] [['f'], ['-', 'h'], ['-', 'v']] ['u'] 1 1
        (init_scan demo_sys ['p'] [['f'], ['-', 'h'], ['-', 'v']] ['u']) ['-', 'h'] ∧
      ∃ res, flag_parse demo_env demo_sys
          (((['p'] :: [['f'], ['-', 'h'], ['-', 'v']]).length : Nat) : Int)
          (mkArgv (['p'] :: [['f'], ['-', 'h'], ['-', 'v']])) ['u'] 0 = .ok res ∧
        res.sys.calls = (init_scan demo_sys ['p'] [['f'], ['-', 'h'], ['-', 'v']] ['u']).sys.calls
          ++ [(1, usage_text demo_env
            (init_scan demo_sys ['p'] [['f'], ['-', 'h'], ['-', 'v']] ['u']).sys)] ∧
        res.ret = demo_env.flag_exit 1 (usage_text demo_env
          (init_scan demo_sys ['p'] [['f'], ['-', 'h'], ['-', 'v']] ['u']).sys) ∧
        res.sys.mem = (init_scan demo_sys ['p'] [['f'], ['-', 'h'], ['-', 'v']] ['u']).sys.mem ∧
        res.sys.flagged
          = (init_scan demo_sys ['p'] [['f'], ['-', 'h'], ['-', 'v']] ['u']).sys.flagged ∧
        res.sys.g_flags
          = (init_scan demo_sys ['p'] [['f'], ['-', 'h'], ['-', 'v']] ['u']).sys.g_flags :=
  have hr : Reaches demo_env demo_sys ['p'] [['f'], ['-', 'h'], ['-', 'v']] ['u'] 1 1
      (init_scan demo_sys ['p'] [['f'], ['-', 'h'], ['-', 'v']] ['u']) ['-', 'h'] :=
    ⟨rfl, by decide, rfl⟩
  ⟨hr, help_request demo_env demo_sys ['p'] [['f'], ['-', 'h'], ['-', 'v']] ['u'] 0 1 1 _ _ hr
    (Or.inr rfl)⟩

/-- C5: when scanning reaches a token that begins with `-` and is none of `--help`,
`-h`, `--`, `--no-N`, `--N`, `--N=V` with `N` a registered long name, nor `-C` with `C`
a registered short name, `flag_parse` calls the exit handler with status 2 and the
message `unknown flag <token>`, a line break and the usage text, returns what the
handler returned, makes no call of `process_flag` and writes no destination. -/
theorem unknown_flag_error (env : Env) (s : Sys) (prog : Token) (args : List Token)
    (usage : Token) (minargs : Int) (n i : Nat) (st : Scan) (tok : Token)
    (hreach : Reaches env s prog args usage n i st tok)
    (hreg : Registered s.g_flags) (hnul : NUL ∉ tok) (hdash : cAt tok 0 = '-')
    (h1 : tok ≠ ['-', '-', 'h', 'e', 'l', 'p']) (h2 : tok ≠ ['-', 'h'])
    (h3 : tok ≠ ['-', '-'])
    (h4 : ∀ N, tok = ['-', '-', 'n', 'o', '-'] ++ N → ¬ LongName s.g_flags N)
    (h5 : ∀ N, tok = ['-', '-'] ++ N → ¬ LongName s.g_flags N)
    (h6 : ∀ N V, tok = ['-', '-'] ++ N ++ ['='] ++ V → ¬ LongName s.g_flags N)
    (h7 : ∀ c, tok = ['-', c] → ¬ ShortName s.g_flags c) :
    ∃ res, flag_parse env s (((prog :: args).length : Nat) : Int) (mkArgv (prog :: args))
        usage minargs = .ok res ∧
      res.sys.calls = st.sys.calls
        ++ [(2, "unknown flag ".toList ++ tok ++ ['\n'] ++ usage_text env st.sys)] ∧
      res.ret = env.flag_exit 2
        ("unknown flag ".toList ++ tok ++ ['\n'] ++ usage_text env st.sys) ∧
      res.sys.mem = st.sys.mem ∧ res.sys.flagged = st.sys.flagged := by
  have hfl : st.sys.g_flags = s.g_flags :=
    (reaches_frame env s prog args usage n i st tok hreach).1
  have hk : kind_of st.sys.g_flags tok = .unknown := by
    rw [hfl]
    exact kind_of_unknown s.g_flags hreg tok hnul hdash h1 h2 h3 h4 h5 h6 h7
  have hmsg : unknown_flag env st.sys tok
      = (env.flag_exit 2 ("unknown flag ".toList ++ tok ++ ['\n'] ++ usage_text env st.sys),
          { st.sys with calls := st.sys.calls
              ++ [(2, "unknown flag ".toList ++ tok ++ ['\n'] ++ usage_text env st.sys)] }) := by
    unfold unknown_flag
    apply flag_error_msg
    · simp
    · simp only [List.mem_append, not_or]
      exact ⟨by decide, hnul⟩
  obtain ⟨res, hp, hr, hs⟩ := reaches_leave env s prog args usage minargs n i st tok hreach
    _ _ (fun pre rest => bodyL_unknown env pre tok rest st.sys hk hdash)
  refine ⟨res, hp, ?_, ?_, ?_, ?_⟩
  · rw [hs, hmsg]
  · rw [hr, hmsg]
  · rw [hs, hmsg]
  · rw [hs, hmsg]

theorem demo_registered : Registered demo_sys.g_flags := by
  intro f hf
  simp [demo_sys, flag_string, flag_int, flag_bool, append, sys_empty] at hf
  rcases hf with rfl | rfl | rfl <;> rfl

theorem unknown_flag_error_witness :
    Reaches demo_env demo_sys ['p'] [['f'], ['-', '-', 'b', 'o', 'g', 'u', 's'], ['g']] ['u']
        1 1 (init_scan demo_sys ['p'] [['f'], ['-', '-', 'b', 'o', 'g', 'u', 's'], ['g']] ['u'])
        ['-', '-', 'b', 'o', 'g', 'u', 's'] ∧
      ∃ res, flag_parse demo_env demo_sys
          (((['p'] :: [['f'], ['-', '-', 'b', 'o', 'g', 'u', 's'], ['g']]).length : Nat) : Int)
          (mkArgv (['p'] :: [['f'], ['-', '-', 'b', 'o', 'g', 'u', 's'], ['g']])) ['u'] 0
            = .ok res ∧
        res.sys.calls
          = (init_scan demo_sys ['p'] [['f'], ['-', '-', 'b', 'o', 'g', 'u', 's'], ['g']]
              ['u']).sys.calls
            ++ [(2, "unknown flag ".toList ++ ['-', '-', 'b', 'o', 'g', 'u', 's'] ++ ['\n']
              ++ usage_text demo_env
                (init_scan demo_sys ['p'] [['f'], ['-', '-', 'b', 'o', 'g', 'u', 's'], ['g']]
                  ['u']).sys)] ∧
        res.ret = demo_env.flag_exit 2
          ("unknown flag ".toList ++ ['-', '-', 'b', 'o', 'g', 'u', 's'] ++ ['\n']
            ++ usage_text demo_env
              (init_scan demo_sys ['p'] [['f'], ['-', '-', 'b', 'o', 'g', 'u', 's'], ['g']]
                ['u']).sys) ∧
        res.sys.mem
          = (init_scan demo_sys ['p'] [['f'], ['-', '-', 'b', 'o', 'g', 'u', 's'], ['g']]
              ['u']).sys.mem ∧
        res.sys.flagged
          = (init_scan demo_sys ['p'] [['f'], ['-', '-', 'b', 'o', 'g', 'u', 's'], ['g']]
              ['u']).sys.flagged :=
  have hr : Reaches demo_env demo_sys ['p']
      [['f'], ['-', '-', 'b', 'o', 'g', 'u', 's'], ['g']] ['u'] 1 1
      (init_scan demo_sys ['p'] [['f'], ['-', '-', 'b', 'o', 'g', 'u', 's'], ['g']] ['u'])
      ['-', '-', 'b', 'o', 'g', 'u', 's'] := ⟨rfl, by decide, rfl⟩
  ⟨hr, unknown_flag_error demo_env demo_sys ['p']
    [['f'], ['-', '-', 'b', 'o', 'g', 'u', 's'], ['g']] ['u'] 0 1 1 _ _ hr demo_registered
    (by decide) (by decide) (by decide) (by decide) (by decide)
    (fun N h => by simp at h)
    (fun N h => by
      simp at h
      subst h
      unfold LongName
      decide)
    (fun N V h => by
      have : '=' ∈ ['-', '-', 'b', 'o', 'g', 'u', 's'] := by
        rw [h]
        simp
      exact absurd this (by decide))
    (fun c h => by simp at h)⟩

/-- C4: when scanning reaches a token that names a registered option `f` that is not a
bool and no value is available for it (a long form token without `=`, whatever follows
it, or a short form token that is the last token left), the iteration calls the exit
handler with status 2 and the message `expected value for <token>`, a line break and the
usage text, and writes no destination; the call is in the log that `flag_parse` leaves,
and unless the handler returned 0, `flag_parse` returns what the handler returned with
the destinations as they were. -/
theorem missing_value_error (env : Env) (s : Sys) (prog : Token) (args : List Token)
    (usage : Token) (minargs : Int) (n i : Nat) (st : Scan) (tok : Token) (f : flag)
    (hreach : Reaches env s prog args usage n i st tok)
    (hname : (LongForm tok ∧ '=' ∉ tok ∧
        find_long s.g_flags (tok.drop 2) (tok.length - 2) = some f) ∨
      (∃ c, ShortForm tok c ∧ find_short s.g_flags c = some f ∧ (i : Int) + 1 = st.pargc))
    (hnb : f.type ≠ FLAG_BOOL) (hnul : NUL ∉ tok) :
    (∃ st1, body env i st
        = .ok ((err_ctl (env.flag_exit 2
            ("expected value for ".toList ++ tok ++ ['\n'] ++ usage_text env st.sys))).map
              id (fun _ => i), st1) ∧
      st1.sys.calls = st.sys.calls
        ++ [(2, "expected value for ".toList ++ tok ++ ['\n'] ++ usage_text env st.sys)] ∧
      st1.sys.mem = st.sys.mem) ∧
    ∃ res, flag_parse env s (((prog :: args).length : Nat) : Int) (mkArgv (prog :: args))
        usage minargs = .ok res ∧
      (st.sys.calls
        ++ [(2, "expected value for ".toList ++ tok ++ ['\n'] ++ usage_text env st.sys)])
        <+: res.sys.calls ∧
      (env.flag_exit 2
          ("expected value for ".toList ++ tok ++ ['\n'] ++ usage_text env st.sys) ≠ some 0 →
        res.ret = env.flag_exit 2
          ("expected value for ".toList ++ tok ++ ['\n'] ++ usage_text env st.sys) ∧
        res.sys.calls = st.sys.calls
          ++ [(2, "expected value for ".toList ++ tok ++ ['\n'] ++ usage_text env st.sys)] ∧
        res.sys.mem = st.sys.mem) := by
  have hfl : st.sys.g_flags = s.g_flags :=
    (reaches_frame env s prog args usage n i st tok hreach).1
  apply reaches_missing env s prog args usage minargs n i st tok f true hreach hnb hnul
  intro pre rest tail hi hst
  rcases hname with ⟨hlf, hne, hfind⟩ | ⟨c, hsf, hfind, hlast⟩
  · have hk : kind_of st.sys.g_flags tok = .long f none := by
      rw [hfl, kind_of_long s.g_flags tok hlf, find_eq_of_not_mem tok hne]
      simp only [hfind, Option.map_none']
    exact bodyL_long env pre tok rest st.sys f none hk hlf.1
  · have hk : kind_of st.sys.g_flags tok = .short f := by
      rw [hfl, kind_of_short s.g_flags tok c hsf]
      simp only [hfind]
    have hd : cAt tok 0 = '-' := by
      rw [hsf.1]
      rfl
    have hrest : rest = [] := by
      have hpc := congrArg Scan.pargc hst
      simp only [toScan] at hpc
      rw [hpc, hi] at hlast
      simp at hlast
      exact hlast
    subst hrest
    exact bodyL_short_last env pre tok st.sys f hk hd hnb

theorem missing_value_error_witness :
    Reaches demo_env demo_sys ['p'] [tok_count, ['5']] ['u'] 0 0
        (init_scan demo_sys ['p'] [tok_count, ['5']] ['u']) tok_count ∧
      ∃ res, flag_parse demo_env demo_sys (((['p'] :: [tok_count, ['5']]).length : Nat) : Int)
          (mkArgv (['p'] :: [tok_count, ['5']])) ['u'] 0 = .ok res ∧
        res.ret = some 2 ∧ res.sys.mem.i 0 = 1 :=
  have hr : Reaches demo_env demo_sys ['p'] [tok_count, ['5']] ['u'] 0 0
      (init_scan demo_sys ['p'] [tok_count, ['5']] ['u']) tok_count := ⟨rfl, by decide, rfl⟩
  have h := (missing_value_error demo_env demo_sys ['p'] [tok_count, ['5']] ['u'] 0 0 0 _
    tok_count demo_count hr
    (Or.inl ⟨⟨rfl, rfl, by decide, by decide, by decide⟩, by decide, rfl⟩)
    (by decide) (by decide)).2
  ⟨hr, h.elim fun res hres =>
    ⟨res, hres.1, (hres.2.2 (by simp [demo_env])).1,
      by rw [(hres.2.2 (by simp [demo_env])).2.2]; rfl⟩⟩

/-- C7: when the loop of `flag_parse` ends otherwise than by `return` (input exhausted
or `--` met), leaving `*pargc` tokens, `flag_parse` calls the exit handler with status 3
and the message `expected N arguments`, a line break and the usage text exactly when
`*pargc < N`, and otherwise returns 0 without a further call; a status 3 is among the
calls of this parse exactly when `*pargc < N`.  With the program name alone and `N = 1`
the status is 3, and with `N ≤ 0` no call of the parse has status 3. -/
theorem min_args_check (env : Env) (s : Sys) (prog : Token) (args : List Token)
    (usage : Token) (minargs : Int) :
    (∀ st, scan env args.length 0 (init_scan s prog args usage) = .ok (.done, st) →
      ∃ res, flag_parse env s (((prog :: args).length : Nat) : Int) (mkArgv (prog :: args))
          usage minargs = .ok res ∧ res.pargc = st.pargc ∧
        (st.pargc < minargs →
          res.ret = env.flag_exit 3 ("expected ".toList ++ fmt_d minargs
            ++ " arguments".toList ++ ['\n'] ++ usage_text env st.sys) ∧
          res.sys.calls = st.sys.calls ++ [(3, "expected ".toList ++ fmt_d minargs
            ++ " arguments".toList ++ ['\n'] ++ usage_text env st.sys)]) ∧
        (¬ st.pargc < minargs → res.ret = some 0 ∧ res.sys.calls = st.sys.calls) ∧
        ((∃ extra m, res.sys.calls = s.calls ++ extra ∧ ((3 : Int), m) ∈ extra)
          ↔ st.pargc < minargs)) ∧
    (∃ res, flag_parse env s ((([prog] : List Token).length : Nat) : Int) (mkArgv [prog])
        usage 1 = .ok res ∧
      res.ret = env.flag_exit 3 ("expected ".toList ++ fmt_d 1
        ++ " arguments".toList ++ ['\n'] ++ usage_text env (start s prog usage)) ∧
      res.sys.calls = s.calls ++ [(3, "expected ".toList ++ fmt_d 1
        ++ " arguments".toList ++ ['\n'] ++ usage_text env (start s prog usage))]) ∧
    (minargs ≤ 0 → ∀ res,
      flag_parse env s (((prog :: args).length : Nat) : Int) (mkArgv (prog :: args))
        usage minargs = .ok res →
      ∃ extra, res.sys.calls = s.calls ++ extra ∧ ∀ c ∈ extra, c.1 ≠ 3) := by
  have hmsg : ∀ (m : Int) (s1 : Sys),
      flag_error env s1 3 ("expected ".toList ++ fmt_d m ++ " arguments".toList)
        = (env.flag_exit 3 ("expected ".toList ++ fmt_d m ++ " arguments".toList ++ ['\n']
              ++ usage_text env s1),
            { s1 with calls := s1.calls ++ [(3, "expected ".toList ++ fmt_d m
              ++ " arguments".toList ++ ['\n'] ++ usage_text env s1)] }) := by
    intro m s1
    apply flag_error_msg
    · simp
    · simp only [List.mem_append, not_or]
      exact ⟨⟨by decide, fmt_d_nul m⟩, by decide⟩
  refine ⟨?_, ?_, ?_⟩
  · intro st hscan
    obtain ⟨e, out, s1, tail, hne, hL, hS, hP⟩ := flag_parse_cases env s prog args usage minargs
    rw [hS] at hscan
    simp only [Except.ok.injEq, Prod.mk.injEq] at hscan
    obtain ⟨rfl, rfl⟩ := hscan
    simp only at hP
    rw [after_loop_toScan env minargs out tail s1 hne] at hP
    obtain ⟨extra0, hx0, hc0⟩ := scanL_loopCalls env _ _ _ _ _ _ _ hL
    have hx1 : s1.calls = s.calls ++ extra0 := hx0
    by_cases hm : ((out.length : Nat) : Int) < minargs
    · rw [if_pos hm, hmsg] at hP
      refine ⟨_, hP, rfl, fun _ => ⟨rfl, rfl⟩, fun h => absurd hm h, ?_⟩
      constructor
      · intro _
        exact hm
      · intro _
        refine ⟨extra0 ++ [(3, "expected ".toList ++ fmt_d minargs
          ++ " arguments".toList ++ ['\n'] ++ usage_text env s1)], "expected ".toList
          ++ fmt_d minargs ++ " arguments".toList ++ ['\n'] ++ usage_text env s1, ?_, ?_⟩
        · show s1.calls ++ _ = _
          rw [hx1, List.append_assoc]
        · simp
    · rw [if_neg hm] at hP
      refine ⟨_, hP, rfl, fun h => absurd h hm, fun _ => ⟨rfl, rfl⟩, ?_⟩
      constructor
      · rintro ⟨extra, m, he, hmem⟩
        exfalso
        have he2 : s.calls ++ extra0 = s.calls ++ extra := by
          rw [← hx1]
          exact he
        have := List.append_cancel_left he2
        rw [← this] at hmem
        rcases hc0 _ hmem with h | h <;> simp at h
      · intro h
        exact absurd h hm
  · have hL : scanL env ([] : List Token).length [] [] (start s prog usage)
        = .ok (.done, [], start s prog usage) := rfl
    obtain ⟨tail, hne, _, hP⟩ := flag_parse_scanL env s prog [] usage 1 _ _ _ hL
    simp only at hP
    rw [after_loop_toScan env 1 [] tail _ hne, if_pos (by simp), hmsg] at hP
    exact ⟨_, hP, rfl, rfl⟩
  · intro hle res hres
    obtain ⟨e, out, s1, tail, hne, hL, hS, hP⟩ := flag_parse_cases env s prog args usage minargs
    obtain ⟨extra0, hx0, hc0⟩ := scanL_loopCalls env _ _ _ _ _ _ _ hL
    have hx1 : s1.calls = s.calls ++ extra0 := hx0
    have hno : ∀ c ∈ extra0, c.1 ≠ 3 := by
      intro c hc
      rcases hc0 c hc with h | h <;> rw [h] <;> decide
    rw [hP] at hres
    cases e with
    | ret r =>
      simp only [Except.ok.injEq] at hres
      subst hres
      exact ⟨extra0, hx1, hno⟩
    | done =>
      simp only at hres
      have hm : ¬ ((out.length : Nat) : Int) < minargs := by omega
      rw [after_loop_toScan env minargs out tail s1 hne, if_neg hm] at hres
      simp only [Except.ok.injEq] at hres
      subst hres
      exact ⟨extra0, hx1, hno⟩

theorem min_args_check_witness :
    ∃ res, flag_parse demo_env demo_sys
        (((['p'] :: [['-', 'v'], ['-', '-'], ['-', 'x']]).length : Nat) : Int)
        (mkArgv (['p'] :: [['-', 'v'], ['-', '-'], ['-', 'x']])) ['u'] 2 = .ok res ∧
      res.pargc = 1 ∧ res.ret = some 3 :=
  ((min_args_check demo_env demo_sys ['p'] [['-', 'v'], ['-', '-'], ['-', 'x']] ['u'] 2).1
      _ rfl).elim
    fun res h => ⟨res, h.1, h.2.1, (h.2.2.1 (by decide)).1⟩

/-- C9 fails as stated: with the int option `count` registered, the
token `--no-count` makes `flag_parse` call the exit handler with status 2 and write
nothing (the guard of line 170). -/
theorem negation_nonbool_counterexample :
    find_long demo_sys.g_flags ['c', 'o', 'u', 'n', 't'] 5 = some demo_count ∧
      demo_count.type = FLAG_INT ∧
      ∃ res, flag_parse demo_env demo_sys (((['p'] :: [tok_no_count]).length : Nat) : Int)
          (mkArgv (['p'] :: [tok_no_count])) ['u'] 0 = .ok res ∧
        res.ret = some 2 ∧ res.sys.calls.map Prod.fst = [2] ∧
        res.sys.mem.b 0 = demo_mem.b 0 ∧ res.sys.mem.i 0 = demo_mem.i 0 :=
  ⟨rfl, rfl, _, rfl, rfl, rfl, rfl, rfl⟩

/-- C9, amended: when scanning reaches a token `--no-NAME` whose `NAME` is found by
`find_long` as the long name of the registered option `f`, then for a bool `f` the
iteration writes false into its destination, calls no exit handler and the loop goes
on; for an int, double or string `f` the guard of `process_flag` calls the exit handler
with status 2 and the message `expected value for --no-NAME`, a line break and the usage
text, and nothing is written. -/
theorem negation_by_kind (env : Env) (s : Sys) (prog : Token) (args : List Token)
    (usage : Token) (minargs : Int) (n i : Nat) (st : Scan) (NAME : Token) (f : flag)
    (hreach : Reaches env s prog args usage n i st (['-', '-', 'n', 'o', '-'] ++ NAME))
    (hfind : find_long s.g_flags NAME NAME.length = some f) (hnul : NUL ∉ NAME) :
    (f.type = FLAG_BOOL →
      ∃ st1, body env i st = .ok (.inr i, st1) ∧
        st1.sys.mem = { st.sys.mem with b := upd st.sys.mem.b f.pval false } ∧
        st1.sys.calls = st.sys.calls) ∧
    (f.type ≠ FLAG_BOOL →
      (∃ st1, body env i st
          = .ok ((err_ctl (env.flag_exit 2
              ("expected value for ".toList ++ (['-', '-', 'n', 'o', '-'] ++ NAME) ++ ['\n']
                ++ usage_text env st.sys))).map id (fun _ => i), st1) ∧
        st1.sys.calls = st.sys.calls
          ++ [(2, "expected value for ".toList ++ (['-', '-', 'n', 'o', '-'] ++ NAME) ++ ['\n']
            ++ usage_text env st.sys)] ∧
        st1.sys.mem = st.sys.mem) ∧
      ∃ res, flag_parse env s (((prog :: args).length : Nat) : Int) (mkArgv (prog :: args))
          usage minargs = .ok res ∧
        (st.sys.calls
          ++ [(2, "expected value for ".toList ++ (['-', '-', 'n', 'o', '-'] ++ NAME) ++ ['\n']
            ++ usage_text env st.sys)]) <+: res.sys.calls ∧
        (env.flag_exit 2
            ("expected value for ".toList ++ (['-', '-', 'n', 'o', '-'] ++ NAME) ++ ['\n']
              ++ usage_text env st.sys) ≠ some 0 →
          res.ret = env.flag_exit 2
            ("expected value for ".toList ++ (['-', '-', 'n', 'o', '-'] ++ NAME) ++ ['\n']
              ++ usage_text env st.sys) ∧
          res.sys.calls = st.sys.calls
            ++ [(2, "expected value for ".toList ++ (['-', '-', 'n', 'o', '-'] ++ NAME)
              ++ ['\n'] ++ usage_text env st.sys)] ∧
          res.sys.mem = st.sys.mem)) := by
  have hfl : st.sys.g_flags = s.g_flags :=
    (reaches_frame env s prog args usage n i st _ hreach).1
  have hk : kind_of st.sys.g_flags (['-', '-', 'n', 'o', '-'] ++ NAME) = .negated f := by
    rw [hfl, kind_of_negated, hfind]
  have hd : cAt (['-', '-', 'n', 'o', '-'] ++ NAME) 0 = '-' := rfl
  have hnul2 : NUL ∉ ['-', '-', 'n', 'o', '-'] ++ NAME := by
    simp only [List.mem_append, not_or]
    exact ⟨by decide, hnul⟩
  constructor
  · intro hb
    obtain ⟨pre, rest, tail, hi, hst, _⟩ :=
      reaches_total env s prog args usage minargs n i st _ hreach
    obtain ⟨st1, h1, h2, h3, _⟩ := reaches_write env i st _ f none false pre rest rest tail hi
      hst (by simp [hb]) (bodyL_negated env pre _ rest st.sys f hk hd)
    rw [store_bool env _ f none false hb] at h2
    exact ⟨st1, h1, h2, h3⟩
  · intro hnb
    exact reaches_missing env s prog args usage minargs n i st _ f false hreach hnb hnul2
      (fun pre rest tail _ _ => bodyL_negated env pre _ rest st.sys f hk hd)

theorem negation_by_kind_witness :
    Reaches demo_env demo_sys ['p'] [tok_no_verbose, ['f']] ['u'] 0 0
        (init_scan demo_sys ['p'] [tok_no_verbose, ['f']] ['u']) tok_no_verbose ∧
      ∃ st1, body demo_env 0 (init_scan demo_sys ['p'] [tok_no_verbose, ['f']] ['u'])
          = .ok (.inr 0, st1) ∧ st1.sys.mem.b 0 = false ∧ st1.sys.calls = [] :=
  have hr : Reaches demo_env demo_sys ['p'] [tok_no_verbose, ['f']] ['u'] 0 0
      (init_scan demo_sys ['p'] [tok_no_verbose, ['f']] ['u']) tok_no_verbose :=
    ⟨rfl, by decide, rfl⟩
  ⟨hr, ((negation_by_kind demo_env demo_sys ['p'] [tok_no_verbose, ['f']] ['u'] 0 0 0 _
      ['v', 'e', 'r', 'b', 'o', 's', 'e'] demo_verbose hr rfl (by decide)).1 rfl).elim
    fun st1 h => ⟨st1, h.1, by rw [h.2.1]; rfl, by rw [h.2.2]; rfl⟩⟩

/-- C8 fails as stated for the long name `help`: with a bool option
`help` registered, `--no-help` sets it false, and the later `--help` is the help
request, which leaves it false. -/
theorem negation_help_counterexample :
    find_long help_sys.g_flags ['h', 'e', 'l', 'p'] 4 = some help_flag ∧
      help_flag.type = FLAG_BOOL ∧
      ∃ res, flag_parse demo_env help_sys
          (((['p'] :: [['-', '-', 'n', 'o', '-', 'h', 'e', 'l', 'p'],
            ['-', '-', 'h', 'e', 'l', 'p']]).length : Nat) : Int)
          (mkArgv (['p'] :: [['-', '-', 'n', 'o', '-', 'h', 'e', 'l', 'p'],
            ['-', '-', 'h', 'e', 'l', 'p']])) ['u'] 0 = .ok res ∧
        res.ret = some 1 ∧ res.sys.calls.map Prod.fst = [1] ∧
        res.sys.flagged = [⟨help_flag, ['-', '-', 'n', 'o', '-', 'h', 'e', 'l', 'p'], none,
          false⟩] ∧
        res.sys.mem.b 0 = false :=
  ⟨rfl, rfl, _, rfl, rfl, rfl, rfl, rfl⟩

/-- C8, amended: let `X` be found by `find_long` as the long name of the registered
bool option `f`.  Whenever scanning reaches a token `--no-X`, the iteration sets the
destination of `f` to false, whatever it held, without a call of the exit handler, and
the loop goes on; whenever scanning reaches a token `--X` that is a long form token of
the grammar (`X` is not `help`, is not empty and does not begin with `no-`) and holds no
`=`, the iteration sets the destination to true; and a reached token `--no-Y` whose `Y`
is not a registered long name makes `flag_parse` call the exit handler with status 2
and the message `unknown flag --no-Y`, a line break and the usage text. -/
theorem negation_sets_false (env : Env) (s : Sys) (prog : Token) (args : List Token)
    (usage : Token) (minargs : Int) (X : Token) (f : flag)
    (hfind : find_long s.g_flags X X.length = some f) (hbool : f.type = FLAG_BOOL)
    (hreg : Registered s.g_flags) :
    (∀ n i st, Reaches env s prog args usage n i st (['-', '-', 'n', 'o', '-'] ++ X) →
      ∃ st1, body env i st = .ok (.inr i, st1) ∧
        st1.sys.mem = { st.sys.mem with b := upd st.sys.mem.b f.pval false } ∧
        st1.sys.mem.b f.pval = false ∧ st1.sys.calls = st.sys.calls) ∧
    (∀ n i st, Reaches env s prog args usage n i st (['-', '-'] ++ X) →
      LongForm (['-', '-'] ++ X) → '=' ∉ X →
      ∃ st1, body env i st = .ok (.inr i, st1) ∧
        st1.sys.mem = { st.sys.mem with b := upd st.sys.mem.b f.pval true } ∧
        st1.sys.mem.b f.pval = true ∧ st1.sys.calls = st.sys.calls) ∧
    (∀ n i st Y, Reaches env s prog args usage n i st (['-', '-', 'n', 'o', '-'] ++ Y) →
      ¬ LongName s.g_flags Y → NUL ∉ Y →
      ∃ res, flag_parse env s (((prog :: args).length : Nat) : Int) (mkArgv (prog :: args))
          usage minargs = .ok res ∧
        res.sys.calls = st.sys.calls
          ++ [(2, "unknown flag ".toList ++ (['-', '-', 'n', 'o', '-'] ++ Y) ++ ['\n']
            ++ usage_text env st.sys)] ∧
        res.ret = env.flag_exit 2
          ("unknown flag ".toList ++ (['-', '-', 'n', 'o', '-'] ++ Y) ++ ['\n']
            ++ usage_text env st.sys) ∧
        res.sys.mem = st.sys.mem) := by
  refine ⟨?_, ?_, ?_⟩
  · intro n i st hreach
    have hfl : st.sys.g_flags = s.g_flags :=
      (reaches_frame env s prog args usage n i st _ hreach).1
    have hk : kind_of st.sys.g_flags (['-', '-', 'n', 'o', '-'] ++ X) = .negated f := by
      rw [hfl, kind_of_negated, hfind]
    obtain ⟨pre, rest, tail, hi, hst, _⟩ :=
      reaches_total env s prog args usage minargs n i st _ hreach
    obtain ⟨st1, h1, h2, h3, _⟩ := reaches_write env i st _ f none false pre rest rest tail hi
      hst (by simp [hbool]) (bodyL_negated env pre _ rest st.sys f hk rfl)
    rw [store_bool env _ f none false hbool] at h2
    exact ⟨st1, h1, h2, by rw [h2]; simp [upd], h3⟩
  · intro n i st hreach hlf hne
    have hfl : st.sys.g_flags = s.g_flags :=
      (reaches_frame env s prog args usage n i st _ hreach).1
    have hne2 : '=' ∉ ['-', '-'] ++ X := by
      simp only [List.mem_append, not_or]
      exact ⟨by decide, hne⟩
    have hk : kind_of st.sys.g_flags (['-', '-'] ++ X) = .long f none := by
      rw [hfl, kind_of_long s.g_flags _ hlf, find_eq_of_not_mem _ hne2]
      have : find_long s.g_flags (List.drop 2 (['-', '-'] ++ X))
          ((['-', '-'] ++ X).length - 2) = some f := by
        simpa using hfind
      simp only [this, Option.map_none']
    obtain ⟨pre, rest, tail, hi, hst, _⟩ :=
      reaches_total env s prog args usage minargs n i st _ hreach
    obtain ⟨st1, h1, h2, h3, _⟩ := reaches_write env i st _ f none true pre rest rest tail hi
      hst (by simp [hbool]) (bodyL_long env pre _ rest st.sys f none hk rfl)
    rw [store_bool env _ f none true hbool] at h2
    exact ⟨st1, h1, h2, by rw [h2]; simp [upd], h3⟩
  · intro n i st Y hreach hY hnul
    have hfl : st.sys.g_flags = s.g_flags :=
      (reaches_frame env s prog args usage n i st _ hreach).1
    have hk : kind_of st.sys.g_flags (['-', '-', 'n', 'o', '-'] ++ Y) = .unknown := by
      rw [hfl, kind_of_negated, find_long_none_of_not_longName s.g_flags hreg Y hY]
    have hmsg : unknown_flag env st.sys (['-', '-', 'n', 'o', '-'] ++ Y)
        = (env.flag_exit 2 ("unknown flag ".toList ++ (['-', '-', 'n', 'o', '-'] ++ Y)
              ++ ['\n'] ++ usage_text env st.sys),
            { st.sys with calls := st.sys.calls
                ++ [(2, "unknown flag ".toList ++ (['-', '-', 'n', 'o', '-'] ++ Y) ++ ['\n']
                  ++ usage_text env st.sys)] }) := by
      unfold unknown_flag
      apply flag_error_msg
      · simp
      · simp only [List.mem_append, not_or]
        exact ⟨by decide, by decide, hnul⟩
    obtain ⟨res, hp, hr, hs⟩ := reaches_leave env s prog args usage minargs n i st _ hreach
      _ _ (fun pre rest => bodyL_unknown env pre _ rest st.sys hk rfl)
    refine ⟨res, hp, ?_, ?_, ?_⟩
    · rw [hs, hmsg]
    · rw [hr, hmsg]
    · rw [hs, hmsg]

theorem negation_sets_false_witness :
    Reaches demo_env demo_sys ['p'] [['-', 'v'], tok_no_verbose, tok_verbose] ['u'] 1 0
        (demo_state 1 [['-', 'v'], tok_no_verbose, tok_verbose]) tok_no_verbose ∧
      (demo_state 1 [['-', 'v'], tok_no_verbose, tok_verbose]).sys.mem.b 0 = true ∧
      ∃ st1, body demo_env 0 (demo_state 1 [['-', 'v'], tok_no_verbose, tok_verbose])
          = .ok (.inr 0, st1) ∧ st1.sys.mem.b 0 = false :=
  have hr : Reaches demo_env demo_sys ['p'] [['-', 'v'], tok_no_verbose, tok_verbose] ['u']
      1 0 (demo_state 1 [['-', 'v'], tok_no_verbose, tok_verbose]) tok_no_verbose :=
    ⟨rfl, by decide, rfl⟩
  ⟨hr, rfl, ((negation_sets_false demo_env demo_sys ['p']
      [['-', 'v'], tok_no_verbose, tok_verbose] ['u'] 0 ['v', 'e', 'r', 'b', 'o', 's', 'e']
      demo_verbose rfl rfl demo_registered).1 1 0 _ hr).elim
    fun st1 h => ⟨st1, h.1, h.2.2.1⟩⟩

/-- C10 fails as stated for the short names `h` and `-`: with an int
option of short name `h`, the token `-h` followed by `5` is the help request and `5` is
not used as a value; with an int option of short name `-`, the token `--x=7` of more
than two characters does not yield the unknown-flag condition (it is the long form of
`x`). -/
theorem short_value_counterexample :
    (∃ f, find_short odd_sys.g_flags 'h' = some f ∧ f.type = FLAG_INT ∧
      ∃ res, flag_parse demo_env odd_sys (((['p'] :: [['-', 'h'], ['5']]).length : Nat) : Int)
          (mkArgv (['p'] :: [['-', 'h'], ['5']])) ['u'] 0 = .ok res ∧
        res.ret = some 1 ∧ res.sys.flagged = [] ∧ res.sys.mem.i 0 = demo_mem.i 0 ∧
        res.remaining = [some ['5']]) ∧
    (∃ f, find_short odd_sys.g_flags '-' = some f ∧ f.type = FLAG_INT ∧
      ∃ res, flag_parse demo_env odd_sys
          (((['p'] :: [['-', '-', 'x', '=', '7']]).length : Nat) : Int)
          (mkArgv (['p'] :: [['-', '-', 'x', '=', '7']])) ['u'] 0 = .ok res ∧
        res.ret = some 0 ∧ res.sys.calls = [] ∧ res.sys.mem.i 1 = 7) :=
  ⟨⟨_, rfl, rfl, _, rfl, rfl, rfl, rfl, rfl⟩, ⟨_, rfl, rfl, _, rfl, rfl, rfl, by decide⟩⟩

/-- C10, amended: when scanning reaches a short form token `-C` of the grammar (`C` is
neither `h` nor `-`) whose `C` is found by `find_short` as the short name of the
registered option `f`: if `f` is not a bool and a token `v` follows, the iteration
removes both tokens from the list, calls `process_flag` once, with `v` as the value
whatever `v` is, and the loop goes on at the same index, so that `v` is neither kept
nor scanned; if `f` is a bool, only the token itself is removed.  A reached token
`-CVALUE` of three characters or more with `C` other than `-` makes `flag_parse` call
the exit handler with status 2 and the message `unknown flag -CVALUE`, a line break and
the usage text, with no call of `process_flag`. -/
theorem short_value_consumed (env : Env) (s : Sys) (prog : Token) (args : List Token)
    (usage : Token) (minargs : Int) (n i : Nat) (st : Scan) (tok : Token)
    (hreach : Reaches env s prog args usage n i st tok) :
    (∀ c f, ShortForm tok c → find_short s.g_flags c = some f →
      (f.type ≠ FLAG_BOOL → ∀ v, ((i : Nat) : Int) + 1 < st.pargc →
        st.argv.getD (i + 1) none = some v →
        ∃ st1, body env i st = .ok (.inr i, st1) ∧
          st1.sys.mem = store env st.sys.mem f (some v) true ∧
          st1.sys.flagged = st.sys.flagged ++ [⟨f, tok, some v, true⟩] ∧
          st1.sys.calls = st.sys.calls ∧
          st1.pargc = st.pargc - 2 ∧
          st1.remaining = (st.remaining.eraseIdx i).eraseIdx i) ∧
      (f.type = FLAG_BOOL →
        ∃ st1, body env i st = .ok (.inr i, st1) ∧
          st1.sys.mem = { st.sys.mem with b := upd st.sys.mem.b f.pval true } ∧
          st1.sys.calls = st.sys.calls ∧
          st1.pargc = st.pargc - 1 ∧
          st1.remaining = st.remaining.eraseIdx i)) ∧
    (∀ c V, tok = '-' :: c :: V → V ≠ [] → c ≠ '-' → NUL ∉ tok →
      ∃ res, flag_parse env s (((prog :: args).length : Nat) : Int) (mkArgv (prog :: args))
          usage minargs = .ok res ∧
        res.sys.calls = st.sys.calls
          ++ [(2, "unknown flag ".toList ++ tok ++ ['\n'] ++ usage_text env st.sys)] ∧
        res.ret = env.flag_exit 2
          ("unknown flag ".toList ++ tok ++ ['\n'] ++ usage_text env st.sys) ∧
        res.sys.mem = st.sys.mem ∧ res.sys.flagged = st.sys.flagged) := by
  have hfl : st.sys.g_flags = s.g_flags :=
    (reaches_frame env s prog args usage n i st tok hreach).1
  obtain ⟨pre, rest, tail, hi, hst, _⟩ :=
    reaches_total env s prog args usage minargs n i st tok hreach
  have hpc := congrArg Scan.pargc hst
  have hrem : st.remaining = (pre ++ tok :: rest).map some := by
    rw [hst]
    exact toScan_remaining _ _ _
  simp only [toScan] at hpc
  refine ⟨?_, ?_⟩
  · intro c f hsf hfind
    have hk : kind_of st.sys.g_flags tok = .short f := by
      rw [hfl, kind_of_short s.g_flags tok c hsf]
      simp only [hfind]
    have hd : cAt tok 0 = '-' := by
      rw [hsf.1]
      rfl
    constructor
    · intro hnb v hlt hget
      rw [hi] at hlt hget
      obtain ⟨rest1, rfl⟩ := next_token st pre tok rest tail v hst hlt hget
      obtain ⟨st1, h1, h2, h3, h4, h5, h6⟩ := reaches_write env i st tok f (some v) true pre
        (v :: rest1) rest1 tail hi hst (by simp)
        (bodyL_short_value env pre tok v rest1 st.sys f hk hd hnb)
      refine ⟨st1, h1, h2, h4, h3, ?_, ?_⟩
      · rw [h5, hpc]
        simp only [List.length_append, List.length_cons]
        push_cast
        omega
      · rw [hrem, hi]
        simp only [Scan.remaining, h5, Int.toNat_ofNat, h6]
        rw [map_eraseIdx_mid, map_eraseIdx_mid]
    · intro hb
      obtain ⟨st1, h1, h2, h3, h4, h5, h6⟩ := reaches_write env i st tok f none true pre
        rest rest tail hi hst (by simp [hb])
        (bodyL_short_bool env pre tok rest st.sys f hk hd hb)
      rw [store_bool env _ f none true hb] at h2
      refine ⟨st1, h1, h2, h3, ?_, ?_⟩
      · rw [h5, hpc]
        simp only [List.length_append, List.length_cons]
        push_cast
        omega
      · rw [hrem, hi]
        simp only [Scan.remaining, h5, Int.toNat_ofNat, h6]
        rw [map_eraseIdx_mid]
  · intro c V htok hV hc hnul
    have hk : kind_of st.sys.g_flags tok = .unknown := by
      rw [htok] at hnul ⊢
      exact kind_of_cluster _ c V hV hc hnul
    have hd : cAt tok 0 = '-' := by
      rw [htok]
      rfl
    have hmsg : unknown_flag env st.sys tok
        = (env.flag_exit 2 ("unknown flag ".toList ++ tok ++ ['\n'] ++ usage_text env st.sys),
            { st.sys with calls := st.sys.calls
                ++ [(2, "unknown flag ".toList ++ tok ++ ['\n'] ++ usage_text env st.sys)] }) := by
      unfold unknown_flag
      apply flag_error_msg
      · simp
      · simp only [List.mem_append, not_or]
        exact ⟨by decide, hnul⟩
    obtain ⟨res, hp, hr, hs⟩ := reaches_leave env s prog args usage minargs n i st tok hreach
      _ _ (fun pre rest => bodyL_unknown env pre tok rest st.sys hk hd)
    refine ⟨res, hp, ?_, ?_, ?_, ?_⟩
    · rw [hs, hmsg]
    · rw [hr, hmsg]
    · rw [hs, hmsg]
    · rw [hs, hmsg]

theorem short_value_consumed_witness :
    Reaches demo_env demo_sys ['p'] [['-', 'c'], ['-', '-', 'h', 'e', 'l', 'p'], ['f']] ['u']
        0 0 (init_scan demo_sys ['p'] [['-', 'c'], ['-', '-', 'h', 'e', 'l', 'p'], ['f']] ['u'])
        ['-', 'c'] ∧
      ∃ st1, body demo_env 0
          (init_scan demo_sys ['p'] [['-', 'c'], ['-', '-', 'h', 'e', 'l', 'p'], ['f']] ['u'])
          = .ok (.inr 0, st1) ∧
        st1.sys.flagged = [⟨demo_count, ['-', 'c'], some ['-', '-', 'h', 'e', 'l', 'p'], true⟩] ∧
        st1.sys.calls = [] ∧ st1.pargc = 1 :=
  have hr : Reaches demo_env demo_sys ['p']
      [['-', 'c'], ['-', '-', 'h', 'e', 'l', 'p'], ['f']] ['u'] 0 0
      (init_scan demo_sys ['p'] [['-', 'c'], ['-', '-', 'h', 'e', 'l', 'p'], ['f']] ['u'])
      ['-', 'c'] := ⟨rfl, by decide, rfl⟩
  ⟨hr, (((short_value_consumed demo_env demo_sys ['p']
      [['-', 'c'], ['-', '-', 'h', 'e', 'l', 'p'], ['f']] ['u'] 0 0 0 _ ['-', 'c'] hr).1
      'c' demo_count ⟨rfl, by decide, by decide, by decide⟩ rfl).1 (by decide)
      ['-', '-', 'h', 'e', 'l', 'p'] (by decide) rfl).elim
    fun st1 h => ⟨st1, h.1, by rw [h.2.2.1]; rfl, by rw [h.2.2.2.1]; rfl,
      by rw [h.2.2.2.2.1]; rfl⟩⟩

/-- C1: whenever `flag_parse`, called on the C strings `prog :: args`, returns without
any call of the exit handler, the tokens `argv[0 .. *pargc)` it leaves are the
positional arguments of `args` (every token before the first `--` scanned as a flag
that does not begin with `-` and was not consumed as the value of the short form token
before it, then every token after that `--`), in their order, `*pargc` is their number and
the value returned is 0. -/
theorem positionals_remain (env : Env) (s : Sys) (prog : Token) (args : List Token)
    (usage : Token) (minargs : Int) (res : Result)
    (hnul : ∀ t ∈ args, NUL ∉ t)
    (h : flag_parse env s (((prog :: args).length : Nat) : Int) (mkArgv (prog :: args))
      usage minargs = .ok res)
    (hquiet : res.sys.calls = s.calls) :
    res.remaining = (positionals s.g_flags args).map some ∧
      res.pargc = (((positionals s.g_flags args).length : Nat) : Int) ∧
      res.ret = some 0 := by
  obtain ⟨e, out, s1, tail, hne, hL, hS, hP⟩ := flag_parse_cases env s prog args usage minargs
  rw [hP] at h
  have hfr := scanL_frame env _ _ _ _ _ _ _ hL
  cases e with
  | ret r =>
    simp only [Except.ok.injEq] at h
    subst h
    have := (scanL_quiet_pos env _ _ _ _ _ _ _ hL hquiet hnul).1
    cases this
  | done =>
    simp only at h
    rw [after_loop_toScan env minargs out tail s1 hne] at h
    by_cases hm : ((out.length : Nat) : Int) < minargs
    · exfalso
      rw [if_pos hm] at h
      simp only [Except.ok.injEq] at h
      subst h
      have h3 := (flag_error_frame env s1 3
        ("expected ".toList ++ fmt_d minargs ++ " arguments".toList)).2.2.2.2.1
      have h4 : s1.calls = (start s prog usage).calls :=
        prefix_antisymm_calls hfr.2.2.2.2.1 h3 hquiet
      simp only [flag_error] at hquiet
      rw [h4] at hquiet
      exact calls_append_ne _ _ hquiet
    · rw [if_neg hm] at h
      simp only [Except.ok.injEq] at h
      subst h
      have := (scanL_quiet_pos env _ _ _ _ _ _ _ hL hquiet hnul).2
      simp only [List.nil_append] at this
      subst this
      refine ⟨?_, rfl, rfl⟩
      simp only [Result.remaining, Int.toNat_ofNat]
      exact slots_take _ _

theorem positionals_remain_witness :
    ∃ res, flag_parse demo_env demo_sys
        (((['p'] :: [['a'], ['-', 'c'], ['-', 'x'], ['b'], ['-', 'v'], ['-', '-'], ['-', 'y'],
          ['-', '-']]).length : Nat) : Int)
        (mkArgv (['p'] :: [['a'], ['-', 'c'], ['-', 'x'], ['b'], ['-', 'v'], ['-', '-'],
          ['-', 'y'], ['-', '-']])) ['u'] 1 = .ok res ∧
      res.remaining = [some ['a'], some ['b'], some ['-', 'y'], some ['-', '-']] ∧
      res.pargc = 4 ∧ res.ret = some 0 :=
  ⟨_, rfl, positionals_remain demo_env demo_sys ['p']
    [['a'], ['-', 'c'], ['-', 'x'], ['b'], ['-', 'v'], ['-', '-'], ['-', 'y'], ['-', '-']]
    ['u'] 1 _ (by decide) rfl rfl⟩

/-- C2 fails as stated when `L1` holds a `--` scanned as a flag: for
`L1 = [--]` and `L2 = [x]` the parse of `[prog, --]` succeeds and leaves nothing, while
the parse of `[prog, --, --, x]` leaves `--` and `x`: the `--` appended is kept. -/
theorem stop_appended_counterexample :
    (∃ res, flag_parse demo_env demo_sys (((['p'] :: [['-', '-']]).length : Nat) : Int)
        (mkArgv (['p'] :: [['-', '-']])) ['u'] 0 = .ok res ∧
      res.ret = some 0 ∧ res.sys.calls = [] ∧ res.remaining = []) ∧
    (∃ res, flag_parse demo_env demo_sys
        (((['p'] :: ([['-', '-']] ++ ['-', '-'] :: [['x']])).length : Nat) : Int)
        (mkArgv (['p'] :: ([['-', '-']] ++ ['-', '-'] :: [['x']]))) ['u'] 0 = .ok res ∧
      res.remaining = [some ['-', '-'], some ['x']] ∧
      res.remaining ≠ [] ++ [some ['x']]) :=
  ⟨⟨_, rfl, rfl, rfl, rfl⟩, ⟨_, rfl, rfl, by decide⟩⟩

/-- C2, amended: if `flag_parse` on the C strings `prog :: L1` with minimum 0 returns
without any call of the exit handler, then so does `flag_parse` on
`prog :: L1 ++ [--] ++ L2`, whatever the tokens of `L2`; it returns 0, leaves every
destination as the first parse does, and leaves the tokens left by the first parse
followed by `L2` when no `--` of `L1` is scanned as a flag (the `--` appended is then
removed), and followed by the `--` appended and `L2` when `L1` holds such a `--`. -/
theorem stop_appended (env : Env) (s : Sys) (prog : Token) (L1 L2 : List Token)
    (usage : Token) (res1 : Result) (hnul : ∀ t ∈ L1, NUL ∉ t)
    (h1 : flag_parse env s (((prog :: L1).length : Nat) : Int) (mkArgv (prog :: L1))
      usage 0 = .ok res1)
    (hquiet : res1.sys.calls = s.calls) :
    ∃ res2, flag_parse env s (((prog :: (L1 ++ ['-', '-'] :: L2)).length : Nat) : Int)
        (mkArgv (prog :: (L1 ++ ['-', '-'] :: L2))) usage 0 = .ok res2 ∧
      res2.sys.calls = s.calls ∧ res2.ret = some 0 ∧
      res2.sys.mem = res1.sys.mem ∧
      res2.remaining = res1.remaining
        ++ (if has_stop s.g_flags L1 then (['-', '-'] :: L2).map some else L2.map some) := by
  obtain ⟨e, out, s1, tail, hne, hL, hS, hP⟩ := flag_parse_cases env s prog L1 usage 0
  have hm : ∀ l : List Token, ¬ ((l.length : Nat) : Int) < 0 := by
    intro l
    omega
  have hfr := scanL_frame env _ _ _ _ _ _ _ hL
  have hq1 : s1.calls = (start s prog usage).calls := by
    rw [hP] at h1
    cases e with
    | ret r =>
      simp only [Except.ok.injEq] at h1
      subst h1
      exact hquiet
    | done =>
      simp only at h1
      rw [after_loop_toScan env 0 out tail s1 hne, if_neg (hm out)] at h1
      simp only [Except.ok.injEq] at h1
      subst h1
      exact hquiet
  obtain ⟨rfl, _⟩ := scanL_quiet_pos env _ _ _ _ _ _ _ hL hq1 hnul
  rw [hP] at h1
  simp only at h1
  rw [after_loop_toScan env 0 out tail s1 hne, if_neg (hm out)] at h1
  simp only [Except.ok.injEq] at h1
  subst h1
  have hA := scanL_append_quiet env _ [] L1 (start s prog usage) _ out s1 (['-', '-'] :: L2)
    (L1 ++ ['-', '-'] :: L2).length hL hq1 hnul (le_refl _)
  have hgf : (start s prog usage).g_flags = s.g_flags := rfl
  rw [hgf, scanL_stop] at hA
  by_cases hs : has_stop s.g_flags L1 = true
  · rw [if_pos hs] at hA
    obtain ⟨tail2, hne2, _, hP2⟩ := flag_parse_scanL env s prog (L1 ++ ['-', '-'] :: L2) usage 0
      _ _ _ hA
    simp only at hP2
    rw [after_loop_toScan env 0 _ tail2 s1 hne2, if_neg (hm _)] at hP2
    refine ⟨_, hP2, hq1, rfl, rfl, ?_⟩
    rw [result_remaining _ _ _ rfl rfl, result_remaining _ out _ rfl rfl, if_pos hs,
      List.map_append]
  · rw [if_neg hs] at hA
    obtain ⟨tail2, hne2, _, hP2⟩ := flag_parse_scanL env s prog (L1 ++ ['-', '-'] :: L2) usage 0
      _ _ _ hA
    simp only at hP2
    rw [after_loop_toScan env 0 _ tail2 s1 hne2, if_neg (hm _)] at hP2
    refine ⟨_, hP2, hq1, rfl, rfl, ?_⟩
    rw [result_remaining _ _ _ rfl rfl, result_remaining _ out _ rfl rfl, if_neg hs,
      List.map_append]

theorem stop_appended_witness :
    ∃ res2, flag_parse demo_env demo_sys
        (((['p'] :: ([['-', 'v'], ['a']] ++ ['-', '-'] :: [['-', 'h'], ['-', '-']])).length
          : Nat) : Int)
        (mkArgv (['p'] :: ([['-', 'v'], ['a']] ++ ['-', '-'] :: [['-', 'h'], ['-', '-']])))
        ['u'] 0 = .ok res2 ∧
      res2.sys.calls = [] ∧ res2.ret = some 0 ∧ res2.sys.mem.b 0 = true ∧
      res2.remaining = [some ['a'], some ['-', 'h'], some ['-', '-']] :=
  (stop_appended demo_env demo_sys ['p'] [['-', 'v'], ['a']] [['-', 'h'], ['-', '-']] ['u']
    (match flag_parse demo_env demo_sys 3 (mkArgv (['p'] :: [['-', 'v'], ['a']])) ['u'] 0 with
      | .ok r => r
      | .error _ => { ret := none, pargc := 0, argv := [], sys := demo_sys })
    (by decide) rfl rfl).elim
    fun res2 h => ⟨res2, h.1, h.2.1, h.2.2.1, by rw [h.2.2.2.1]; rfl, by rw [h.2.2.2.2]; rfl⟩

/-- C3 fails as stated, in two ways.  With an int option of short name
`-` (default 1), the token `--` followed by `5` has the shape `-C` followed by a value,
the parse succeeds, and the destination still holds 1: `--` ends the flags.  With two
string options `-a` and `-b` registered on one destination, the last token that names
`-a` in `-a x -b y` is `-a` with the value `x`, and the destination holds `y`. -/
theorem last_token_counterexample :
    (∃ f, find_short odd_sys.g_flags '-' = some f ∧ f.type = FLAG_INT ∧ f.pval = 1 ∧
      ∃ res, flag_parse demo_env odd_sys (((['p'] :: [['-', '-'], ['5']]).length : Nat) : Int)
          (mkArgv (['p'] :: [['-', '-'], ['5']])) ['u'] 0 = .ok res ∧
        res.ret = some 0 ∧ res.sys.calls = [] ∧ res.sys.mem.i 1 = 1 ∧
        res.remaining = [some ['5']]) ∧
    (∃ f, find_short alias_sys.g_flags 'a' = some f ∧ f.type = FLAG_STRING ∧ f.pval = 0 ∧
      ∃ res, flag_parse demo_env alias_sys
          (((['p'] :: [['-', 'a'], ['x'], ['-', 'b'], ['y']]).length : Nat) : Int)
          (mkArgv (['p'] :: [['-', 'a'], ['x'], ['-', 'b'], ['y']])) ['u'] 0 = .ok res ∧
        res.ret = some 0 ∧ res.sys.calls = [] ∧
        res.sys.flagged.map (fun e => (e.arg, e.str_value))
          = [(['-', 'a'], some ['x']), (['-', 'b'], some ['y'])] ∧
        res.sys.mem.s 0 = some ['y']) :=
  ⟨⟨_, rfl, rfl, rfl, _, rfl, rfl, rfl, rfl, rfl⟩,
    ⟨_, rfl, rfl, rfl, _, rfl, rfl, rfl, rfl, rfl⟩⟩

/-! ## Safety of the slot accesses -/

/-- C11: on the `argv` of a caller with `argc ≥ 1` (the tokens `prog :: args` and the
`NULL` sentinel, `argc + 1` slots) `flag_parse` never makes an undefined step: every
slot it reads or writes is inside `argv` and every `memmove` length is non-negative
(`remove_argument` is defined exactly under these bounds), so it returns a result; the
result keeps the `argc + 1` slots and has `0 ≤ *pargc ≤ argc - 1`; when the exit handler
was not called, `argv[*pargc]` is `NULL`.  With `argc = 0` the first removal has the
length `-1` and the call is undefined. -/
theorem slots_in_bounds (env : Env) (s : Sys) (prog : Token) (args : List Token)
    (usage : Token) (minargs : Int) :
    (∀ (i : Nat) (pargc : Int) (argv : List (Option Token)),
      (∃ x, remove_argument i pargc argv = .ok x)
        ↔ (i < argv.length ∧ 0 ≤ pargc - ((i : Int) + 1) ∧ pargc ≤ (argv.length : Int))) ∧
    (∃ res, flag_parse env s (((prog :: args).length : Nat) : Int) (mkArgv (prog :: args))
        usage minargs = .ok res ∧
      res.argv.length = (prog :: args).length + 1 ∧
      0 ≤ res.pargc ∧ res.pargc ≤ (((prog :: args).length : Nat) : Int) - 1 ∧
      (res.sys.calls = s.calls →
        res.ret = some 0 ∧ res.pargc.toNat < res.argv.length ∧
          res.argv.getD res.pargc.toNat (some []) = none)) ∧
    flag_parse env s 0 (mkArgv []) usage minargs = .error Fault.ub := by
  refine ⟨?_, ?_, rfl⟩
  · intro i pargc argv
    unfold remove_argument
    by_cases h : i < argv.length ∧ 0 ≤ pargc - ((i : Int) + 1) ∧ pargc ≤ (argv.length : Int)
    · simp only [h, and_self, if_true, iff_true]
      exact ⟨_, rfl⟩
    · simp only [h, if_false, iff_false]
      rintro ⟨x, hx⟩
      cases hx
  · obtain ⟨⟨e, out, s1⟩, hL⟩ := scanL_ok env args.length [] args (start s prog usage)
      (Nat.le_refl _)
    obtain ⟨tail, hne, hlen, hP⟩ := flag_parse_scanL env s prog args usage minargs e out s1 hL
    have hle := scanL_out_le env args.length [] args (start s prog usage) e out s1 hL
    simp only [List.length_nil, Nat.zero_add] at hle
    have htl : 0 < tail.length := List.length_pos.mpr hne
    have hres : ∃ res, flag_parse env s (((prog :: args).length : Nat) : Int)
        (mkArgv (prog :: args)) usage minargs = .ok res ∧
        res.argv.length = (prog :: args).length + 1 ∧
        res.pargc = ((out.length : Nat) : Int) := by
      cases e with
      | ret r =>
        refine ⟨_, hP, ?_, rfl⟩
        simp only [slots_length, List.length_cons]
        omega
      | done =>
        simp only at hP
        rw [after_loop_toScan env minargs out tail s1 hne] at hP
        by_cases hm : ((out.length : Nat) : Int) < minargs
        · rw [if_pos hm] at hP
          refine ⟨_, hP, ?_, rfl⟩
          simp only [slots_length, List.length_cons]
          omega
        · rw [if_neg hm] at hP
          refine ⟨_, hP, ?_, rfl⟩
          cases tail with
          | nil => exact absurd rfl hne
          | cons t tl =>
            simp only [slots_length, List.length_cons, List.tail_cons] at hlen ⊢
            omega
    obtain ⟨res, hres, hlen2, hpc⟩ := hres
    refine ⟨res, hres, hlen2, ?_, ?_, ?_⟩
    · rw [hpc]
      omega
    · rw [hpc]
      simp only [List.length_cons]
      push_cast
      omega
    · intro hquiet
      obtain ⟨out2, s2, tail2, _, _, hret, hpc2, hargv, _⟩ :=
        flag_parse_quiet env s prog args usage minargs res hres hquiet
      refine ⟨hret, ?_, ?_⟩
      · rw [hpc2, hargv, slots_length]
        simp
      · rw [hpc2, hargv, Int.toNat_ofNat]
        have h : (List.map some out2 ++ none :: tail2)[out2.length]?
            = some (none : Option Token) := by
          rw [List.getElem?_append_right (by simp)]
          simp
        simp [slots, List.getD_eq_getElem?_getD, h]

theorem slots_in_bounds_witness :
    ∃ res, flag_parse demo_env demo_sys
        (((['p'] :: [['-', 'v'], ['a'], ['-', 'c'], ['7'], ['b']]).length : Nat) : Int)
        (mkArgv (['p'] :: [['-', 'v'], ['a'], ['-', 'c'], ['7'], ['b']])) ['u'] 2 = .ok res ∧
      res.argv.length = 7 ∧ res.pargc = 2 ∧ res.argv.getD 2 (some []) = none :=
  (slots_in_bounds demo_env demo_sys ['p'] [['-', 'v'], ['a'], ['-', 'c'], ['7'], ['b']]
      ['u'] 2).2.1.elim
    fun res h => ⟨res, h.1, h.2.1,
      (Except.ok.inj (h.1.symm.trans
        (rfl : flag_parse demo_env demo_sys
          (((['p'] :: [['-', 'v'], ['a'], ['-', 'c'], ['7'], ['b']]).length : Nat) : Int)
          (mkArgv (['p'] :: [['-', 'v'], ['a'], ['-', 'c'], ['7'], ['b']])) ['u'] 2
          = .ok _))) ▸ ⟨rfl, rfl⟩⟩

/-! ## Errors and the value returned by the exit handler -/

/-- C12 fails for the missing value: `process_flag` hands the value of the exit handler
back as its error code and the loop tests `if (err) return err;`, so with a handler that
returns 0 the loop goes on.  On `--count --verbose --bogus` with the sample registry the
exit handler is called for `--count` (status 2, missing value), then `--verbose` is
scanned and writes its destination, then the exit handler is called a second time for
`--bogus`. -/
theorem missing_value_goes_on :
    ∃ res, flag_parse zero_env demo_sys
        (((['p'] :: [tok_count, tok_verbose, tok_bogus]).length : Nat) : Int)
        (mkArgv (['p'] :: [tok_count, tok_verbose, tok_bogus])) ['u'] 0 = .ok res ∧
      res.ret = some 0 ∧
      res.sys.calls.map Prod.fst = [2, 2] ∧
      res.sys.calls.map (fun c => c.2.take 19)
        = ["expected value for ".toList, "unknown flag --bogu".toList] ∧
      res.sys.flagged.map Event.arg = [tok_count, tok_verbose] ∧
      demo_sys.mem.b 0 = false ∧ res.sys.mem.b 0 = true :=
  ⟨_, rfl, rfl, rfl, by decide, rfl, rfl, rfl⟩

/-! ## Lemmas: the calls of `process_flag` of any parse -/

/-- The lookup behind a kind: a negation and a long form come from `find_long`, a short
form from `find_short` on a character that is not the terminator. -/
theorem kind_of_lookup (flags : List flag) (tok : Token) (f : flag) :
    (kind_of flags tok = .negated f →
      find_long flags (tok.drop 5) (tok.length - 5) = some f) ∧
    (∀ v, kind_of flags tok = .long f v →
      ∃ len, find_long flags (tok.drop 2) len = some f) ∧
    (kind_of flags tok = .short f →
      cAt tok 1 ≠ NUL ∧ find_short flags (cAt tok 1) = some f) := by
  refine ⟨?_, ?_, ?_⟩
  · intro h
    unfold kind_of at h
    split_ifs at h with h1 h2 h3 h4 h5
    · simp only at h
      split at h
      · cases h
      · rename_i g hg
        cases h
        exact hg
    · simp only at h
      split at h <;> cases h
    · split at h <;> cases h
  · intro v h
    unfold kind_of at h
    split_ifs at h with h1 h2 h3 h4 h5
    · simp only at h
      split at h <;> cases h
    · simp only at h
      split at h
      · cases h
      · rename_i g hg
        cases h
        exact ⟨_, hg⟩
    · split at h <;> cases h
  · intro h
    unfold kind_of at h
    split_ifs at h with h1 h2 h3 h4 h5
    · simp only at h
      split at h <;> cases h
    · simp only at h
      split at h <;> cases h
    · split at h
      · cases h
      · rename_i g hg
        cases h
        exact ⟨h5.1, hg⟩

/-- Every call of `process_flag` is logged, and the memory it leaves is the memory it
found with the `switch` applied: without a value for an option that is not a bool the
`switch` is not reached and writes nothing. -/
theorem process_flag_log (env : Env) (s : Sys) (f : flag) (arg : Token)
    (v : Option Token) (b : Bool) :
    (process_flag env s f arg v b).2.flagged = s.flagged ++ [⟨f, arg, v, b⟩] ∧
      (process_flag env s f arg v b).2.mem = store env s.mem f v b := by
  by_cases h : v = none ∧ f.type ≠ FLAG_BOOL
  · obtain ⟨rfl, hb⟩ := h
    rw [process_flag_missing env s f arg b hb]
    refine ⟨rfl, ?_⟩
    show s.mem = store env s.mem f none b
    unfold store
    cases hf : f.type
    · exact absurd hf hb
    all_goals rfl
  · rw [process_flag_write env s f arg v b h]
    exact ⟨rfl, rfl⟩

/-- The calls of `process_flag` of one pass through the `if` chain: at most one, for
the token of the pass, which names its descriptor. -/
theorem classifyL_log (env : Env) (arg : Token) (rest : List Token) (s : Sys) :
    ∃ evs, (classifyL env arg rest s).2.2.flagged = s.flagged ++ evs ∧
      (classifyL env arg rest s).2.2.mem = apply_events env s.mem evs ∧
      ∀ ev ∈ evs, Names s.g_flags ev ∧ ev.arg = arg := by
  unfold classifyL
  cases hk : kind_of s.g_flags arg with
  | help => exact ⟨[], by simp [flag_error], rfl, by simp⟩
  | stop => exact ⟨[], by simp, rfl, by simp⟩
  | unknown => exact ⟨[], by simp [unknown_flag, flag_error], rfl, by simp⟩
  | negated f =>
    refine ⟨[⟨f, arg, none, false⟩], (process_flag_log env s f arg none false).1,
      (process_flag_log env s f arg none false).2, ?_⟩
    intro ev hev
    rw [List.mem_singleton] at hev
    subst hev
    exact ⟨Or.inl ⟨hk, rfl, rfl⟩, rfl⟩
  | long f value =>
    refine ⟨[⟨f, arg, value, true⟩], (process_flag_log env s f arg value true).1,
      (process_flag_log env s f arg value true).2, ?_⟩
    intro ev hev
    rw [List.mem_singleton] at hev
    subst hev
    exact ⟨Or.inr (Or.inl ⟨hk, rfl⟩), rfl⟩
  | short f =>
    by_cases hb : f.type = FLAG_BOOL
    · simp only [hb, ne_eq, not_true_eq_false, if_false]
      refine ⟨[⟨f, arg, none, true⟩], (process_flag_log env s f arg none true).1,
        (process_flag_log env s f arg none true).2, ?_⟩
      intro ev hev
      rw [List.mem_singleton] at hev
      subst hev
      exact ⟨Or.inr (Or.inr ⟨hk, rfl, fun _ => rfl⟩), rfl⟩
    · simp only [hb, ne_eq, not_false_eq_true, if_true]
      cases rest with
      | nil =>
        refine ⟨[⟨f, arg, none, true⟩], (process_flag_log env s f arg none true).1,
          (process_flag_log env s f arg none true).2, ?_⟩
        intro ev hev
        rw [List.mem_singleton] at hev
        subst hev
        exact ⟨Or.inr (Or.inr ⟨hk, rfl, fun _ => rfl⟩), rfl⟩
      | cons w rest1 =>
        refine ⟨[⟨f, arg, some w, true⟩], (process_flag_log env s f arg (some w) true).1,
          (process_flag_log env s f arg (some w) true).2, ?_⟩
        intro ev hev
        rw [List.mem_singleton] at hev
        subst hev
        exact ⟨Or.inr (Or.inr ⟨hk, rfl, fun h => absurd h hb⟩), rfl⟩

theorem bodyL_log (env : Env) (pre : List Token) (tok : Token) (rest : List Token)
    (s : Sys) :
    ∃ evs, (bodyL env pre tok rest s).2.2.2.flagged = s.flagged ++ evs ∧
      (bodyL env pre tok rest s).2.2.2.mem = apply_events env s.mem evs ∧
      ∀ ev ∈ evs, Names s.g_flags ev ∧ ev.arg = tok := by
  have h := classifyL_log env tok rest s
  revert h
  unfold bodyL
  by_cases hd : cAt tok 0 ≠ '-'
  · rw [if_pos hd]
    intro _
    exact ⟨[], by simp, rfl, by simp⟩
  · rw [if_neg hd]
    rcases classifyL env tok rest s with ⟨r, rest1, s1⟩
    rcases r with e | (_ | err)
    · exact id
    · exact id
    · intro h
      by_cases he : err = 0
      · simpa only [he, ne_eq, not_true_eq_false, if_false] using h
      · simpa only [he, ne_eq, not_false_eq_true, if_true] using h

/-- The tokens left to scan after an iteration are among those left before it. -/
theorem bodyL_rest_mem (env : Env) (pre : List Token) (tok : Token) (rest : List Token)
    (s : Sys) : ∀ t ∈ (bodyL env pre tok rest s).2.2.1, t ∈ rest := by
  have hc : ∀ t ∈ (classifyL env tok rest s).2.1, t ∈ rest := by
    unfold classifyL
    cases kind_of s.g_flags tok with
    | help => exact fun t h => h
    | stop => exact fun t h => h
    | unknown => exact fun t h => h
    | negated f => exact fun t h => h
    | long f value => exact fun t h => h
    | short f =>
      by_cases hb : f.type = FLAG_BOOL
      · simp only [hb, ne_eq, not_true_eq_false, if_false]
        exact fun t h => h
      · simp only [hb, ne_eq, not_false_eq_true, if_true]
        cases rest with
        | nil => exact fun t h => h
        | cons w rest1 => exact fun t h => List.mem_cons_of_mem _ h
  revert hc
  unfold bodyL
  by_cases hd : cAt tok 0 ≠ '-'
  · rw [if_pos hd]
    intro _ t h
    exact h
  · rw [if_neg hd]
    rcases classifyL env tok rest s with ⟨r, rest1, s1⟩
    rcases r with e | (_ | err)
    · exact id
    · exact id
    · intro h
      by_cases he : err = 0
      · simpa only [he, ne_eq, not_true_eq_false, if_false] using h
      · simpa only [he, ne_eq, not_false_eq_true, if_true] using h

/-- The calls of `process_flag` of a loop, whatever the exit handler does: each is made
for a token that was left to scan and that names its descriptor, and the memory the
loop leaves is the memory it found with the writes of these calls made in order. -/
theorem scanL_log (env : Env) (fuel : Nat) :
    ∀ (pre rest : List Token) (s : Sys) (e : LoopEnd) (out : List Token) (s1 : Sys),
      scanL env fuel pre rest s = .ok (e, out, s1) →
      ∃ evs, s1.flagged = s.flagged ++ evs ∧ s1.mem = apply_events env s.mem evs ∧
        ∀ ev ∈ evs, Names s.g_flags ev ∧ ev.arg ∈ rest := by
  induction fuel with
  | zero =>
    intro pre rest s e out s1 h
    cases rest with
    | nil =>
      simp [scanL] at h
      obtain ⟨_, _, rfl⟩ := h
      exact ⟨[], by simp, rfl, by simp⟩
    | cons t r => simp [scanL] at h
  | succ n ih =>
    intro pre rest s e out s1 h
    cases rest with
    | nil =>
      simp [scanL] at h
      obtain ⟨_, _, rfl⟩ := h
      exact ⟨[], by simp, rfl, by simp⟩
    | cons tok rest =>
      have hfr := bodyL_frame env pre tok rest s
      have hlog := bodyL_log env pre tok rest s
      have hmem := bodyL_rest_mem env pre tok rest s
      simp only [scanL] at h
      revert h
      revert hmem
      revert hlog
      revert hfr
      rcases bodyL env pre tok rest s with ⟨r, pre1, rest1, s2⟩
      intro hfr hlog hmem h
      obtain ⟨evs, h1, h2, h3⟩ := hlog
      rcases r with e1 | u
      · simp only [Except.ok.injEq, Prod.mk.injEq] at h
        obtain ⟨_, _, rfl⟩ := h
        refine ⟨evs, h1, h2, ?_⟩
        intro ev hev
        refine ⟨(h3 ev hev).1, ?_⟩
        rw [(h3 ev hev).2]
        exact List.mem_cons_self _ _
      · obtain ⟨evs2, k1, k2, k3⟩ := ih _ _ _ _ _ _ h
        refine ⟨evs ++ evs2, ?_, ?_, ?_⟩
        · rw [k1]
          show s2.flagged ++ evs2 = _
          rw [h1, List.append_assoc]
        · rw [k2]
          show apply_events env s2.mem evs2 = _
          rw [h2, apply_events_append]
        · intro ev hev
          rcases List.mem_append.mp hev with hm | hm
          · refine ⟨(h3 ev hm).1, ?_⟩
            rw [(h3 ev hm).2]
            exact List.mem_cons_self _ _
          · have hg : s2.g_flags = s.g_flags := hfr.1
            have := k3 ev hm
            rw [hg] at this
            exact ⟨this.1, List.mem_cons_of_mem _ (hmem _ this.2)⟩

/-- The calls of `process_flag` of a call of `flag_parse`, whatever the exit handler
does. -/
theorem flag_parse_log (env : Env) (s : Sys) (prog : Token) (args : List Token)
    (usage : Token) (minargs : Int) :
    ∃ res evs, flag_parse env s (((prog :: args).length : Nat) : Int)
        (mkArgv (prog :: args)) usage minargs = .ok res ∧
      res.sys.flagged = s.flagged ++ evs ∧ res.sys.mem = apply_events env s.mem evs ∧
      ∀ ev ∈ evs, Names s.g_flags ev ∧ ev.arg ∈ args := by
  obtain ⟨e, out, s1, tail, hne, hL, hS, hP⟩ := flag_parse_cases env s prog args usage minargs
  obtain ⟨evs, h1, h2, h3⟩ := scanL_log env _ _ _ _ _ _ _ hL
  have h1b : s1.flagged = s.flagged ++ evs := h1
  have h2b : s1.mem = apply_events env s.mem evs := h2
  have h3b : ∀ ev ∈ evs, Names s.g_flags ev ∧ ev.arg ∈ args := h3
  cases e with
  | ret r => exact ⟨_, evs, hP, h1b, h2b, h3b⟩
  | done =>
    simp only at hP
    rw [after_loop_toScan env minargs out tail s1 hne] at hP
    by_cases hm : ((out.length : Nat) : Int) < minargs
    · rw [if_pos hm] at hP
      exact ⟨_, evs, hP, h1b, h2b, h3b⟩
    · rw [if_neg hm] at hP
      exact ⟨_, evs, hP, h1b, h2b, h3b⟩

/-! ## The destinations a parse writes -/

theorem zeroCalls_refl (env : Env) (s : Sys) : ZeroCalls env s s :=
  ⟨[], by simp, by simp⟩

theorem zeroCalls_trans {env : Env} {a b c : Sys} (h1 : ZeroCalls env a b)
    (h2 : ZeroCalls env b c) : ZeroCalls env a c := by
  obtain ⟨x, hx, hx2⟩ := h1
  obtain ⟨y, hy, hy2⟩ := h2
  refine ⟨x ++ y, by rw [hy, hx, List.append_assoc], ?_⟩
  intro k hk
  rcases List.mem_append.mp hk with h | h
  · exact hx2 k h
  · exact hy2 k h

/-- A call of `process_flag` that returns 0 either made no call of the exit handler or
made one that returned 0. -/
theorem process_flag_zero (env : Env) (s : Sys) (f : flag) (arg : Token)
    (v : Option Token) (b : Bool) (h : (process_flag env s f arg v b).1 = some 0) :
    ZeroCalls env s (process_flag env s f arg v b).2 := by
  by_cases hm : v = none ∧ f.type ≠ FLAG_BOOL
  · obtain ⟨rfl, hb⟩ := hm
    rw [process_flag_missing env s f arg b hb] at h ⊢
    refine ⟨[_], rfl, ?_⟩
    intro c hc
    rw [List.mem_singleton] at hc
    subst hc
    exact h
  · rw [process_flag_write env s f arg v b hm]
    exact ⟨[], by simp, by simp⟩

theorem classifyL_zero (env : Env) (arg : Token) (rest : List Token) (s : Sys)
    (h : (classifyL env arg rest s).1 = .inl .done ∨
      (classifyL env arg rest s).1 = .inr (some 0)) :
    ZeroCalls env s (classifyL env arg rest s).2.2 := by
  revert h
  unfold classifyL
  cases kind_of s.g_flags arg with
  | help =>
    intro h
    rcases h with h | h <;> simp at h
  | stop =>
    intro _
    exact zeroCalls_refl env s
  | unknown =>
    intro h
    rcases h with h | h <;> simp at h
  | negated f =>
    intro h
    rcases h with h | h
    · simp at h
    · exact process_flag_zero env s f arg none false (by simpa using h)
  | long f value =>
    intro h
    rcases h with h | h
    · simp at h
    · exact process_flag_zero env s f arg value true (by simpa using h)
  | short f =>
    by_cases hb : f.type = FLAG_BOOL
    · simp only [hb, ne_eq, not_true_eq_false, if_false]
      intro h
      rcases h with h | h
      · simp at h
      · exact process_flag_zero env s f arg none true (by simpa using h)
    · cases rest with
      | nil =>
        simp only [hb, ne_eq, not_false_eq_true, if_true]
        intro h
        rcases h with h | h
        · simp at h
        · exact process_flag_zero env s f arg none true (by simpa using h)
      | cons w rest1 =>
        simp only [hb, ne_eq, not_false_eq_true, if_true]
        intro h
        rcases h with h | h
        · simp at h
        · exact process_flag_zero env s f arg (some w) true (by simpa using h)

theorem bodyL_zero (env : Env) (pre : List Token) (tok : Token) (rest : List Token)
    (s : Sys)
    (h : (bodyL env pre tok rest s).1 = .inl .done ∨ (bodyL env pre tok rest s).1 = .inr ()) :
    ZeroCalls env s (bodyL env pre tok rest s).2.2.2 := by
  have hc := classifyL_zero env tok rest s
  revert h
  revert hc
  unfold bodyL
  by_cases hd : cAt tok 0 ≠ '-'
  · rw [if_pos hd]
    intro _ _
    exact zeroCalls_refl env s
  · rw [if_neg hd]
    rcases classifyL env tok rest s with ⟨r, rest1, s1⟩
    rcases r with e | (_ | err)
    · intro hc h
      rcases h with h | h
      · simp only [Sum.inl.injEq] at h
        subst h
        exact hc (Or.inl rfl)
      · simp at h
    · intro hc h
      rcases h with h | h <;> simp at h
    · intro hc h
      by_cases he : err = 0
      · subst he
        simp only [ne_eq, not_true_eq_false, if_false]
        exact hc (Or.inr rfl)
      · simp only [he, ne_eq, not_false_eq_true, if_true] at h
        rcases h with h | h <;> simp at h

/-- A loop that is left to the code after it: every call of the exit handler it made
returned 0. -/
theorem scanL_zero (env : Env) (fuel : Nat) :
    ∀ (pre rest : List Token) (s : Sys) (out : List Token) (s1 : Sys),
      scanL env fuel pre rest s = .ok (.done, out, s1) → ZeroCalls env s s1 := by
  induction fuel with
  | zero =>
    intro pre rest s out s1 h
    cases rest with
    | nil =>
      simp [scanL] at h
      rw [← h.2]
      exact zeroCalls_refl env s
    | cons t r => simp [scanL] at h
  | succ n ih =>
    intro pre rest s out s1 h
    cases rest with
    | nil =>
      simp [scanL] at h
      rw [← h.2]
      exact zeroCalls_refl env s
    | cons tok rest =>
      have hb := bodyL_zero env pre tok rest s
      simp only [scanL] at h
      revert h
      revert hb
      rcases bodyL env pre tok rest s with ⟨r, pre1, rest1, s2⟩
      intro hb h
      rcases r with e1 | u
      · simp only [Except.ok.injEq, Prod.mk.injEq] at h
        obtain ⟨rfl, _, rfl⟩ := h
        exact hb (Or.inl rfl)
      · exact zeroCalls_trans (hb (Or.inr rfl)) (ih pre1 rest1 s2 out s1 h)

/-! ## The registry after a parse -/

/-- C14: after a call of `flag_parse` during which the exit handler was not called, the
registry is empty (`g_flags` released, `g_num` and `g_cap` 0) and the usage text printed
from then on is the header line alone; after a call during which some call of the exit
handler returned a value other than 0 (or did not return), `g_flags` holds the same
descriptors in the same order and `g_cap` is unchanged. -/
theorem registry_cleared (env : Env) (s : Sys) (prog : Token) (args : List Token)
    (usage : Token) (minargs : Int) (res : Result)
    (h : flag_parse env s (((prog :: args).length : Nat) : Int) (mkArgv (prog :: args))
      usage minargs = .ok res) :
    (res.sys.calls = s.calls →
      res.sys.g_flags = [] ∧ res.sys.g_num = 0 ∧ res.sys.g_cap = 0 ∧
        ∀ o, print_usage env res.sys o
          = o ++ ("usage: ".toList ++ prog ++ [' '] ++ usage ++ ['\n'])) ∧
    (∀ extra, res.sys.calls = s.calls ++ extra →
      (∃ c ∈ extra, env.flag_exit c.1 c.2 ≠ some 0) →
      res.sys.g_flags = s.g_flags ∧ res.sys.g_num = s.g_num ∧ res.sys.g_cap = s.g_cap) := by
  constructor
  · intro hquiet
    obtain ⟨out, s1, tail, hL, _, _, _, _, hsys⟩ :=
      flag_parse_quiet env s prog args usage minargs res h hquiet
    have hfr := scanL_frame env _ _ _ _ _ _ _ hL
    have hu : s1.g_usage = some usage := hfr.2.1
    have ha : s1.g_argv0 = some prog := hfr.2.2.1
    rw [hsys]
    refine ⟨rfl, rfl, rfl, ?_⟩
    intro o
    simp [print_usage, Sys.g_num, str_addf, hu, ha, fmt_s]
  · intro extra hx hne
    obtain ⟨e, out, s1, tail, hne2, hL, hS, hP⟩ :=
      flag_parse_cases env s prog args usage minargs
    have hfr := scanL_frame env _ _ _ _ _ _ _ hL
    have hg : s1.g_flags = s.g_flags := hfr.1
    have hc : s1.g_cap = s.g_cap := hfr.2.2.2.1
    rw [hP] at h
    cases e with
    | ret r =>
      simp only [Except.ok.injEq] at h
      subst h
      exact ⟨hg, by simp only [Sys.g_num, hg], hc⟩
    | done =>
      simp only at h
      rw [after_loop_toScan env minargs out tail s1 hne2] at h
      by_cases hm : ((out.length : Nat) : Int) < minargs
      · rw [if_pos hm] at h
        simp only [Except.ok.injEq] at h
        subst h
        exact ⟨hg, by simp only [Sys.g_num, flag_error, hg], hc⟩
      · exfalso
        rw [if_neg hm] at h
        simp only [Except.ok.injEq] at h
        subst h
        obtain ⟨extra0, h0, hz⟩ := scanL_zero env _ _ _ _ _ _ hL
        have h1 : s.calls ++ extra0 = s.calls ++ extra := by
          rw [← hx]
          exact h0.symm
        have h2 := List.append_cancel_left h1
        obtain ⟨c, hc1, hc2⟩ := hne
        rw [← h2] at hc1
        exact hc2 (hz c hc1)

theorem registry_cleared_witness :
    (∃ res, flag_parse demo_env demo_sys (((['p'] :: [tok_bogus]).length : Nat) : Int)
        (mkArgv (['p'] :: [tok_bogus])) ['u'] 0 = .ok res ∧ res.ret = some 2 ∧
      res.sys.g_flags = demo_sys.g_flags ∧ res.sys.g_cap = demo_sys.g_cap) ∧
    (∃ res, flag_parse demo_env demo_sys (((['p'] :: [tok_verbose]).length : Nat) : Int)
        (mkArgv (['p'] :: [tok_verbose])) ['u'] 0 = .ok res ∧ res.ret = some 0 ∧
      res.sys.g_flags = [] ∧ res.sys.g_cap = 0 ∧
      print_usage demo_env res.sys [] = "usage: p u\n".toList) := by
  constructor
  · have h := (registry_cleared demo_env demo_sys ['p'] [tok_bogus] ['u'] 0 _ rfl).2
      _ (List.nil_append _).symm ⟨_, List.mem_singleton_self _, by decide⟩
    exact ⟨_, rfl, rfl, h.1, h.2.2⟩
  · have h := (registry_cleared demo_env demo_sys ['p'] [tok_verbose] ['u'] 0 _ rfl).1 rfl
    exact ⟨_, rfl, rfl, h.1, h.2.2.1, h.2.2.2 []⟩

/-! ## The usage text -/

theorem register_all_eq (rs : List Reg) :
    ∀ s : Sys, (register_all s rs).g_flags = s.g_flags ++ rs.map Reg.descriptor ∧
      (register_all s rs).mem = s.mem ∧ (register_all s rs).calls = s.calls ∧
      (register_all s rs).flagged = s.flagged := by
  induction rs with
  | nil => intro s; simp [register_all]
  | cons r rs ih =>
    intro s
    have h1 : register_all s (r :: rs) = register_all (register s r) rs := rfl
    have h2 : (register s r).g_flags = s.g_flags ++ [r.descriptor] ∧
        (register s r).mem = s.mem ∧ (register s r).calls = s.calls ∧
        (register s r).flagged = s.flagged := by
      unfold register Reg.descriptor
      cases hr : r.type <;>
        simp [flag_bool, flag_int, flag_double, flag_string, append]
    rw [h1]
    obtain ⟨k1, k2, k3, k4⟩ := ih (register s r)
    refine ⟨?_, k2.trans h2.2.1, k3.trans h2.2.2.1, k4.trans h2.2.2.2⟩
    rw [k1, h2.1]
    simp

/-- The line that `print_usage` prints for the descriptor of a registration is the
line of the reference layout. -/
theorem flag_line_layout (env : Env) (m : Mem) (r : Reg) :
    flag_line env m [] r.descriptor = layout_line env m r := by
  have hd : flag_default env m r.descriptor = layout_default env m r := by
    unfold flag_default layout_default Reg.descriptor
    cases r.type <;> rfl
  have hf : flag_forms r.descriptor = [' ', ' '] ++ layout_form r ++ [' ', ' '] := by
    unfold flag_forms layout_form Reg.descriptor
    cases ht : r.type <;> cases hl : r.longopt <;> by_cases hs : r.shopt = NUL <;>
      simp [hs, fmt_s]
  unfold flag_line layout_line
  simp only [str_addf, str_add, str_addch, print_spaces_eq, hd, hf, List.nil_append]
  have hp : ((32 : Int) - ((([' ', ' '] ++ layout_form r ++ [' ', ' ']).length : Nat) : Int)).toNat
      = 32 - ((layout_form r).length + 4) := by
    simp only [List.length_append, List.length_cons, List.length_nil]
    omega
  rw [hp]
  rfl

theorem foldl_flag_line_layout (env : Env) (m : Mem) (rs : List Reg) :
    ∀ o : Token, (rs.map Reg.descriptor).foldl (flag_line env m) o
      = o ++ (rs.map (layout_line env m)).flatten := by
  induction rs with
  | nil => intro o; simp
  | cons r rs ih =>
    intro o
    simp only [List.map_cons, List.foldl_cons, List.flatten_cons]
    rw [ih, flag_line_append, flag_line_layout, List.append_assoc]

theorem c_str_self (t : Token) (h : NUL ∉ t) : c_str t = t := by
  have := c_str_append t [] h
  simpa [c_str] using this

/-- C15: after any sequence of registrations, with the program name and the usage line
of a parse, `print_usage` appends exactly the reference layout: the header
`usage: <prog> <usage line>` and a line break; nothing more without registrations;
otherwise a blank line, `options:`, a line break and one line for each registration, in
the order of the calls, each made of two spaces, the option forms of its kind and names,
two spaces, padding, help text and annotation, and one line break.  The registry holds
the descriptors in the order of the calls, and a layout without NUL byte is the usage
text that the exit handler receives. -/
theorem usage_text_layout (env : Env) (m : Mem) (rs : List Reg) (prog usageLine : Token) :
    (register_all (sys_empty m) rs).g_flags = rs.map Reg.descriptor ∧
    (∀ o, print_usage env (start (register_all (sys_empty m) rs) prog usageLine) o
      = o ++ usage_layout env m prog usageLine rs) ∧
    usage_layout env m prog usageLine []
      = "usage: ".toList ++ prog ++ [' '] ++ usageLine ++ ['\n'] ∧
    (NUL ∉ usage_layout env m prog usageLine rs →
      usage_text env (start (register_all (sys_empty m) rs) prog usageLine)
        = usage_layout env m prog usageLine rs) := by
  obtain ⟨hg, hm, _, _⟩ := register_all_eq rs (sys_empty m)
  have hg2 : (register_all (sys_empty m) rs).g_flags = rs.map Reg.descriptor := by
    rw [hg]
    rfl
  have hm2 : (register_all (sys_empty m) rs).mem = m := hm
  have hP : ∀ o, print_usage env (start (register_all (sys_empty m) rs) prog usageLine) o
      = o ++ usage_layout env m prog usageLine rs := by
    intro o
    unfold print_usage usage_layout
    simp only [start, Sys.g_num, hg2, hm2, str_addf, str_add, fmt_s, List.length_map]
    by_cases hr : rs = []
    · subst hr
      simp
    · have hl : rs.length ≠ 0 := fun h => hr (List.length_eq_zero.mp h)
      rw [if_pos hl, if_neg hr, foldl_flag_line_layout]
      simp [List.append_assoc]
  refine ⟨hg2, hP, by simp [usage_layout], ?_⟩
  intro hn
  unfold usage_text
  rw [hP []]
  exact c_str_self _ hn

theorem usage_text_layout_witness :
    register_all (sys_empty demo_mem) demo_regs = demo_sys ∧
    print_usage demo_env (start (register_all (sys_empty demo_mem) demo_regs) ['p'] ['u']) []
      = "usage: p u\n\noptions:\n".toList
        ++ "  -v, --verbose, --no-verbose   loud\n".toList
        ++ "  -c N, --count=N               how [default=1]\n".toList
        ++ "  --name=S                      who\n".toList :=
  ⟨rfl, ((usage_text_layout demo_env demo_mem demo_regs ['p'] ['u']).2.1 []).trans rfl⟩

/-- C16: the line that `print_usage` prints for a descriptor is its prefix (two spaces,
the option forms, two spaces; `p` bytes), then exactly `max 0 (32 - p)` spaces, then the
help text, the annotation and the line break; so the help text starts at column
`max 32 p` of the line.  When `p ≥ 32` the help text follows the prefix directly, and
`print_spaces` adds nothing for a count that is 0 or negative. -/
theorem padding_width (env : Env) (m : Mem) (o : Token) (f : flag) :
    (∃ forms, flag_forms f = [' ', ' '] ++ forms ++ [' ', ' ']) ∧
    flag_line env m o f
      = o ++ flag_forms f
          ++ List.replicate (max 0 (32 - ((flag_forms f).length : Int))).toNat ' '
          ++ f.usage ++ flag_default env m f ++ ['\n'] ∧
    (((flag_forms f
        ++ List.replicate (max 0 (32 - ((flag_forms f).length : Int))).toNat ' ').length : Nat)
        : Int) = max 32 ((flag_forms f).length : Int) ∧
    (32 ≤ (flag_forms f).length →
      flag_line env m o f = o ++ flag_forms f ++ f.usage ++ flag_default env m f ++ ['\n']) ∧
    (∀ (b : Token) (num : Int), print_spaces b num = b ++ List.replicate (max 0 num).toNat ' ') ∧
    (∀ (b : Token) (num : Int), num ≤ 0 → print_spaces b num = b) := by
  have hmax : ∀ x : Int, (max 0 x).toNat = x.toNat := by
    intro x
    rcases le_total 0 x with h | h
    · rw [max_eq_right h]
    · rw [max_eq_left h]
      simp [Int.toNat_eq_zero.mpr h]
  have hline : flag_line env m o f
      = o ++ flag_forms f
          ++ List.replicate (max 0 (32 - ((flag_forms f).length : Int))).toNat ' '
          ++ f.usage ++ flag_default env m f ++ ['\n'] := by
    rw [hmax]
    simp [flag_line, print_spaces_eq, str_addf, str_add, str_addch, List.append_assoc]
  refine ⟨?_, hline, ?_, ?_, ?_, ?_⟩
  · unfold flag_forms
    split_ifs
    · exact ⟨['-', f.shopt, ',', ' ', '-', '-'] ++ fmt_s f.longopt
        ++ [',', ' ', '-', '-', 'n', 'o', '-'] ++ fmt_s f.longopt, by simp⟩
    · exact ⟨['-', '-'] ++ fmt_s f.longopt
        ++ [',', ' ', '-', '-', 'n', 'o', '-'] ++ fmt_s f.longopt, by simp⟩
    · exact ⟨['-', f.shopt], rfl⟩
    · exact ⟨['-', f.shopt, ' '] ++ fmt_s f.arg ++ [',', ' ', '-', '-']
        ++ fmt_s f.longopt ++ ['='] ++ fmt_s f.arg, by simp⟩
    · exact ⟨['-', '-'] ++ fmt_s f.longopt ++ ['='] ++ fmt_s f.arg, by simp⟩
    · exact ⟨['-', f.shopt, ' '] ++ fmt_s f.arg, by simp⟩
  · rw [hmax, List.length_append, List.length_replicate]
    omega
  · intro h
    rw [hline, hmax]
    have : ((32 : Int) - ((flag_forms f).length : Int)).toNat = 0 := by omega
    rw [this]
    simp
  · intro b num
    rw [hmax, print_spaces_eq]
  · intro b num h
    rw [print_spaces_eq, Int.toNat_eq_zero.mpr h]
    simp

theorem padding_width_witness :
    (flag_forms wide_flag).length = 45 ∧
    (32 : Int) - ((flag_forms wide_flag).length : Int) = -13 ∧
    flag_line demo_env demo_mem [] wide_flag
      = "  -w, --a-long-name-xx, --no-a-long-name-xx  help\n".toList ∧
    flag_line demo_env demo_mem [] demo_count
      = "  -c N, --count=N               how [default=1]\n".toList :=
  ⟨rfl, rfl,
    ((padding_width demo_env demo_mem [] wide_flag).2.2.2.1 (by decide)).trans rfl,
    (padding_width demo_env demo_mem [] demo_count).2.1.trans rfl⟩

/-- C17 fails as stated for the empty string: `print_usage` tests the string
destination for `NULL` only (`if (f->pval->s)`), so for the string option `name` whose
destination holds the empty string the line carries the annotation ` [default=]`. -/
theorem empty_string_default_counterexample :
    demo_name.type = FLAG_STRING ∧ empty_string_mem.s demo_name.pval = some [] ∧
      flag_default demo_env empty_string_mem demo_name = " [default=]".toList ∧
      flag_line demo_env empty_string_mem [] demo_name
        = "  --name=S                      who [default=]\n".toList :=
  ⟨rfl, rfl, rfl, rfl⟩

/-- C17, amended: the line of a descriptor ends with the help text, the annotation
`flag_default` and the line break, and the annotation is: for an int option always
` [default=<value>]` with the value printed by `%d`; for a string option
` [default=<text>]` whenever the destination is not `NULL`, the empty string included,
and nothing when it is `NULL`; for a bool option ` [default=enabled]` when the
destination is true and nothing when it is false. -/
theorem default_shown (env : Env) (m : Mem) (o : Token) (f : flag) :
    (∃ line, flag_line env m o f = o ++ line ++ f.usage ++ flag_default env m f ++ ['\n']) ∧
    (f.type = FLAG_INT →
      flag_default env m f = " [default=".toList ++ fmt_d (m.i f.pval) ++ [']']) ∧
    (f.type = FLAG_STRING → ∀ t, m.s f.pval = some t →
      flag_default env m f = " [default=".toList ++ t ++ [']']) ∧
    (f.type = FLAG_STRING → m.s f.pval = none → flag_default env m f = []) ∧
    (f.type = FLAG_BOOL → m.b f.pval = true →
      flag_default env m f = " [default=enabled]".toList) ∧
    (f.type = FLAG_BOOL → m.b f.pval = false → flag_default env m f = []) := by
  refine ⟨⟨flag_forms f ++ List.replicate ((32 : Int) - ((flag_forms f).length : Int)).toNat ' ',
    ?_⟩, ?_, ?_, ?_, ?_, ?_⟩
  · simp [flag_line, print_spaces_eq, str_addf, str_add, str_addch, List.append_assoc]
  · intro h
    simp [flag_default, h]
  · intro h t ht
    simp [flag_default, h, ht]
  · intro h ht
    simp [flag_default, h, ht]
  · intro h hb
    simp [flag_default, h, hb]
  · intro h hb
    simp [flag_default, h, hb]

theorem default_shown_witness :
    flag_default demo_env demo_mem demo_count = " [default=1]".toList ∧
    flag_default demo_env demo_mem demo_name = [] ∧
    flag_default demo_env empty_string_mem demo_name = " [default=]".toList ∧
    flag_default demo_env demo_mem demo_verbose = [] :=
  ⟨((default_shown demo_env demo_mem [] demo_count).2.1 rfl).trans rfl,
    (default_shown demo_env demo_mem [] demo_name).2.2.2.1 rfl rfl,
    ((default_shown demo_env empty_string_mem [] demo_name).2.2.1 rfl [] rfl).trans rfl,
    (default_shown demo_env demo_mem [] demo_verbose).2.2.2.2.2 rfl rfl⟩

/-! ## Descriptors without a name -/

/-- C18 fails as stated, in two ways.  A long name that is the empty string is a name
for `find_long`: with a string option of short name NUL and long name `""`, the token
`--=v` is looked up with the length 0, matches, and the destination receives `v`.  And a
descriptor with neither name may share its destination: with `-a` registered on the same
cell, `-a x` writes the destination of the nameless descriptor, for which no call of
`process_flag` is made. -/
theorem nameless_counterexample :
    (empty_name_flag ∈ empty_name_sys.g_flags ∧ empty_name_flag.shopt = NUL ∧
      empty_name_flag.longopt = some [] ∧
      find_long empty_name_sys.g_flags ['=', 'v'] 0 = some empty_name_flag ∧
      ∃ res, flag_parse demo_env empty_name_sys
          (((['p'] :: [['-', '-', '=', 'v']]).length : Nat) : Int)
          (mkArgv (['p'] :: [['-', '-', '=', 'v']])) ['u'] 0 = .ok res ∧
        res.ret = some 0 ∧ res.sys.calls = [] ∧
        res.sys.flagged.map Event.f = [empty_name_flag] ∧
        empty_name_sys.mem.s 0 = none ∧ res.sys.mem.s 0 = some ['v']) ∧
    (nameless_flag ∈ shadow_sys.g_flags ∧ nameless_flag.shopt = NUL ∧
      nameless_flag.longopt = none ∧
      ∃ res, flag_parse demo_env shadow_sys (((['p'] :: [['-', 'a'], ['x']]).length : Nat) : Int)
          (mkArgv (['p'] :: [['-', 'a'], ['x']])) ['u'] 0 = .ok res ∧
        res.ret = some 0 ∧ res.sys.calls = [] ∧
        (∀ ev ∈ res.sys.flagged, ev.f ≠ nameless_flag) ∧
        shadow_sys.mem.read nameless_flag.type nameless_flag.pval = .s none ∧
        res.sys.mem.read nameless_flag.type nameless_flag.pval = .s (some ['x'])) :=
  ⟨⟨by decide, rfl, rfl, rfl, _, rfl, rfl, rfl, rfl, rfl, rfl⟩,
    ⟨by decide, rfl, rfl, _, rfl, rfl, rfl, by decide, rfl, rfl⟩⟩

/-- C18, amended: a descriptor `g` whose short name is NUL and whose long name is
`NULL` is unreachable.  `find_long` never returns it, `find_short` does not return it
for a character other than NUL, and in every call of `flag_parse` no call of
`process_flag` is made for it; when no other descriptor of the registry shares its
destination, the destination keeps its value. -/
theorem nameless_unreachable (env : Env) (s : Sys) (prog : Token) (args : List Token)
    (usage : Token) (minargs : Int) (g : flag) (hs : g.shopt = NUL)
    (hl : g.longopt = none) :
    (∀ name len, find_long s.g_flags name len ≠ some g) ∧
    (∀ c, c ≠ NUL → find_short s.g_flags c ≠ some g) ∧
    ∃ res evs, flag_parse env s (((prog :: args).length : Nat) : Int)
        (mkArgv (prog :: args)) usage minargs = .ok res ∧
      res.sys.flagged = s.flagged ++ evs ∧ (∀ ev ∈ evs, ev.f ≠ g) ∧
      ((∀ f ∈ s.g_flags, f ≠ g → ¬ (f.type = g.type ∧ f.pval = g.pval)) →
        res.sys.mem.read g.type g.pval = s.mem.read g.type g.pval) := by
  have hlong : ∀ name len, find_long s.g_flags name len ≠ some g := by
    intro name len h
    obtain ⟨_, l, hl2, _⟩ := find_long_some _ _ _ _ h
    rw [hl] at hl2
    cases hl2
  have hshort : ∀ c, c ≠ NUL → find_short s.g_flags c ≠ some g := by
    intro c hc h
    have := (find_short_some _ _ _ h).2
    rw [hs] at this
    exact hc this.symm
  refine ⟨hlong, hshort, ?_⟩
  obtain ⟨res, evs, hP, h1, h2, h3⟩ := flag_parse_log env s prog args usage minargs
  have hev : ∀ ev ∈ evs, ev.f ∈ s.g_flags ∧ ev.f ≠ g := by
    intro ev hm
    obtain ⟨hn, _⟩ := h3 ev hm
    have hk := kind_of_lookup s.g_flags ev.arg ev.f
    rcases hn with ⟨h, _, _⟩ | ⟨h, _⟩ | ⟨h, _, _⟩
    · have hf := hk.1 h
      exact ⟨(find_long_some _ _ _ _ hf).1, fun e => hlong _ _ (e ▸ hf)⟩
    · obtain ⟨len, hf⟩ := hk.2.1 _ h
      exact ⟨(find_long_some _ _ _ _ hf).1, fun e => hlong _ _ (e ▸ hf)⟩
    · obtain ⟨hc, hf⟩ := hk.2.2 h
      exact ⟨(find_short_some _ _ _ hf).1, fun e => hshort _ hc (e ▸ hf)⟩
  refine ⟨res, evs, hP, h1, fun ev hm => (hev ev hm).2, ?_⟩
  intro hsep
  rw [h2]
  apply apply_events_other
  intro ev hm
  exact hsep ev.f (hev ev hm).1 (hev ev hm).2

theorem nameless_unreachable_witness :
    nameless_flag ∈ lonely_sys.g_flags ∧
    ∃ res, flag_parse demo_env lonely_sys (((['p'] :: [['-', 'a'], ['x']]).length : Nat) : Int)
        (mkArgv (['p'] :: [['-', 'a'], ['x']])) ['u'] 0 = .ok res ∧
      (∀ ev ∈ res.sys.flagged, ev.f ≠ nameless_flag) ∧
      res.sys.mem.read FLAG_STRING 0 = lonely_sys.mem.read FLAG_STRING 0 := by
  obtain ⟨_, _, res, evs, hP, h1, h2, h3⟩ :=
    nameless_unreachable demo_env lonely_sys ['p'] [['-', 'a'], ['x']] ['u'] 0
      nameless_flag rfl rfl
  refine ⟨by decide, res, hP, ?_, h3 (by decide)⟩
  have he : res.sys.flagged = evs := by
    rw [h1]
    rfl
  rw [he]
  exact h2

/-! ## The negative form comes first -/

/-- C19: on a registry built by `append`, a reached token `--no-R` (any text `R`
without NUL, an `=` and what follows included) is looked up as the negation of `R`
whole: the `if` chain gives the negation of the descriptor that `find_long` returns for
`R`, or the unknown flag, and never a long form.  When `R` is not a registered long
name, `flag_parse` calls the exit handler with status 2 and `unknown flag --no-R`, and
no call of `process_flag` and no write is made, so an option named `no-R` is not set.
When `R` is a registered long name, `find_long` returns a descriptor whose long name is
`R`, and the iteration calls `process_flag` for it without value and with the bool
false: only the destination of that descriptor can change. -/
theorem negation_precedence (env : Env) (s : Sys) (prog : Token) (args : List Token)
    (usage : Token) (minargs : Int) (n i : Nat) (st : Scan) (R : Token)
    (hreach : Reaches env s prog args usage n i st (['-', '-', 'n', 'o', '-'] ++ R))
    (hreg : Registered s.g_flags) (hnul : NUL ∉ R) :
    kind_of s.g_flags (['-', '-', 'n', 'o', '-'] ++ R)
      = (match find_long s.g_flags R R.length with
        | none => .unknown
        | some f => .negated f) ∧
    (∀ f v, kind_of s.g_flags (['-', '-', 'n', 'o', '-'] ++ R) ≠ .long f v) ∧
    (LongName s.g_flags R ↔ ∃ f, find_long s.g_flags R R.length = some f) ∧
    (¬ LongName s.g_flags R →
      ∃ res, flag_parse env s (((prog :: args).length : Nat) : Int) (mkArgv (prog :: args))
          usage minargs = .ok res ∧
        res.sys.calls = st.sys.calls
          ++ [(2, "unknown flag ".toList ++ (['-', '-', 'n', 'o', '-'] ++ R) ++ ['\n']
            ++ usage_text env st.sys)] ∧
        res.ret = env.flag_exit 2
          ("unknown flag ".toList ++ (['-', '-', 'n', 'o', '-'] ++ R) ++ ['\n']
            ++ usage_text env st.sys) ∧
        res.sys.mem = st.sys.mem ∧ res.sys.flagged = st.sys.flagged) ∧
    (∀ f, find_long s.g_flags R R.length = some f →
      f ∈ s.g_flags ∧ f.longopt = some R ∧
      ∃ ctl st1, body env i st = .ok (ctl, st1) ∧
        st1.sys.flagged
          = st.sys.flagged ++ [⟨f, ['-', '-', 'n', 'o', '-'] ++ R, none, false⟩] ∧
        st1.sys.mem = store env st.sys.mem f none false ∧
        ∀ t a, ¬ (f.type = t ∧ f.pval = a) → st1.sys.mem.read t a = st.sys.mem.read t a) := by
  have hfl : st.sys.g_flags = s.g_flags :=
    (reaches_frame env s prog args usage n i st _ hreach).1
  have hkind := kind_of_negated s.g_flags R
  refine ⟨hkind, ?_, ?_, ?_, ?_⟩
  · intro f v h
    rw [hkind] at h
    cases hf : find_long s.g_flags R R.length with
    | none => simp [hf] at h
    | some g => simp [hf] at h
  · constructor
    · rintro ⟨g, hg, hl⟩
      have := find_long_isSome s.g_flags hreg R g hg hl []
      simpa using this
    · rintro ⟨f, hf⟩
      obtain ⟨hm, hl⟩ := find_long_registered s.g_flags hreg R R.length f hf
      rw [List.take_length] at hl
      exact ⟨f, hm, hl⟩
  · intro hY
    have hk : kind_of st.sys.g_flags (['-', '-', 'n', 'o', '-'] ++ R) = .unknown := by
      rw [hfl, kind_of_negated, find_long_none_of_not_longName s.g_flags hreg R hY]
    have hmsg : unknown_flag env st.sys (['-', '-', 'n', 'o', '-'] ++ R)
        = (env.flag_exit 2 ("unknown flag ".toList ++ (['-', '-', 'n', 'o', '-'] ++ R)
              ++ ['\n'] ++ usage_text env st.sys),
            { st.sys with calls := st.sys.calls
                ++ [(2, "unknown flag ".toList ++ (['-', '-', 'n', 'o', '-'] ++ R) ++ ['\n']
                  ++ usage_text env st.sys)] }) := by
      unfold unknown_flag
      apply flag_error_msg
      · simp
      · simp only [List.mem_append, not_or]
        exact ⟨by decide, by decide, hnul⟩
    obtain ⟨res, hp, hr, hs⟩ := reaches_leave env s prog args usage minargs n i st _ hreach
      _ _ (fun pre rest => bodyL_unknown env pre _ rest st.sys hk rfl)
    refine ⟨res, hp, ?_, ?_, ?_, ?_⟩
    · rw [hs, hmsg]
    · rw [hr, hmsg]
    · rw [hs, hmsg]
    · rw [hs, hmsg]
  · intro f hf
    obtain ⟨hm, hl⟩ := find_long_registered s.g_flags hreg R R.length f hf
    rw [List.take_length] at hl
    have hk : kind_of st.sys.g_flags (['-', '-', 'n', 'o', '-'] ++ R) = .negated f := by
      rw [hfl, kind_of_negated, hf]
    obtain ⟨pre, rest, tail, hi, hst, _⟩ :=
      reaches_total env s prog args usage minargs n i st _ hreach
    obtain ⟨st1, h1, h2, _⟩ := reaches_body env i st pre _ rest tail hi hst
    have hb := bodyL_negated env pre _ rest st.sys f hk rfl
    rw [hb] at h2
    have hlog := process_flag_log env st.sys f (['-', '-', 'n', 'o', '-'] ++ R) none false
    refine ⟨hm, hl, _, st1, h1, ?_, ?_, ?_⟩
    · rw [h2]
      exact hlog.1
    · rw [h2]
      exact hlog.2
    · intro t a hne
      rw [h2]
      show (process_flag env st.sys f (['-', '-', 'n', 'o', '-'] ++ R) none false).2.mem.read t a
        = _
      rw [hlog.2]
      exact store_read_other env st.sys.mem f none false t a hne

theorem negation_precedence_witness :
    (∃ f ∈ nocolor_sys.g_flags, f.longopt = some ['n', 'o', '-', 'c', 'o', 'l', 'o', 'r']) ∧
    ∃ res, flag_parse demo_env nocolor_sys (((['p'] :: [tok_no_color]).length : Nat) : Int)
        (mkArgv (['p'] :: [tok_no_color])) ['u'] 0 = .ok res ∧
      res.ret = some 2 ∧
      res.sys.mem = (init_scan nocolor_sys ['p'] [tok_no_color] ['u']).sys.mem ∧
      res.sys.flagged = (init_scan nocolor_sys ['p'] [tok_no_color] ['u']).sys.flagged := by
  have hr : Reaches demo_env nocolor_sys ['p'] [tok_no_color] ['u'] 0 0
      (init_scan nocolor_sys ['p'] [tok_no_color] ['u'])
      (['-', '-', 'n', 'o', '-'] ++ ['c', 'o', 'l', 'o', 'r']) := ⟨rfl, by decide, rfl⟩
  have hreg : Registered nocolor_sys.g_flags := by
    intro f hf
    simp [nocolor_sys, flag_bool, append, sys_empty] at hf
    subst hf
    rfl
  have hno : ¬ LongName nocolor_sys.g_flags ['c', 'o', 'l', 'o', 'r'] := by
    rintro ⟨f, hf, hl⟩
    simp [nocolor_sys, flag_bool, append, sys_empty] at hf
    subst hf
    simp at hl
  obtain ⟨res, hp, _, hret, hmem, hfl⟩ :=
    (negation_precedence demo_env nocolor_sys ['p'] [tok_no_color] ['u'] 0 0 0 _
      ['c', 'o', 'l', 'o', 'r'] hr hreg (by decide)).2.2.2.1 hno
  exact ⟨⟨_, List.mem_singleton_self _, rfl⟩, res, hp, hret, hmem, hfl⟩

/-! ## A value attached to a bool option -/

/-- The lookup of `find_long` only reads the first `len` bytes at `name`. -/
theorem find_long_take (flags : List flag) (name name2 : Token) (len : Nat)
    (h : name.take len = name2.take len) :
    find_long flags name len = find_long flags name2 len := by
  induction flags with
  | nil => rfl
  | cons g rest ih =>
    unfold find_long
    rw [h, ih]

/-- C20 fails as stated for two sorts of names.  With a bool option of long name `a=b`,
the token `--a=b=1` is cut at its first `=`, the name looked up is `a`, and
`flag_parse` ends with the unknown flag and the destination unchanged.  With a bool
option of long name `no-color`, the token `--no-color=1` is taken as the negation of
`color=1` and ends with the unknown flag as well. -/
theorem bool_value_counterexample :
    ((∃ f ∈ eq_name_sys.g_flags, f.type = FLAG_BOOL ∧ f.pval = 0 ∧
        f.longopt = some ['a', '=', 'b']) ∧
      ∃ res, flag_parse demo_env eq_name_sys
          (((['p'] :: [['-', '-', 'a', '=', 'b', '=', '1']]).length : Nat) : Int)
          (mkArgv (['p'] :: [['-', '-', 'a', '=', 'b', '=', '1']])) ['u'] 0 = .ok res ∧
        res.ret = some 2 ∧ res.sys.calls.map Prod.fst = [2] ∧
        res.sys.calls.map (fun c => c.2.take 20) = ["unknown flag --a=b=1".toList] ∧
        res.sys.flagged = [] ∧ res.sys.mem.b 0 = false) ∧
    ((∃ f ∈ nocolor_sys.g_flags, f.type = FLAG_BOOL ∧ f.pval = 0 ∧
        f.longopt = some ['n', 'o', '-', 'c', 'o', 'l', 'o', 'r']) ∧
      ∃ res, flag_parse demo_env nocolor_sys
          (((['p'] :: [tok_no_color ++ ['=', '1']]).length : Nat) : Int)
          (mkArgv (['p'] :: [tok_no_color ++ ['=', '1']])) ['u'] 0 = .ok res ∧
        res.ret = some 2 ∧ res.sys.calls.map Prod.fst = [2] ∧
        res.sys.calls.map (fun c => c.2.take 25) = ["unknown flag --no-color=1".toList] ∧
        res.sys.flagged = [] ∧ res.sys.mem.b 0 = false) :=
  ⟨⟨⟨_, List.mem_singleton_self _, rfl, rfl, rfl⟩, _, rfl, rfl, rfl, rfl, rfl, rfl⟩,
    ⟨⟨_, List.mem_singleton_self _, rfl, rfl, rfl⟩, _, rfl, rfl, rfl, rfl, rfl, rfl⟩⟩

/-- C20, amended: let `X` hold no `=`, not begin with `no-`, and be found by `find_long`
as the long name of the registered bool option `f`.  Whenever scanning reaches a token
`--X=V`, whatever the text `V`, the iteration calls `process_flag` for `f` with the value
`V`, sets the destination of `f` to true without a call of the exit handler, and the
loop goes on. -/
theorem bool_value_ignored (env : Env) (s : Sys) (prog : Token) (args : List Token)
    (usage : Token) (minargs : Int) (n i : Nat) (st : Scan) (X V : Token) (f : flag)
    (hfind : find_long s.g_flags X X.length = some f) (hbool : f.type = FLAG_BOOL)
    (heq : '=' ∉ X) (hno : List.take 3 X ≠ ['n', 'o', '-'])
    (hreach : Reaches env s prog args usage n i st (['-', '-'] ++ X ++ '=' :: V)) :
    ∃ st1, body env i st = .ok (.inr i, st1) ∧
      st1.sys.mem = { st.sys.mem with b := upd st.sys.mem.b f.pval true } ∧
      st1.sys.mem.b f.pval = true ∧ st1.sys.calls = st.sys.calls ∧
      st1.sys.flagged = st.sys.flagged ++ [⟨f, ['-', '-'] ++ X ++ '=' :: V, some V, true⟩] := by
  have hfl : st.sys.g_flags = s.g_flags :=
    (reaches_frame env s prog args usage n i st _ hreach).1
  have hf2 : find_long s.g_flags (X ++ '=' :: V) X.length = some f := by
    rw [find_long_take s.g_flags (X ++ '=' :: V) X X.length (by simp)]
    exact hfind
  have hk : kind_of st.sys.g_flags (['-', '-'] ++ X ++ '=' :: V) = .long f (some V) := by
    rw [hfl, kind_of_long_eq s.g_flags X V heq hno, hf2]
  obtain ⟨pre, rest, tail, hi, hst, _⟩ :=
    reaches_total env s prog args usage minargs n i st _ hreach
  obtain ⟨st1, h1, h2, h3, h4, _⟩ := reaches_write env i st _ f (some V) true pre rest rest
    tail hi hst (by simp) (bodyL_long env pre _ rest st.sys f (some V) hk rfl)
  rw [store_bool env _ f (some V) true hbool] at h2
  exact ⟨st1, h1, h2, by rw [h2]; simp [upd], h3, h4⟩

theorem bool_value_ignored_witness :
    ∃ st1, body demo_env 0 (init_scan demo_sys ['p'] [tok_verbose_false] ['u'])
        = .ok (.inr 0, st1) ∧
      st1.sys.mem.b 0 = true ∧
      st1.sys.calls = (init_scan demo_sys ['p'] [tok_verbose_false] ['u']).sys.calls :=
  (bool_value_ignored demo_env demo_sys ['p'] [tok_verbose_false] ['u'] 0 0 0
      (init_scan demo_sys ['p'] [tok_verbose_false] ['u'])
      ['v', 'e', 'r', 'b', 'o', 's', 'e'] ['f', 'a', 'l', 's', 'e'] demo_verbose rfl rfl
      (by decide) (by decide) ⟨rfl, by decide, rfl⟩).elim
    fun st1 h => ⟨st1, h.1, h.2.2.1, h.2.2.2.1⟩

/-! ## Lemmas: the calls of `process_flag` and the tokens scanned as flags -/

theorem flag_tokens_nondash (flags : List flag) (tok : Token) (rest : List Token)
    (h : cAt tok 0 ≠ '-') : flag_tokens flags (tok :: rest) = flag_tokens flags rest := by
  have h2 : tok ≠ ['-', '-'] := by
    intro e
    rw [e] at h
    exact h rfl
  cases rest <;> simp [flag_tokens, if_neg h2, h]

theorem flag_tokens_stop (flags : List flag) (rest : List Token) :
    flag_tokens flags (['-', '-'] :: rest) = [] := by
  cases rest <;> simp [flag_tokens]

theorem flag_tokens_flag (flags : List flag) (tok : Token) (rest : List Token)
    (h2 : tok ≠ ['-', '-']) (hd : cAt tok 0 = '-') (ht : takes_value flags tok = false) :
    flag_tokens flags (tok :: rest) = (tok, none) :: flag_tokens flags rest := by
  cases rest <;> simp [flag_tokens, if_neg h2, hd, ht]

theorem flag_tokens_value (flags : List flag) (tok w : Token) (rest : List Token)
    (h2 : tok ≠ ['-', '-']) (hd : cAt tok 0 = '-') (ht : takes_value flags tok = true) :
    flag_tokens flags (tok :: w :: rest) = (tok, some w) :: flag_tokens flags rest := by
  simp [flag_tokens, if_neg h2, hd, ht]

theorem flag_tokens_last (flags : List flag) (tok : Token)
    (h2 : tok ≠ ['-', '-']) (hd : cAt tok 0 = '-') (ht : takes_value flags tok = true) :
    flag_tokens flags [tok] = [(tok, none)] := by
  simp [flag_tokens, if_neg h2, hd, ht]

theorem names_option_of (flags : List flag) (ev : Event) (h : Names flags ev) :
    option_of flags ev.arg = some ev.f := by
  unfold option_of
  rcases h with ⟨h, _, _⟩ | ⟨h, _⟩ | ⟨h, _, _⟩ <;> rw [h]

theorem forall2_append {α β : Type} (R : α → β → Prop) :
    ∀ (a1 : List α) (b1 : List β) (a2 : List α) (b2 : List β),
      List.Forall₂ R a1 b1 → List.Forall₂ R a2 b2 → List.Forall₂ R (a1 ++ a2) (b1 ++ b2) := by
  intro a1 b1 a2 b2 h1 h2
  induction h1 with
  | nil => exact h2
  | cons hab _ ih => exact List.Forall₂.cons hab ih

theorem forall2_split {α β : Type} (R : α → β → Prop) (p : β) (b2 : List β) :
    ∀ (b1 : List β) (a : List α), List.Forall₂ R a (b1 ++ p :: b2) →
      ∃ a1 x a2, a = a1 ++ x :: a2 ∧ List.Forall₂ R a1 b1 ∧ R x p ∧ List.Forall₂ R a2 b2 := by
  intro b1
  induction b1 with
  | nil =>
    intro a h
    cases h with
    | cons hx ht => exact ⟨[], _, _, rfl, List.Forall₂.nil, hx, ht⟩
  | cons b b1 ih =>
    intro a h
    cases h with
    | cons hx ht =>
      obtain ⟨a1, x, a2, he, h1, h2, h3⟩ := ih _ ht
      exact ⟨_ :: a1, x, a2, by rw [he]; rfl, List.Forall₂.cons hx h1, h2, h3⟩

theorem forall2_mem {α β : Type} (R : α → β → Prop) (a : List α) (b : List β)
    (h : List.Forall₂ R a b) : ∀ x ∈ a, ∃ y ∈ b, R x y := by
  induction h with
  | nil => intro x hx; simp at hx
  | cons hab _ ih =>
    intro x hx
    rcases List.mem_cons.mp hx with rfl | hm
    · exact ⟨_, List.mem_cons_self _ _, hab⟩
    · obtain ⟨y, hy, hr⟩ := ih x hm
      exact ⟨y, List.mem_cons_of_mem _ hy, hr⟩

/-- One pass through the `if` chain on a token that begins with `-`: the call of
`process_flag` it makes, if any, is the call for this token as the specification scans
it, with the value the specification gives it. -/
theorem classifyL_tokens (env : Env) (tok : Token) (rest : List Token) (s : Sys)
    (hn : NUL ∉ tok) (hd : cAt tok 0 = '-') :
    ∃ evs T, (classifyL env tok rest s).2.2.flagged = s.flagged ++ evs ∧
      (classifyL env tok rest s).2.2.mem = apply_events env s.mem evs ∧
      List.Forall₂ (Scanned s.g_flags) evs T ∧
      T <+: flag_tokens s.g_flags (tok :: rest) ∧
      ((classifyL env tok rest s).1 = .inl .done → flag_tokens s.g_flags (tok :: rest) = T) ∧
      (∀ r, (classifyL env tok rest s).1 = .inr r →
        flag_tokens s.g_flags (tok :: rest)
          = T ++ flag_tokens s.g_flags (classifyL env tok rest s).2.1) := by
  have one : ∀ (f : flag) (v : Option Token) (b : Bool) (w : Option Token)
      (rest1 : List Token),
      Names s.g_flags ⟨f, tok, v, b⟩ →
      (∀ g, kind_of s.g_flags tok = .short g → g.type ≠ FLAG_BOOL → v = w) →
      flag_tokens s.g_flags (tok :: rest) = (tok, w) :: flag_tokens s.g_flags rest1 →
      ∃ evs T, (process_flag env s f tok v b).2.flagged = s.flagged ++ evs ∧
        (process_flag env s f tok v b).2.mem = apply_events env s.mem evs ∧
        List.Forall₂ (Scanned s.g_flags) evs T ∧
        T <+: flag_tokens s.g_flags (tok :: rest) ∧
        flag_tokens s.g_flags (tok :: rest) = T ++ flag_tokens s.g_flags rest1 := by
    intro f v b w rest1 hnames hval hft
    refine ⟨[⟨f, tok, v, b⟩], [(tok, w)], (process_flag_log env s f tok v b).1,
      (process_flag_log env s f tok v b).2,
      List.Forall₂.cons ⟨rfl, hnames, hval⟩ List.Forall₂.nil, ?_, hft⟩
    rw [hft]
    exact ⟨_, rfl⟩
  unfold classifyL
  cases hk : kind_of s.g_flags tok with
  | help =>
    exact ⟨[], [], by simp [flag_error], rfl, List.Forall₂.nil, List.nil_prefix,
      by simp, by simp⟩
  | stop =>
    have ht := kind_of_stop_inv s.g_flags tok hk
    subst ht
    exact ⟨[], [], by simp, rfl, List.Forall₂.nil, List.nil_prefix,
      fun _ => flag_tokens_stop _ _, by simp⟩
  | unknown =>
    exact ⟨[], [], by simp [unknown_flag, flag_error], rfl, List.Forall₂.nil,
      List.nil_prefix, by simp, by simp⟩
  | negated f =>
    obtain ⟨evs, T, h1, h2, h3, h4, h5⟩ := one f none false none rest
      (Or.inl ⟨hk, rfl, rfl⟩) (fun g hg => by rw [hk] at hg; cases hg)
      (flag_tokens_flag s.g_flags tok rest (kind_of_negated_inv s.g_flags tok f hk).1 hd
        (takes_value_negated s.g_flags tok f hk))
    exact ⟨evs, T, h1, h2, h3, h4, by simp, fun _ _ => h5⟩
  | long f value =>
    obtain ⟨evs, T, h1, h2, h3, h4, h5⟩ := one f value true none rest
      (Or.inr (Or.inl ⟨hk, rfl⟩)) (fun g hg => by rw [hk] at hg; cases hg)
      (flag_tokens_flag s.g_flags tok rest (kind_of_long_inv s.g_flags tok f value hk).1 hd
        (takes_value_long s.g_flags tok f value hk))
    exact ⟨evs, T, h1, h2, h3, h4, by simp, fun _ _ => h5⟩
  | short f =>
    have h2 := (kind_of_short_inv s.g_flags tok f hk).1
    have htv := takes_value_short s.g_flags tok f hk hn hd
    by_cases hb : f.type = FLAG_BOOL
    · simp only [hb, ne_eq, not_true_eq_false, if_false]
      obtain ⟨evs, T, h1, h2, h3, h4, h5⟩ := one f none true none rest
        (Or.inr (Or.inr ⟨hk, rfl, fun _ => rfl⟩))
        (fun _ _ _ => rfl)
        (flag_tokens_flag s.g_flags tok rest h2 hd (by rw [htv]; simp [hb]))
      exact ⟨evs, T, h1, h2, h3, h4, by simp, fun _ _ => h5⟩
    · have htv2 : takes_value s.g_flags tok = true := by
        rw [htv]
        simp [hb]
      cases rest with
      | nil =>
        simp only [hb, ne_eq, not_false_eq_true, if_true]
        obtain ⟨evs, T, h1, h2, h3, h4, h5⟩ := one f none true none []
          (Or.inr (Or.inr ⟨hk, rfl, fun _ => rfl⟩)) (fun _ _ _ => rfl)
          (by rw [flag_tokens_last s.g_flags tok h2 hd htv2]; rfl)
        exact ⟨evs, T, h1, h2, h3, h4, by simp, fun _ _ => h5⟩
      | cons w rest1 =>
        simp only [hb, ne_eq, not_false_eq_true, if_true]
        obtain ⟨evs, T, h1, h2, h3, h4, h5⟩ := one f (some w) true (some w) rest1
          (Or.inr (Or.inr ⟨hk, rfl, fun h => absurd h hb⟩)) (fun _ _ _ => rfl)
          (flag_tokens_value s.g_flags tok w rest1 h2 hd htv2)
        exact ⟨evs, T, h1, h2, h3, h4, by simp, fun _ _ => h5⟩

theorem bodyL_tokens (env : Env) (pre : List Token) (tok : Token) (rest : List Token)
    (s : Sys) (hn : NUL ∉ tok) :
    ∃ evs T, (bodyL env pre tok rest s).2.2.2.flagged = s.flagged ++ evs ∧
      (bodyL env pre tok rest s).2.2.2.mem = apply_events env s.mem evs ∧
      List.Forall₂ (Scanned s.g_flags) evs T ∧
      T <+: flag_tokens s.g_flags (tok :: rest) ∧
      ((bodyL env pre tok rest s).1 = .inl .done → flag_tokens s.g_flags (tok :: rest) = T) ∧
      ((bodyL env pre tok rest s).1 = .inr () →
        flag_tokens s.g_flags (tok :: rest)
          = T ++ flag_tokens s.g_flags (bodyL env pre tok rest s).2.2.1) := by
  by_cases hd : cAt tok 0 ≠ '-'
  · unfold bodyL
    rw [if_pos hd]
    exact ⟨[], [], by simp, rfl, List.Forall₂.nil, List.nil_prefix, by simp,
      fun _ => flag_tokens_nondash s.g_flags tok rest hd⟩
  · have hd2 : cAt tok 0 = '-' := not_not.mp hd
    have hc := classifyL_tokens env tok rest s hn hd2
    revert hc
    unfold bodyL
    rw [if_neg hd]
    rcases classifyL env tok rest s with ⟨r, rest1, s1⟩
    rcases r with e | (_ | err)
    · rintro ⟨evs, T, h1, h2, h3, h4, h5, h6⟩
      exact ⟨evs, T, h1, h2, h3, h4, fun h => h5 (by simpa using h), by simp⟩
    · rintro ⟨evs, T, h1, h2, h3, h4, h5, h6⟩
      exact ⟨evs, T, h1, h2, h3, h4, by simp, by simp⟩
    · rintro ⟨evs, T, h1, h2, h3, h4, h5, h6⟩
      by_cases he : err = 0
      · simp only [he, ne_eq, not_true_eq_false, if_false]
        exact ⟨evs, T, h1, h2, h3, h4, by simp, fun _ => h6 _ rfl⟩
      · simp only [he, ne_eq, not_false_eq_true, if_true]
        exact ⟨evs, T, h1, h2, h3, h4, by simp, by simp⟩

/-- The calls of `process_flag` of a loop on tokens without NUL, whatever the exit
handler does: they are, in order, the calls for the first tokens that the specification
scans as flags, and for all of them when the loop is left to the code after it. -/
theorem scanL_tokens (env : Env) (fuel : Nat) :
    ∀ (pre rest : List Token) (s : Sys) (e : LoopEnd) (out : List Token) (s1 : Sys),
      scanL env fuel pre rest s = .ok (e, out, s1) → (∀ t ∈ rest, NUL ∉ t) →
      ∃ evs T, s1.flagged = s.flagged ++ evs ∧ s1.mem = apply_events env s.mem evs ∧
        List.Forall₂ (Scanned s.g_flags) evs T ∧ T <+: flag_tokens s.g_flags rest ∧
        (e = .done → T = flag_tokens s.g_flags rest) := by
  induction fuel with
  | zero =>
    intro pre rest s e out s1 h _
    cases rest with
    | nil =>
      simp [scanL] at h
      obtain ⟨_, _, rfl⟩ := h
      exact ⟨[], [], by simp, rfl, List.Forall₂.nil, List.nil_prefix, fun _ => rfl⟩
    | cons t r => simp [scanL] at h
  | succ n ih =>
    intro pre rest s e out s1 h hnul
    cases rest with
    | nil =>
      simp [scanL] at h
      obtain ⟨_, _, rfl⟩ := h
      exact ⟨[], [], by simp, rfl, List.Forall₂.nil, List.nil_prefix, fun _ => rfl⟩
    | cons tok rest =>
      have hfr := bodyL_frame env pre tok rest s
      have hlog := bodyL_tokens env pre tok rest s (hnul tok (List.mem_cons_self _ _))
      have hmem := bodyL_rest_mem env pre tok rest s
      simp only [scanL] at h
      revert h
      revert hmem
      revert hlog
      revert hfr
      rcases bodyL env pre tok rest s with ⟨r, pre1, rest1, s2⟩
      intro hfr hlog hmem h
      obtain ⟨evs, T, h1, h2, h3, h4, h5, h6⟩ := hlog
      rcases r with e1 | u
      · simp only [Except.ok.injEq, Prod.mk.injEq] at h
        obtain ⟨rfl, _, rfl⟩ := h
        refine ⟨evs, T, h1, h2, h3, h4, ?_⟩
        intro he
        subst he
        exact (h5 rfl).symm
      · have hg : s2.g_flags = s.g_flags := hfr.1
        obtain ⟨evs2, T2, k1, k2, k3, k4, k5⟩ := ih _ _ _ _ _ _ h
          (fun t ht => hnul t (List.mem_cons_of_mem _ (hmem t ht)))
        rw [hg] at k3 k4 k5
        have h6b : flag_tokens s.g_flags (tok :: rest) = T ++ flag_tokens s.g_flags rest1 :=
          h6 rfl
        refine ⟨evs ++ evs2, T ++ T2, ?_, ?_, forall2_append _ _ _ _ _ h3 k3, ?_, ?_⟩
        · rw [k1]
          show s2.flagged ++ evs2 = _
          rw [h1, List.append_assoc]
        · rw [k2]
          show apply_events env s2.mem evs2 = _
          rw [h2, apply_events_append]
        · rw [h6b]
          exact (List.prefix_append_right_inj T).mpr k4
        · intro he
          rw [h6b, k5 he]

/-- The calls of `process_flag` of a call of `flag_parse` on tokens without NUL. -/
theorem flag_parse_tokens (env : Env) (s : Sys) (prog : Token) (args : List Token)
    (usage : Token) (minargs : Int) (hnul : ∀ t ∈ args, NUL ∉ t) :
    ∃ res evs T, flag_parse env s (((prog :: args).length : Nat) : Int)
        (mkArgv (prog :: args)) usage minargs = .ok res ∧
      res.sys.flagged = s.flagged ++ evs ∧ res.sys.mem = apply_events env s.mem evs ∧
      List.Forall₂ (Scanned s.g_flags) evs T ∧ T <+: flag_tokens s.g_flags args ∧
      (res.sys.calls = s.calls → T = flag_tokens s.g_flags args) ∧
      (res.sys.calls = s.calls → ∀ ev ∈ evs, ¬ (ev.str_value = none ∧ ev.f.type ≠ FLAG_BOOL)) := by
  obtain ⟨e, out, s1, tail, hne, hL, hS, hP⟩ := flag_parse_cases env s prog args usage minargs
  obtain ⟨evs, T, h1, h2, h3, h4, h5⟩ := scanL_tokens env _ _ _ _ _ _ _ hL hnul
  have h1b : s1.flagged = s.flagged ++ evs := h1
  have h2b : s1.mem = apply_events env s.mem evs := h2
  have h3b : List.Forall₂ (Scanned s.g_flags) evs T := h3
  have h4b : T <+: flag_tokens s.g_flags args := h4
  have h5b : e = .done → T = flag_tokens s.g_flags args := h5
  have hfr := scanL_frame env _ _ _ _ _ _ _ hL
  have key : ∀ res : Result, res.sys.flagged = s1.flagged → res.sys.mem = s1.mem →
      s1.calls <+: res.sys.calls →
      flag_parse env s (((prog :: args).length : Nat) : Int)
        (mkArgv (prog :: args)) usage minargs = .ok res →
      ∃ res evs T, flag_parse env s (((prog :: args).length : Nat) : Int)
          (mkArgv (prog :: args)) usage minargs = .ok res ∧
        res.sys.flagged = s.flagged ++ evs ∧ res.sys.mem = apply_events env s.mem evs ∧
        List.Forall₂ (Scanned s.g_flags) evs T ∧ T <+: flag_tokens s.g_flags args ∧
        (res.sys.calls = s.calls → T = flag_tokens s.g_flags args) ∧
        (res.sys.calls = s.calls →
          ∀ ev ∈ evs, ¬ (ev.str_value = none ∧ ev.f.type ≠ FLAG_BOOL)) := by
    intro res hf hm hc hres
    have hq : res.sys.calls = s.calls → s1.calls = s.calls := fun hquiet =>
      prefix_antisymm_calls hfr.2.2.2.2.1 hc hquiet
    refine ⟨res, evs, T, hres, hf.trans h1b, hm.trans h2b, h3b, h4b, ?_, ?_⟩
    · intro hquiet
      exact h5b (scanL_quiet_done env _ _ _ _ _ _ _ hL (hq hquiet))
    · intro hquiet
      obtain ⟨evs', k1, _, k3⟩ := scanL_quiet_log env _ _ _ _ _ _ _ hL (hq hquiet)
      have : s.flagged ++ evs' = s.flagged ++ evs := by
        rw [← h1b]
        exact k1.symm
      have he := List.append_cancel_left this
      subst he
      exact fun ev hev => (k3 ev hev).2
  cases e with
  | ret r => exact key _ rfl rfl (List.prefix_refl _) hP
  | done =>
    simp only at hP
    rw [after_loop_toScan env minargs out tail s1 hne] at hP
    by_cases hm : ((out.length : Nat) : Int) < minargs
    · rw [if_pos hm] at hP
      exact key _ rfl rfl (flag_error_frame env s1 3 _).2.2.2.2.1 hP
    · rw [if_neg hm] at hP
      exact key _ rfl rfl (List.prefix_refl _) hP

/-! ## The value that a parse leaves in a destination -/

/-- C3, amended: in a call of `flag_parse` on a registry built by `append` and on
tokens without NUL that returns without any call of the exit handler, take a token `tok`
scanned as a flag (an entry of `flag_tokens`, with `w` the token consumed after it) such
that no token scanned after it names an option with the same destination.  Then the
parse made exactly one call of `process_flag` for each scanned token, in order; the call
`ev` for `tok` is for the option that the `if` chain finds in `tok`, as a negation, a
long form or a short form; for the short form of an option that is not a bool its value
is the token `w` consumed after `tok`; if `tok` is `--NAME=VALUE` with no `=` in `NAME`
and `NAME` not beginning with `no-`, the value is all of `VALUE`, the name looked up is
`NAME` and it is the long name of the option.  After the parse the destination holds:
for a bool the bool of the call (true for the long and short forms), for a string the
value text, for an int `(int) strtol(value, NULL, 0)`, for a double `strtod(value)`; and
the int conversion gives `n` for the decimal numeral and for the `0x` numeral of every
`n` of the 32-bit range. -/
theorem last_token_decides (env : Env) (s : Sys) (prog : Token) (args : List Token)
    (usage : Token) (minargs : Int) (res : Result) (hreg : Registered s.g_flags)
    (hnul : ∀ t ∈ args, NUL ∉ t)
    (h : flag_parse env s (((prog :: args).length : Nat) : Int) (mkArgv (prog :: args))
      usage minargs = .ok res)
    (hquiet : res.sys.calls = s.calls)
    (T1 T2 : List (Token × Option Token)) (tok : Token) (w : Option Token)
    (htok : flag_tokens s.g_flags args = T1 ++ (tok, w) :: T2)
    (hlast : ∀ p ∈ T2, ∀ g f, option_of s.g_flags p.1 = some g →
      option_of s.g_flags tok = some f → ¬ (g.type = f.type ∧ g.pval = f.pval)) :
    ∃ evs1 ev evs2, res.sys.flagged = s.flagged ++ (evs1 ++ ev :: evs2) ∧
      List.Forall₂ (Scanned s.g_flags) evs1 T1 ∧ List.Forall₂ (Scanned s.g_flags) evs2 T2 ∧
      ev.arg = tok ∧ option_of s.g_flags tok = some ev.f ∧
      (kind_of s.g_flags tok = .short ev.f → ev.f.type ≠ FLAG_BOOL →
        ∃ v, w = some v ∧ ev.str_value = some v) ∧
      Names s.g_flags ev ∧
      (∀ NAME VALUE, tok = ['-', '-'] ++ NAME ++ '=' :: VALUE → '=' ∉ NAME →
        List.take 3 NAME ≠ ['n', 'o', '-'] →
        ev.str_value = some VALUE ∧ ev.bool_value = true ∧
          find_long s.g_flags (NAME ++ '=' :: VALUE) NAME.length = some ev.f ∧
          ev.f.longopt = some NAME) ∧
      (ev.f.type = FLAG_BOOL →
        ((∃ v, kind_of s.g_flags tok = .long ev.f v) ∨ kind_of s.g_flags tok = .short ev.f) →
        res.sys.mem.b ev.f.pval = true) ∧
      (ev.f.type = FLAG_BOOL → res.sys.mem.b ev.f.pval = ev.bool_value) ∧
      (ev.f.type = FLAG_STRING →
        ∃ v, ev.str_value = some v ∧ res.sys.mem.s ev.f.pval = some v) ∧
      (ev.f.type = FLAG_INT →
        ∃ v, ev.str_value = some v ∧ res.sys.mem.i ev.f.pval = toInt32 (strtol v)) ∧
      (ev.f.type = FLAG_DOUBLE →
        ∃ v, ev.str_value = some v ∧ res.sys.mem.d ev.f.pval = env.strtod v) ∧
      (∀ n : Int, -(2 ^ 31 : Int) ≤ n → n < 2 ^ 31 →
        toInt32 (strtol (fmt_d n)) = n ∧ toInt32 (strtol (hex_numeral n)) = n) := by
  obtain ⟨res', evs, T, hres, hf, hmem, hfa, _, hT, hw⟩ :=
    flag_parse_tokens env s prog args usage minargs hnul
  have hr : res' = res := Except.ok.inj (hres.symm.trans h)
  subst hr
  have hT2 := hT hquiet
  rw [hT2, htok] at hfa
  obtain ⟨evs1, ev, evs2, he, hf1, hsc, hf2⟩ := forall2_split _ _ _ _ _ hfa
  subst he
  obtain ⟨harg, hnames, hshort⟩ := hsc
  have harg2 : ev.arg = tok := harg
  have hopt : option_of s.g_flags tok = some ev.f := by
    rw [← harg2]
    exact names_option_of s.g_flags ev hnames
  have hwrite : ¬ (ev.str_value = none ∧ ev.f.type ≠ FLAG_BOOL) := hw hquiet ev (by simp)
  have hlast2 : ∀ e ∈ evs2, ¬ (e.f.type = ev.f.type ∧ e.f.pval = ev.f.pval) := by
    intro e hm
    obtain ⟨q, hq, hq1, hq2, _⟩ := forall2_mem _ _ _ hf2 e hm
    have := names_option_of s.g_flags e hq2
    rw [hq1] at this
    exact hlast q hq e.f ev.f this hopt
  have hm : res'.sys.mem
      = apply_events env (store env (apply_events env s.mem evs1) ev.f ev.str_value
          ev.bool_value) evs2 := by
    rw [hmem, apply_events_append]
    rfl
  have hread : res'.sys.mem.read ev.f.type ev.f.pval
      = (store env (apply_events env s.mem evs1) ev.f ev.str_value
          ev.bool_value).read ev.f.type ev.f.pval := by
    rw [hm]
    exact apply_events_other env _ _ evs2 _ hlast2
  have hself := store_read_self env (apply_events env s.mem evs1) ev.f ev.str_value
    ev.bool_value
  have hval : ev.f.type ≠ FLAG_BOOL → ∃ v, ev.str_value = some v := by
    intro hnb
    cases hv : ev.str_value with
    | none => exact absurd ⟨hv, hnb⟩ hwrite
    | some v => exact ⟨v, rfl⟩
  have hbool : ev.f.type = FLAG_BOOL → res'.sys.mem.b ev.f.pval = ev.bool_value := by
    intro ht
    rw [ht] at hread
    rw [read_b _ _ _ hread]
    exact hself.1 ht
  rw [← harg2]
  refine ⟨evs1, ev, evs2, hf, hf1, hf2, rfl, by rw [harg2]; exact hopt, ?_, hnames, ?_, ?_,
    hbool, ?_, ?_, ?_, strtol_numeral⟩
  · intro hk hnb
    obtain ⟨v, hv⟩ := hval hnb
    have := hshort ev.f (by rw [← harg2]; exact hk) hnb
    rw [hv] at this
    exact ⟨v, this.symm, hv⟩
  · intro NAME VALUE harg h1 h2
    have hk := kind_of_long_eq s.g_flags NAME VALUE h1 h2
    rw [← harg] at hk
    rcases hnames with ⟨hn, _, _⟩ | ⟨hn, hb⟩ | ⟨hn, _, _⟩
    · rw [hn] at hk
      split at hk <;> cases hk
    · rw [hn] at hk
      split at hk
      · cases hk
      · rename_i g hg
        simp only [Kind.long.injEq] at hk
        obtain ⟨rfl, hv⟩ := hk
        refine ⟨hv, hb, hg, ?_⟩
        have := (find_long_registered s.g_flags hreg _ _ _ hg).2
        simpa using this
    · rw [hn] at hk
      split at hk <;> cases hk
  · intro ht hk
    rw [hbool ht]
    rcases hnames with ⟨hn, _, _⟩ | ⟨_, hb⟩ | ⟨_, hb, _⟩
    · rcases hk with ⟨v, hk⟩ | hk
      · rw [hn] at hk
        cases hk
      · rw [hn] at hk
        cases hk
    · exact hb
    · exact hb
  · intro ht
    obtain ⟨v, hv⟩ := hval (by rw [ht]; decide)
    rw [ht] at hread
    exact ⟨v, hv, by rw [read_s _ _ _ hread]; exact hself.2.1 ht v hv⟩
  · intro ht
    obtain ⟨v, hv⟩ := hval (by rw [ht]; decide)
    rw [ht] at hread
    exact ⟨v, hv, by rw [read_i _ _ _ hread]; exact hself.2.2.1 ht v hv⟩
  · intro ht
    obtain ⟨v, hv⟩ := hval (by rw [ht]; decide)
    rw [ht] at hread
    exact ⟨v, hv, by rw [read_d _ _ _ hread]; exact hself.2.2.2 ht v hv⟩

theorem last_token_decides_witness :
    ∃ res, flag_parse demo_env demo_sys
        (((['p'] :: [['-', 'c'], ['7'], ['f'], ['-', 'c'], ['4', '2']]).length : Nat) : Int)
        (mkArgv (['p'] :: [['-', 'c'], ['7'], ['f'], ['-', 'c'], ['4', '2']])) ['u'] 0
          = .ok res ∧
      res.sys.calls = [] ∧ res.sys.mem.i 0 = 42 := by
  obtain ⟨evs1, ev, evs2, _, _, _, _, hopt, hshort, _, _, _, _, _, hint, _⟩ :=
    last_token_decides demo_env demo_sys ['p'] [['-', 'c'], ['7'], ['f'], ['-', 'c'], ['4', '2']]
      ['u'] 0 _ demo_registered (by decide) rfl rfl [(['-', 'c'], some ['7'])] [] ['-', 'c']
      (some ['4', '2']) rfl (by simp)
  have hf : ev.f = demo_count :=
    Option.some.inj (hopt.symm.trans
      (rfl : option_of demo_sys.g_flags ['-', 'c'] = some demo_count))
  obtain ⟨v, hv, hi⟩ := hint (by rw [hf]; rfl)
  obtain ⟨v2, hw2, hv2⟩ := hshort (by rw [hf]; rfl) (by rw [hf]; decide)
  have h42 : v = ['4', '2'] := by
    rw [hv2] at hv
    rw [← Option.some.inj hv]
    exact (Option.some.inj hw2).symm
  rw [hf, h42] at hi
  exact ⟨_, rfl, rfl, hi.trans (by decide)⟩

/-! ## The destinations a parse writes, by the tokens scanned as flags -/

end FlagC
